import Mathlib

/-!
# Verification development for `arangod/Aql/Optimizer.cpp`

A shallow embedding of the AQL query optimizer driver (`Optimizer::Optimizer`,
`Optimizer::createPlans`, `Optimizer::estimatePlans`, `Optimizer::sortPlans`,
`Optimizer::setupRules`) together with
the parts of the C++ standard library it calls (`std::upper_bound`, `std::stable_sort`,
`std::sort`). Behind the optimizer stand the sub-query counter of `arangod/Aql/Parser.h`,
the callbacks of `arangod/Aql/DocumentProducingBlock.cpp` and, in the namespace `VocBase`,
the database defaults of `arangod/VocBase/vocbase-defaults.cpp`.

Conventions of the embedding:

* `ExecutionPlan*` values are modelled by an arbitrary type `P`; the member functions the
  driver calls on a plan are collected in `ExecutionPlanOps`.
* C++ `int` levels and return codes are `Int` (the driver only compares and copies them).
* The outer `while` loop of `createPlans` need not terminate for arbitrary rules, so it is
  driven by a pass budget; a run that exhausts the budget ends with `Exit.outOfFuel`.
* Everything the driver prints or does to a plan is recorded in an event log.
* Values of the type `size_t` are natural numbers below `SIZE_RANGE`; an increment is taken
  modulo `SIZE_RANGE`.
-/

namespace Aql

/-! ## Error codes -/

/-- The error code `TRI_ERROR_NO_ERROR`. -/
def TRI_ERROR_NO_ERROR : Int := 0

/-! ## Plans -/

/-- The member functions of `ExecutionPlan` that the optimizer driver calls. The class itself
is not part of `Optimizer.cpp`, so its operations are parameters of the embedding.
`findVarUsage` mutates the plan object, hence returns the updated plan; `getCost` caches its
result inside the plan and is observationally a pure function. -/
structure ExecutionPlanOps (P : Type) where
  /-- Models `ExecutionPlan::varUsageComputed`. -/
  varUsageComputed : P → Bool
  /-- Models `ExecutionPlan::findVarUsage`. -/
  findVarUsage : P → P
  /-- Models `ExecutionPlan::getCost`. -/
  getCost : P → Nat

/-! ## The plan list -/

/-- Modelled from the spec: `Optimizer::PlanList` is declared in `Optimizer.h`, which is not
among the sources. It keeps the plans and the level each plan has reached in two parallel
sequences, `list` and `levelDone`, as used by `createPlans` (`_plans.list`,
`_plans.levelDone`). -/
structure PlanList (P : Type) where
  /-- The plans. -/
  list : List P
  /-- The level reached by each plan. -/
  levelDone : List Int
deriving DecidableEq, Repr

namespace PlanList

variable {P : Type}

/-- The empty plan list, `PlanList newPlans;`. -/
def empty : PlanList P := ⟨[], []⟩

/-- Modelled from the spec: `PlanList::size`, the number of plans held. -/
def size (pl : PlanList P) : Nat := pl.list.length

/-- Modelled from the spec: `PlanList::push_back(p, level)` appends a plan together with the
level it has reached. -/
def push_back (pl : PlanList P) (p : P) (level : Int) : PlanList P :=
  ⟨pl.list ++ [p], pl.levelDone ++ [level]⟩

/-- Modelled from the spec: `PlanList::pop_front(level)` removes the front plan and its level.
The result is `none` when one of the two sequences is empty (undefined in C++). -/
def pop_front (pl : PlanList P) : Option (P × Int × PlanList P) :=
  match pl.list, pl.levelDone with
  | p :: ps, l :: ls => some (p, l, ⟨ps, ls⟩)
  | _, _ => none

/-- The entries of a plan list as pairs. -/
def entries (pl : PlanList P) : List (P × Int) := pl.list.zip pl.levelDone

/-- Pushes a sequence of entries, one `push_back` after the other. -/
def pushAll (pl : PlanList P) (es : List (P × Int)) : PlanList P :=
  es.foldl (fun acc e => acc.push_back e.1 e.2) pl

end PlanList

/-! ## Events -/

/-- What a rule function did when it was called: it either returned an error code or threw,
and in both cases it may have pushed entries into the sink `newPlans` before. -/
inductive RuleOutcome (P : Type) where
  /-- The rule returned `res` after pushing `pushed` into the sink. -/
  | returned (res : Int) (pushed : List (P × Int))
  /-- The rule threw an exception after pushing `pushed` into the sink. -/
  | thrown (pushed : List (P × Int))
deriving DecidableEq, Repr

namespace RuleOutcome

variable {P : Type}

/-- The entries a rule call pushed into the sink. -/
def pushed : RuleOutcome P → List (P × Int)
  | returned _ es => es
  | thrown es => es

end RuleOutcome

/-- The observable steps of a run of the optimizer. -/
inductive Event (P : Type) where
  /-- The driver printed `Entering pass <pass> of query optimization...`. -/
  | enterPass (pass : Int)
  /-- The driver called `p->findVarUsage()`; `p` is the plan before the call. -/
  | findVarUsage (p : P)
  /-- The driver printed `Trying rule <name> ... with level <level> on plan <count>` and called
  the rule function on plan `p` with that level; `outcome` is what the call did. -/
  | tryRule (name : String) (level : Int) (count : Int) (p : P) (outcome : RuleOutcome P)
  /-- A plan was released with `delete`. -/
  | deletePlan (p : P)
  /-- The driver called `p->getCost()` in `estimatePlans`. -/
  | getCost (p : P)
  /-- The driver called `sortPlans`. -/
  | sortPlans
deriving DecidableEq, Repr

namespace Event

variable {P : Type}

/-- Is the event the start of a pass. -/
def isEnterPass : Event P → Bool
  | enterPass _ => true
  | _ => false

/-- Is the event a rule invocation. -/
def isTryRule : Event P → Bool
  | tryRule _ _ _ _ _ => true
  | _ => false

/-- Is the event the release of a plan. -/
def isDeletePlan : Event P → Bool
  | deletePlan _ => true
  | _ => false

/-- Is the event a cost estimation. -/
def isGetCost : Event P → Bool
  | getCost _ => true
  | _ => false

/-- Is the event the call of `sortPlans`. -/
def isSortPlans : Event P → Bool
  | sortPlans => true
  | _ => false

end Event

/-! ## Rules -/

/-- Modelled from the spec: `Optimizer::Rule` is declared in `Optimizer.h`, which is not among
the sources. A rule has a name, a rule function and a level. The rule function receives the
plan and the level and reports what it pushed into the sink and how it ended. -/
structure Rule (P : Type) where
  /-- The name, used for diagnostics. -/
  name : String
  /-- The rule function, `func(opt, plan, level, out)`. -/
  func : P → Int → RuleOutcome P
  /-- The level of the rule. -/
  level : Int

namespace Rule

variable {P : Type}

/-- Modelled from the spec: `Rule::operator<` is declared in `Optimizer.h`, which is not among
the sources. The search key built in `createPlans` (`Rule r("dummy", dummyRule, level)`)
carries nothing but a level, so rules are compared by level. -/
def lt (a b : Rule P) : Bool := decide (a.level < b.level)

end Rule

/-- The rule function `dummyRule` used for the search key; it is never called. -/
def dummyRule {P : Type} : P → Int → RuleOutcome P :=
  fun _ _ => RuleOutcome.returned TRI_ERROR_NO_ERROR []

/-! ## `std::upper_bound` -/

/-- The loop of `std::upper_bound(first, last, val)`: `len` is halved until it is zero. The
budget `fuel` is at least `len` at every call, and `len` decreases in every iteration. -/
def upper_bound_loop {P : Type} (rules : List (Rule P)) (val : Rule P) :
    Nat → Nat → Nat → Nat
  | 0, first, _ => first
  | fuel + 1, first, len =>
    if len = 0 then first
    else
      let half := len / 2
      let middle := first + half
      match rules[middle]? with
      | none => first
      | some m =>
        if Rule.lt val m then upper_bound_loop rules val fuel first half
        else upper_bound_loop rules val fuel (middle + 1) (len - half - 1)

/-- The call `std::upper_bound(_rules.begin(), _rules.end(), r)`: the result is an index into
the table, `rules.length` standing for `_rules.end()`. -/
def upper_bound {P : Type} (rules : List (Rule P)) (val : Rule P) : Nat :=
  upper_bound_loop rules val rules.length 0 rules.length

/-! ## `std::stable_sort` and `std::sort` -/

/-- Inserts `a` into a list sorted by `lt`, behind all elements that are not greater. -/
def insertAfterEquals {α : Type} (lt : α → α → Bool) (a : α) : List α → List α
  | [] => [a]
  | b :: l => if lt a b then a :: b :: l else b :: insertAfterEquals lt a l

/-- The library call `std::stable_sort(first, last)` with comparison `lt`: the elements are
inserted one after the other, each behind the elements equivalent to it. -/
def stable_sort {α : Type} (lt : α → α → Bool) (l : List α) : List α :=
  l.foldl (fun acc a => insertAfterEquals lt a acc) []

/-- The comparison `lt` is a strict weak ordering, the precondition of `std::sort`. -/
def StrictWeakOrder {α : Type} (lt : α → α → Bool) : Prop :=
  (∀ a, lt a a = false) ∧
  (∀ a b c, lt a b = true → lt b c = true → lt a c = true) ∧
  (∀ a b c, lt a c = true → lt a b = true ∨ lt b c = true)

/-- An implementation of the library call `std::sort(first, last, comp)`. The C++ standard
fixes the result only up to its contract: for a strict weak ordering the output is a
rearrangement of the input in which no element is less than an earlier one. The order of
equivalent elements is left to the implementation. -/
structure StdSort (α : Type) where
  /-- The sorting routine. -/
  sort : (α → α → Bool) → List α → List α
  /-- The output is a rearrangement of the input. -/
  perm : ∀ lt l, (sort lt l).Perm l
  /-- The output is ordered. -/
  sorted : ∀ lt l, StrictWeakOrder lt → (sort lt l).Pairwise (fun a b => lt b a = false)

/-! ## The optimizer -/

/-- How a run of `createPlans` ended. -/
inductive Exit where
  /-- The function returned the code `res`. -/
  | returned (res : Int)
  /-- An exception thrown by a rule left the function. -/
  | thrown
  /-- The assertion `TRI_ASSERT(it != _rules.end())` failed. -/
  | assertFailed
  /-- The run reached undefined behaviour: `_rules.back()` on an empty table or `pop_front`
  on an empty sequence. -/
  | undefinedBehaviour
  /-- The pass budget was used up while the loop condition still held. -/
  | outOfFuel
deriving DecidableEq, Repr

/-- The state a run of `createPlans` leaves behind: how it ended, the member `_plans`, and the
log of everything that happened. -/
structure Run (P : Type) where
  /-- How the run ended. -/
  exit : Exit
  /-- The member `_plans` of the optimizer at the end of the run. -/
  _plans : PlanList P
  /-- The events of the run, oldest first. -/
  log : List (Event P)
deriving DecidableEq, Repr

/-- The destructor of a `PlanList` and the releasing part of `PlanList::clear` and
`PlanList::steal`: every plan still held is released with `delete`. -/
def deleteAll {P : Type} (pl : PlanList P) : List (Event P) :=
  pl.list.map Event.deletePlan

/-- The loop `for (auto p : _plans.list) if (! p->varUsageComputed()) p->findVarUsage();`. -/
def findVarUsageLoop {P : Type} (ops : ExecutionPlanOps P) :
    List P → List (Event P) → List P × List (Event P)
  | [], log => ([], log)
  | p :: ps, log =>
    if ops.varUsageComputed p then
      let r := findVarUsageLoop ops ps log
      (p :: r.1, r.2)
    else
      let r := findVarUsageLoop ops ps (log ++ [Event.findVarUsage p])
      (ops.findVarUsage p :: r.1, r.2)

/-- The lines `Rule r("dummy", dummyRule, level); auto it = std::upper_bound(...);
TRI_ASSERT(it != _rules.end()); res = it->func(this, p, it->level, newPlans);`: the rule the
plan is dispatched to and what the call did, or `none` when the assertion fails. -/
def dispatch {P : Type} (rules : List (Rule P)) (level : Int) (p : P) :
    Option (Rule P × RuleOutcome P) :=
  let r : Rule P := ⟨"dummy", dummyRule, level⟩
  match rules[upper_bound rules r]? with
  | none => none
  | some it => some (it, it.func p it.level)

/-- How the loop over the current plans ended. -/
inductive DrainStatus where
  /-- All plans were processed. -/
  | completed
  /-- A rule returned the code `res`, which is not `TRI_ERROR_NO_ERROR`. -/
  | failed (res : Int)
  /-- A rule threw an exception. -/
  | threw
  /-- The assertion `TRI_ASSERT(it != _rules.end())` failed. -/
  | assertFailed
  /-- The call of `pop_front` found no level. -/
  | undefinedBehaviour
deriving DecidableEq, Repr

/-- The state after the loop over the current plans. -/
structure DrainResult (P : Type) where
  /-- How the loop ended. -/
  status : DrainStatus
  /-- The member `_plans`. -/
  _plans : PlanList P
  /-- The local `newPlans`. -/
  newPlans : PlanList P
  /-- The log. -/
  log : List (Event P)
deriving DecidableEq, Repr

/-- The loop `while (_plans.size() > 0) { ... }` of `createPlans`. The first two arguments are
`_plans.list` and `_plans.levelDone`; taking their heads apart is the call
`_plans.pop_front(level)`, and the loop ends when `_plans.list` is empty. -/
def drainLoop {P : Type} (rules : List (Rule P)) (maxRuleLevel : Int) :
    List P → List Int → PlanList P → Int → List (Event P) → DrainResult P
  | [], levelDone, newPlans, _, log => ⟨DrainStatus.completed, ⟨[], levelDone⟩, newPlans, log⟩
  | p :: ps, [], newPlans, _, log =>
    ⟨DrainStatus.undefinedBehaviour, ⟨p :: ps, []⟩, newPlans, log⟩
  | p :: ps, level :: ls, newPlans, count, log =>
    if level = maxRuleLevel then
      drainLoop rules maxRuleLevel ps ls (newPlans.push_back p level) count log
    else
      match dispatch rules level p with
      | none => ⟨DrainStatus.assertFailed, ⟨ps, ls⟩, newPlans, log⟩
      | some (it, RuleOutcome.thrown pushed) =>
        ⟨DrainStatus.threw, ⟨ps, ls⟩, newPlans.pushAll pushed,
          log ++ [Event.tryRule it.name it.level count p (RuleOutcome.thrown pushed),
                  Event.deletePlan p]⟩
      | some (it, RuleOutcome.returned res pushed) =>
        if res ≠ TRI_ERROR_NO_ERROR then
          ⟨DrainStatus.failed res, ⟨ps, ls⟩, newPlans.pushAll pushed,
            log ++ [Event.tryRule it.name it.level count p (RuleOutcome.returned res pushed)]⟩
        else
          drainLoop rules maxRuleLevel ps ls (newPlans.pushAll pushed) (count + 1)
            (log ++ [Event.tryRule it.name it.level count p (RuleOutcome.returned res pushed)])

/-- The loop `leastDoneLevel = maxRuleLevel; for (auto l : _plans.levelDone) if
(l < leastDoneLevel) leastDoneLevel = l;`. -/
def leastDoneLevelLoop (maxRuleLevel : Int) (levelDone : List Int) : Int :=
  levelDone.foldl (fun leastDoneLevel l => if l < leastDoneLevel then l else leastDoneLevel)
    maxRuleLevel

/-- The result of the pass loop: either the loop was left (by its condition or by `break`)
and the run goes on with the estimation, or the run ended inside the loop. -/
inductive LoopResult (P : Type) where
  /-- The loop was left with `_plans` and the log as given. -/
  | left (_plans : PlanList P) (log : List (Event P))
  /-- The run ended inside the loop. -/
  | ended (run : Run P)
deriving DecidableEq, Repr

/-- One pass, from `Entering pass` up to the end of the loop over the current plans. -/
def runPass {P : Type} (ops : ExecutionPlanOps P) (rules : List (Rule P)) (maxRuleLevel : Int)
    (pass : Int) (_plans : PlanList P) (log : List (Event P)) : DrainResult P :=
  let log := log ++ [Event.enterPass pass]
  let r := findVarUsageLoop ops _plans.list log
  drainLoop rules maxRuleLevel r.1 _plans.levelDone PlanList.empty 0 r.2

/-- Modelled from the spec: `PlanList::steal(b)` takes over the content of `b` and releases
what the list held before. Returns the new `_plans` and the log. -/
def steal {P : Type} (_plans newPlans : PlanList P) (log : List (Event P)) :
    PlanList P × List (Event P) :=
  (newPlans, log ++ deleteAll _plans)

/-- The loop `while (leastDoneLevel < maxRuleLevel) { ... }` of `createPlans`, with a budget
of `fuel` passes. The local `pass` is never incremented by the code and stays 1. -/
def passLoop {P : Type} (ops : ExecutionPlanOps P) (maxNumberOfPlans : Nat)
    (rules : List (Rule P)) (maxRuleLevel : Int) (pass : Int) :
    Nat → Int → PlanList P → List (Event P) → LoopResult P
  | 0, leastDoneLevel, _plans, log =>
    if leastDoneLevel < maxRuleLevel then LoopResult.ended ⟨Exit.outOfFuel, _plans, log⟩
    else LoopResult.left _plans log
  | fuel + 1, leastDoneLevel, _plans, log =>
    if leastDoneLevel < maxRuleLevel then
      let d := runPass ops rules maxRuleLevel pass _plans log
      match d.status with
      | DrainStatus.failed res =>
        LoopResult.ended ⟨Exit.returned res, d._plans, d.log ++ deleteAll d.newPlans⟩
      | DrainStatus.threw =>
        LoopResult.ended ⟨Exit.thrown, d._plans, d.log ++ deleteAll d.newPlans⟩
      | DrainStatus.assertFailed =>
        LoopResult.ended ⟨Exit.assertFailed, d._plans, d.log⟩
      | DrainStatus.undefinedBehaviour =>
        LoopResult.ended ⟨Exit.undefinedBehaviour, d._plans, d.log⟩
      | DrainStatus.completed =>
        let s := steal d._plans d.newPlans d.log
        let leastDoneLevel := leastDoneLevelLoop maxRuleLevel s.1.levelDone
        if s.1.size ≥ maxNumberOfPlans then LoopResult.left s.1 s.2
        else passLoop ops maxNumberOfPlans rules maxRuleLevel pass fuel leastDoneLevel s.1 s.2
    else LoopResult.left _plans log

/-- The function `Optimizer::estimatePlans`: `getCost` is called on every plan. -/
def estimatePlans {P : Type} (_plans : PlanList P) (log : List (Event P)) : List (Event P) :=
  log ++ _plans.list.map Event.getCost

/-- The function `Optimizer::sortPlans`: `std::sort` on `_plans.list` with the comparison
`a->getCost() < b->getCost()`. The sequence `_plans.levelDone` is not touched. -/
def sortPlans {P : Type} (S : StdSort P) (ops : ExecutionPlanOps P) (_plans : PlanList P) :
    PlanList P :=
  ⟨S.sort (fun a b => decide (ops.getCost a < ops.getCost b)) _plans.list, _plans.levelDone⟩

/-- The tail of `createPlans` behind the pass loop: `estimatePlans(); sortPlans();
return TRI_ERROR_NO_ERROR;`. -/
def finish {P : Type} (S : StdSort P) (ops : ExecutionPlanOps P) (_plans : PlanList P)
    (log : List (Event P)) : Run P :=
  ⟨Exit.returned TRI_ERROR_NO_ERROR, sortPlans S ops _plans,
    estimatePlans _plans log ++ [Event.sortPlans]⟩

/-- The part of `createPlans` from the head of the pass loop to the end of the function: the
pass loop, and behind it the estimation, the sort and the return. -/
def createPlansFrom {P : Type} (S : StdSort P) (ops : ExecutionPlanOps P)
    (maxNumberOfPlans : Nat) (rules : List (Rule P)) (maxRuleLevel : Int) (pass : Int)
    (fuel : Nat) (leastDoneLevel : Int) (_plans : PlanList P) (log : List (Event P)) : Run P :=
  match passLoop ops maxNumberOfPlans rules maxRuleLevel pass fuel leastDoneLevel _plans log with
  | LoopResult.ended run => run
  | LoopResult.left _plans log => finish S ops _plans log

/-- The function `Optimizer::createPlans(plan)`. The static table `_rules`, the constant
`maxNumberOfPlans` (declared in `Optimizer.h`) and the content of the member `_plans` before
the call are arguments; `fuel` bounds the number of passes. -/
def createPlans {P : Type} (S : StdSort P) (ops : ExecutionPlanOps P) (maxNumberOfPlans : Nat)
    (rules : List (Rule P)) (fuel : Nat) (_plans : PlanList P) (plan : P) : Run P :=
  match rules.getLast? with
  | none => ⟨Exit.undefinedBehaviour, _plans, []⟩
  | some back =>
    let maxRuleLevel := back.level
    let leastDoneLevel := 0
    let log := deleteAll _plans
    let seeded := PlanList.empty.push_back plan 0
    createPlansFrom S ops maxNumberOfPlans rules maxRuleLevel 1 fuel leastDoneLevel seeded log

/-- The number of passes a log records. -/
def passCount {P : Type} (log : List (Event P)) : Nat := log.countP Event.isEnterPass

/-- The level `_rules.back().level` read by `createPlans`, when the table is not empty. -/
def maxRuleLevel? {P : Type} (rules : List (Rule P)) : Option Int :=
  rules.getLast?.map Rule.level

/-! ## The rule table -/

/-- Modelled from the spec: `Optimizer::registerRule` is declared in `Optimizer.h`, which is
not among the sources; it appends a rule to the table. -/
def registerRule {P : Type} (_rules : List (Rule P)) (name : String)
    (f : P → Int → RuleOutcome P) (level : Int) : List (Rule P) :=
  _rules ++ [⟨name, f, level⟩]

/-- The rule functions of `OptimizerRules.h`, which is not among the sources. -/
structure OptimizerRules (P : Type) where
  /-- The rule function of `move-calculations-up`. -/
  moveCalculationsUpRule : P → Int → RuleOutcome P
  /-- The rule function of `move-filters-up`. -/
  moveFiltersUpRule : P → Int → RuleOutcome P
  /-- The rule function of `interchangeAdjacentEnumerations`. -/
  interchangeAdjacentEnumerations : P → Int → RuleOutcome P
  /-- The rule function of `remove-unnecessary-filters`. -/
  removeUnnecessaryFiltersRule : P → Int → RuleOutcome P
  /-- The rule function of `remove-unnecessary-calculations`. -/
  removeUnnecessaryCalculationsRule : P → Int → RuleOutcome P
  /-- The rule function of `remove-redundant-sorts`. -/
  removeRedundantSorts : P → Int → RuleOutcome P
  /-- The rule function of `use-index-range`. -/
  useIndexRange : P → Int → RuleOutcome P
  /-- The rule function of `use-index-for-sort`. -/
  useIndexForSort : P → Int → RuleOutcome P

/-- The registrations of `Optimizer::setupRules`, in the order of the source. -/
def registerAll {P : Type} (R : OptimizerRules P) (_rules : List (Rule P)) : List (Rule P) :=
  let _rules := registerRule _rules "move-calculations-up" R.moveCalculationsUpRule 10
  let _rules := registerRule _rules "move-filters-up" R.moveFiltersUpRule 20
  let _rules := registerRule _rules "interchangeAdjacentEnumerations"
    R.interchangeAdjacentEnumerations 100
  let _rules := registerRule _rules "remove-unnecessary-filters"
    R.removeUnnecessaryFiltersRule 110
  let _rules := registerRule _rules "remove-unnecessary-calculations"
    R.removeUnnecessaryCalculationsRule 120
  let _rules := registerRule _rules "remove-redundant-sorts" R.removeRedundantSorts 130
  let _rules := registerRule _rules "use-index-range" R.useIndexRange 210
  registerRule _rules "use-index-for-sort" R.useIndexForSort 220

/-- The function `Optimizer::setupRules`: the assertion `TRI_ASSERT(_rules.empty())`, the
registrations, and `std::stable_sort(_rules.begin(), _rules.end())`. The result is `none`
when the assertion fails. -/
def setupRules {P : Type} (R : OptimizerRules P) (_rules : List (Rule P)) :
    Option (List (Rule P)) :=
  if _rules.isEmpty then some (stable_sort Rule.lt (registerAll R _rules)) else none

set_option linter.dupNamespace false in
/-- The constructor `Optimizer::Optimizer`: `if (_rules.empty()) setupRules();`. The argument
and the result are the static table `_rules`; the result is `none` when the assertion of
`setupRules` fails. -/
def Optimizer.Optimizer {P : Type} (R : OptimizerRules P) (_rules : List (Rule P)) :
    Option (List (Rule P)) :=
  if _rules.isEmpty then setupRules R _rules else some _rules

/-- The static table after `n` constructions of an `Optimizer`, one after the other. -/
def constructTimes {P : Type} (R : OptimizerRules P) : Nat → List (Rule P) →
    Option (List (Rule P))
  | 0, _rules => some _rules
  | n + 1, _rules => (Optimizer.Optimizer R _rules).bind (constructTimes R n)

/-! ## The sub-query counter of `Parser` (arangod/Aql/Parser.h) -/

/-- The number of values of the type `size_t`, which the member `Parser::_subQueryCount` and
the row indexes of `DocumentProducingBlock` have: a `size_t` has 64 bits. -/
def SIZE_RANGE : Nat := 2 ^ 64

/-- The part of a `Parser` that the sub-query functions read and write: the member
`size_t _subQueryCount`, the number of active sub-queries. -/
structure Parser where
  /-- The member `_subQueryCount`. -/
  _subQueryCount : Nat
deriving DecidableEq, Repr

/-- The function `startSubQuery`: `++_subQueryCount;`, in the arithmetic of `size_t`. -/
def Parser.startSubQuery (p : Parser) : Parser :=
  ⟨(p._subQueryCount + 1) % SIZE_RANGE⟩

/-- The function `endSubQuery`: `TRI_ASSERT(_subQueryCount > 0); --_subQueryCount;`. The
result is `none` when the assertion fails. -/
def Parser.endSubQuery (p : Parser) : Option Parser :=
  if p._subQueryCount > 0 then some ⟨(p._subQueryCount - 1) % SIZE_RANGE⟩ else none

/-- The function `isInSubQuery`: `return (_subQueryCount > 0);`. -/
def Parser.isInSubQuery (p : Parser) : Bool :=
  decide (p._subQueryCount > 0)

/-- A call of one of the two functions that change the sub-query counter. -/
inductive SubQueryCall where
  /-- A call of `startSubQuery`. -/
  | startSubQuery
  /-- A call of `endSubQuery`. -/
  | endSubQuery
deriving DecidableEq, Repr

/-- One call on a parser; `none` when the assertion of `endSubQuery` fails. -/
def Parser.call (p : Parser) : SubQueryCall → Option Parser
  | SubQueryCall.startSubQuery => some p.startSubQuery
  | SubQueryCall.endSubQuery => p.endSubQuery

/-- A sequence of calls on a parser, first call first; `none` when an assertion fails on the
way. -/
def Parser.calls (p : Parser) : List SubQueryCall → Option Parser
  | [] => some p
  | c :: cs => (p.call c).bind (fun q => q.calls cs)

/-! ## The callbacks of `DocumentProducingBlock` (arangod/Aql/DocumentProducingBlock.cpp) -/

/-- What `buildCallback` and its callbacks use of code that is not in this file: the functions
of `VPackSlice`, the helpers of `transaction::helpers`, the two constants of `StaticStrings`
and the conversion `static_cast<RegisterId>`. All of them are taken to return a value. -/
structure SliceOps (Slice : Type) where
  /-- The constant `StaticStrings::IdString`. -/
  IdString : String
  /-- The constant `StaticStrings::KeyString`. -/
  KeyString : String
  /-- The call `slice.get(attribute)` with one attribute name. -/
  get : Slice → String → Slice
  /-- The call `slice.get(path)` with a vector of attribute names. -/
  getPath : Slice → List String → Slice
  /-- The call `slice.isNone()`. -/
  isNone : Slice → Bool
  /-- The call `slice.isCustom()`. -/
  isCustom : Slice → Bool
  /-- The value `VPackSlice::nullSlice()`. -/
  nullSlice : Slice
  /-- The helper `transaction::helpers::extractIdFromDocument`. -/
  extractIdFromDocument : Slice → Slice
  /-- The helper `transaction::helpers::extractKeyFromDocument`. -/
  extractKeyFromDocument : Slice → Slice
  /-- The helper `transaction::helpers::extractIdString(_trxPtr->resolver(), found, slice)`. -/
  extractIdString : Slice → Slice → String
  /-- The conversion `static_cast<RegisterId>(registerId)`. -/
  toRegisterId : Nat → Nat

/-- The third argument of a call of `AqlItemBlock::emplaceValue` in the callbacks. -/
inductive EmplacedValue (Slice : Type) where
  /-- The string returned by `extractIdString`. -/
  | idString (s : String)
  /-- The value `AqlValueHintCopy(found.begin())`. -/
  | hintCopy (s : Slice)
  /-- The value `AqlValueHintDocumentNoCopy(found.begin())`. -/
  | hintDocumentNoCopy (s : Slice)
  /-- A slice passed as it is. -/
  | slice (s : Slice)
deriving DecidableEq, Repr

/-- A call that a callback makes on the block `res`. -/
inductive BlockCall (Slice : Type) where
  /-- The call `res->emplaceValue(index, varNr, value)`. -/
  | emplaceValue (index : Nat) (varNr : Nat) (value : EmplacedValue Slice)
  /-- The call `res->copyValuesFromRow(currentRow, curRegs, fromRow)`. -/
  | copyValuesFromRow (currentRow : Nat) (curRegs : Nat) (fromRow : Nat)
deriving DecidableEq, Repr

/-- Whether the call is a call of `emplaceValue`. -/
def BlockCall.isEmplaceValue {Slice : Type} : BlockCall Slice → Bool
  | BlockCall.emplaceValue _ _ _ => true
  | _ => false

/-- Whether the call is a call of `copyValuesFromRow`. -/
def BlockCall.isCopyValuesFromRow {Slice : Type} : BlockCall Slice → Bool
  | BlockCall.copyValuesFromRow _ _ _ => true
  | _ => false

/-- The type `DocumentProducingFunction`: the arguments are `slice`, `registerId`, the value
of `row` before the call and `fromRow`; the result is the calls made on `res`, in their order,
and the value of `row` after the call. -/
abbrev DocumentProducingFunction (Slice : Type) : Type :=
  Slice → Nat → Nat → Nat → List (BlockCall Slice) × Nat

/-- The members of a `DocumentProducingBlock` that `buildCallback` reads, with the result of
`_node->projection()`. -/
structure DocumentProducingBlock where
  /-- The member `_produceResult`: whether the output variable is used later. -/
  _produceResult : Bool
  /-- The member `_useRawDocumentPointers`. -/
  _useRawDocumentPointers : Bool
  /-- The attribute names returned by `_node->projection()`. -/
  projection : List String
deriving DecidableEq, Repr

/-- The function `DocumentProducingBlock::buildCallback`. Every branch returns its own
callback, as in the source; `row` is a `size_t`, so `++row` is taken modulo 2^64. -/
def DocumentProducingBlock.buildCallback {Slice : Type} (ops : SliceOps Slice)
    (b : DocumentProducingBlock) : DocumentProducingFunction Slice :=
  if !b._produceResult then
    -- no result needed
    fun _ registerId row fromRow =>
      let calls : List (BlockCall Slice) := []
      let calls := if row ≠ fromRow then
        calls ++ [BlockCall.copyValuesFromRow row (ops.toRegisterId registerId) fromRow]
        else calls
      (calls, (row + 1) % SIZE_RANGE)
  else
    match b.projection with
    | [first] =>
      if first = ops.IdString then
        -- return _id attribute
        fun slice registerId row fromRow =>
          let found := ops.extractIdFromDocument slice
          let calls : List (BlockCall Slice) :=
            if ops.isCustom found then
              [BlockCall.emplaceValue row (ops.toRegisterId registerId)
                (EmplacedValue.idString (ops.extractIdString found slice))]
            else
              [BlockCall.emplaceValue row (ops.toRegisterId registerId)
                (EmplacedValue.hintCopy found)]
          let calls := if row ≠ fromRow then
            calls ++ [BlockCall.copyValuesFromRow row (ops.toRegisterId registerId) fromRow]
            else calls
          (calls, (row + 1) % SIZE_RANGE)
      else if first = ops.KeyString then
        -- return _key attribute
        if b._useRawDocumentPointers then
          fun slice registerId row fromRow =>
            let found := ops.extractKeyFromDocument slice
            let calls : List (BlockCall Slice) :=
              [BlockCall.emplaceValue row (ops.toRegisterId registerId)
                (EmplacedValue.hintDocumentNoCopy found)]
            let calls := if row ≠ fromRow then
              calls ++ [BlockCall.copyValuesFromRow row (ops.toRegisterId registerId) fromRow]
              else calls
            (calls, (row + 1) % SIZE_RANGE)
        else
          fun slice registerId row fromRow =>
            let found := ops.extractKeyFromDocument slice
            let calls : List (BlockCall Slice) :=
              [BlockCall.emplaceValue row (ops.toRegisterId registerId)
                (EmplacedValue.hintCopy found)]
            let calls := if row ≠ fromRow then
              calls ++ [BlockCall.copyValuesFromRow row (ops.toRegisterId registerId) fromRow]
              else calls
            (calls, (row + 1) % SIZE_RANGE)
      else
        -- return single-attribute projection
        if b._useRawDocumentPointers then
          fun slice registerId row fromRow =>
            let slice := ops.get slice first
            let calls : List (BlockCall Slice) :=
              if ops.isNone slice then
                [BlockCall.emplaceValue row (ops.toRegisterId registerId)
                  (EmplacedValue.slice ops.nullSlice)]
              else
                [BlockCall.emplaceValue row (ops.toRegisterId registerId)
                  (EmplacedValue.hintDocumentNoCopy slice)]
            let calls := if row ≠ fromRow then
              calls ++ [BlockCall.copyValuesFromRow row (ops.toRegisterId registerId) fromRow]
              else calls
            (calls, (row + 1) % SIZE_RANGE)
        else
          fun slice registerId row fromRow =>
            let slice := ops.get slice first
            let calls : List (BlockCall Slice) :=
              if ops.isNone slice then
                [BlockCall.emplaceValue row (ops.toRegisterId registerId)
                  (EmplacedValue.slice ops.nullSlice)]
              else
                [BlockCall.emplaceValue row (ops.toRegisterId registerId)
                  (EmplacedValue.hintCopy slice)]
            let calls := if row ≠ fromRow then
              calls ++ [BlockCall.copyValuesFromRow row (ops.toRegisterId registerId) fromRow]
              else calls
            (calls, (row + 1) % SIZE_RANGE)
    | projection =>
      if !projection.isEmpty then
        -- return multi-attribute projection
        if b._useRawDocumentPointers then
          fun slice registerId row fromRow =>
            let slice := ops.getPath slice projection
            let calls : List (BlockCall Slice) :=
              if ops.isNone slice then
                [BlockCall.emplaceValue row (ops.toRegisterId registerId)
                  (EmplacedValue.slice ops.nullSlice)]
              else
                [BlockCall.emplaceValue row (ops.toRegisterId registerId)
                  (EmplacedValue.hintDocumentNoCopy slice)]
            let calls := if row ≠ fromRow then
              calls ++ [BlockCall.copyValuesFromRow row (ops.toRegisterId registerId) fromRow]
              else calls
            (calls, (row + 1) % SIZE_RANGE)
        else
          fun slice registerId row fromRow =>
            let slice := ops.getPath slice projection
            let calls : List (BlockCall Slice) :=
              if ops.isNone slice then
                [BlockCall.emplaceValue row (ops.toRegisterId registerId)
                  (EmplacedValue.slice ops.nullSlice)]
              else
                [BlockCall.emplaceValue row (ops.toRegisterId registerId)
                  (EmplacedValue.hintCopy slice)]
            let calls := if row ≠ fromRow then
              calls ++ [BlockCall.copyValuesFromRow row (ops.toRegisterId registerId) fromRow]
              else calls
            (calls, (row + 1) % SIZE_RANGE)
      else
        -- return the document as is
        if b._useRawDocumentPointers then
          fun slice registerId row fromRow =>
            let calls : List (BlockCall Slice) :=
              [BlockCall.emplaceValue row (ops.toRegisterId registerId)
                (EmplacedValue.hintDocumentNoCopy slice)]
            let calls := if row ≠ fromRow then
              calls ++ [BlockCall.copyValuesFromRow row (ops.toRegisterId registerId) fromRow]
              else calls
            (calls, (row + 1) % SIZE_RANGE)
        else
          fun slice registerId row fromRow =>
            let calls : List (BlockCall Slice) :=
              [BlockCall.emplaceValue row (ops.toRegisterId registerId)
                (EmplacedValue.hintCopy slice)]
            let calls := if row ≠ fromRow then
              calls ++ [BlockCall.copyValuesFromRow row (ops.toRegisterId registerId) fromRow]
              else calls
            (calls, (row + 1) % SIZE_RANGE)

end Aql

/-! ## The database defaults (arangod/VocBase/vocbase-defaults.cpp) -/

namespace VocBase

/-- A VelocyPack value as far as the defaults use it: the none value, which `get` returns for
an attribute that is not there, a boolean, a number, or a value of another type. -/
inductive VPackValue where
  /-- The none value. -/
  | none
  /-- A boolean. -/
  | bool (b : Bool)
  /-- A number. -/
  | number (n : Int)
  /-- A value of another type. -/
  | other
deriving DecidableEq, Repr

/-- The call `isBoolean()`. -/
def VPackValue.isBoolean : VPackValue → Bool
  | VPackValue.bool _ => true
  | _ => false

/-- The call `getBool()` on a boolean. -/
def VPackValue.getBool : VPackValue → Bool
  | VPackValue.bool b => b
  | _ => false

/-- The call `isNumber()`. -/
def VPackValue.isNumber : VPackValue → Bool
  | VPackValue.number _ => true
  | _ => false

/-- The call `getNumericValue<TRI_voc_size_t>()` on a number: the number when it is in the
range of `TRI_voc_size_t`, whose largest value is `maxSize`, and `none` when it is not and
the call throws. -/
def VPackValue.getNumericValue (maxSize : Nat) : VPackValue → Option Nat
  | VPackValue.number n => if 0 ≤ n ∧ n ≤ (maxSize : Int) then some n.toNat else Option.none
  | _ => Option.none

/-- A slice as far as `TRI_FromJsonVocBaseDefaults` looks at it: an object with its
attributes, or a value that is not an object. -/
inductive VPackSlice where
  /-- An object with its attributes, in the order in which they were added. -/
  | object (attributes : List (String × VPackValue))
  /-- A value that is not an object. -/
  | notObject (value : VPackValue)
deriving DecidableEq, Repr

/-- The call `isObject()`. -/
def VPackSlice.isObject : VPackSlice → Bool
  | VPackSlice.object _ => true
  | VPackSlice.notObject _ => false

/-- The call `get(key)` on an object: the value of the attribute, or the none value. -/
def VPackSlice.get : VPackSlice → String → VPackValue
  | VPackSlice.object attributes, key => (attributes.lookup key).getD VPackValue.none
  | VPackSlice.notObject _, _ => VPackValue.none

/-- A `VPackBuilder` in which an object is being built: whether it is closed, and the
attributes added so far. -/
structure VPackBuilder where
  /-- The result of `isClosed()`. -/
  closed : Bool
  /-- The attributes added so far, oldest first. -/
  attributes : List (String × VPackValue)
deriving DecidableEq, Repr

/-- The call `builder.add(key, value)`. -/
def VPackBuilder.add (builder : VPackBuilder) (key : String) (value : VPackValue) :
    VPackBuilder :=
  { builder with attributes := builder.attributes ++ [(key, value)] }

/-- The structure `TRI_vocbase_defaults_t`, with the members that the functions of
`vocbase-defaults.cpp` read and write; the member `defaultMaximalSize` is a
`TRI_voc_size_t`. -/
structure TRI_vocbase_defaults_t where
  /-- The member `defaultMaximalSize`. -/
  defaultMaximalSize : Nat
  /-- The member `defaultWaitForSync`. -/
  defaultWaitForSync : Bool
  /-- The member `requireAuthentication`. -/
  requireAuthentication : Bool
  /-- The member `requireAuthenticationUnixSockets`. -/
  requireAuthenticationUnixSockets : Bool
  /-- The member `authenticateSystemOnly`. -/
  authenticateSystemOnly : Bool
  /-- The member `forceSyncProperties`. -/
  forceSyncProperties : Bool
deriving DecidableEq, Repr

/-- The function `TRI_vocbase_defaults_t::toVelocyPack(builder)`: the assertion
`TRI_ASSERT(! builder.isClosed())` and the six calls of `add`. The result is `none` when the
assertion fails. -/
def TRI_vocbase_defaults_t.toVelocyPack (d : TRI_vocbase_defaults_t) (builder : VPackBuilder) :
    Option VPackBuilder :=
  if builder.closed then none
  else
    let builder := builder.add "waitForSync" (VPackValue.bool d.defaultWaitForSync)
    let builder := builder.add "requireAuthentication" (VPackValue.bool d.requireAuthentication)
    let builder := builder.add "requireAuthenticationUnixSockets"
      (VPackValue.bool d.requireAuthenticationUnixSockets)
    let builder := builder.add "authenticateSystemOnly"
      (VPackValue.bool d.authenticateSystemOnly)
    let builder := builder.add "forceSyncProperties" (VPackValue.bool d.forceSyncProperties)
    let builder := builder.add "defaultMaximalSize"
      (VPackValue.number (d.defaultMaximalSize : Int))
    some builder

/-- The function `TRI_FromJsonVocBaseDefaults(defaults, slice)`. The result is the content of
`*defaults` after the call, or `none` when `getNumericValue` throws. The last block reads the
attribute "forceSyncProperties" a second time and assigns the number, converted to `bool`, to
the member `forceSyncProperties`; the attribute "defaultMaximalSize" is not read and the
member `defaultMaximalSize` is not assigned. -/
def TRI_FromJsonVocBaseDefaults (maxSize : Nat) (defaults : TRI_vocbase_defaults_t)
    (slice : VPackSlice) : Option TRI_vocbase_defaults_t :=
  if !slice.isObject then some defaults
  else
    let optionSlice := slice.get "waitForSync"
    let defaults := if optionSlice.isBoolean then
      { defaults with defaultWaitForSync := optionSlice.getBool } else defaults
    let optionSlice := slice.get "requireAuthentication"
    let defaults := if optionSlice.isBoolean then
      { defaults with requireAuthentication := optionSlice.getBool } else defaults
    let optionSlice := slice.get "requireAuthenticationUnixSockets"
    let defaults := if optionSlice.isBoolean then
      { defaults with requireAuthenticationUnixSockets := optionSlice.getBool } else defaults
    let optionSlice := slice.get "authenticateSystemOnly"
    let defaults := if optionSlice.isBoolean then
      { defaults with authenticateSystemOnly := optionSlice.getBool } else defaults
    let optionSlice := slice.get "forceSyncProperties"
    let defaults := if optionSlice.isBoolean then
      { defaults with forceSyncProperties := optionSlice.getBool } else defaults
    let optionSlice := slice.get "forceSyncProperties"
    if optionSlice.isNumber then
      (optionSlice.getNumericValue maxSize).map
        (fun n => { defaults with forceSyncProperties := decide (n ≠ 0) })
    else some defaults

/-- The defaults that are written in the concrete instances. -/
def writtenDefaults : TRI_vocbase_defaults_t :=
  ⟨1048576, true, true, false, true, true⟩

/-- The defaults that are read into in the concrete instances. -/
def targetDefaults : TRI_vocbase_defaults_t :=
  ⟨33554432, false, false, true, false, false⟩

end VocBase

namespace Aql

/-! ## Vocabulary of the statements and concrete inputs -/

/-- The table is ordered by level. -/
def SortedByLevel {P : Type} (rules : List (Rule P)) : Prop :=
  rules.Pairwise (fun a b => a.level ≤ b.level)

/-- The number of distinct levels in the table. -/
def distinctLevels {P : Type} (rules : List (Rule P)) : Nat :=
  (rules.map Rule.level).dedup.length

/-- Every rule of the table emits its output plans at the level it was invoked with. -/
def EmitsAtInvokedLevel {P : Type} (rules : List (Rule P)) : Prop :=
  ∀ r ∈ rules, ∀ (p : P) (l : Int), ∀ e ∈ (r.func p l).pushed, e.2 = l

/-- Every rule invocation emits at most `k` plans. -/
def EmitsAtMost {P : Type} (rules : List (Rule P)) (k : Nat) : Prop :=
  ∀ r ∈ rules, ∀ (p : P) (l : Int), (r.func p l).pushed.length ≤ k

/-- Is the event a rule invocation that returned a code other than `TRI_ERROR_NO_ERROR`. -/
def Event.isFailedRule {P : Type} : Event P → Bool
  | Event.tryRule _ _ _ _ (RuleOutcome.returned res _) => decide (res ≠ TRI_ERROR_NO_ERROR)
  | _ => false

/-- No rule invocation recorded in the log returned a code other than
`TRI_ERROR_NO_ERROR`. -/
def NoFailedRule {P : Type} (log : List (Event P)) : Prop :=
  ∀ e ∈ log, e.isFailedRule = false

/-- A run either records no failed rule invocation, or it records exactly one, followed by
releases only, and returns the code of that invocation. -/
def FailsAtMostOnce {P : Type} (run : Run P) : Prop :=
  NoFailedRule run.log ∨
  ∃ pre name level count p res pushed post,
    run.log = pre ++ Event.tryRule name level count p (RuleOutcome.returned res pushed) :: post ∧
    NoFailedRule pre ∧ (∀ e ∈ post, e.isDeletePlan = true) ∧ run.exit = Exit.returned res

/-- The number of distinct registered levels above the level `L`. -/
def remainingLevels {P : Type} (rules : List (Rule P)) (L : Int) : Nat :=
  ((rules.map Rule.level).toFinset.filter (fun d => L < d)).card

/-- The plans and the levels of a plan list are as many, and every level is at most `M` and
has at most `n` registered levels above it. -/
def LevelsWithin {P : Type} (rules : List (Rule P)) (M : Int) (n : Nat) (pl : PlanList P) :
    Prop :=
  pl.list.length = pl.levelDone.length ∧
  ∀ l ∈ pl.levelDone, l ≤ M ∧ remainingLevels rules l ≤ n

/-- The plan list that holds the given entries. -/
def PlanList.ofEntries {P : Type} (es : List (P × Int)) : PlanList P :=
  ⟨es.map Prod.fst, es.map Prod.snd⟩

/-- The plan as the loop over the variable usage leaves it: `findVarUsage` is applied when
`varUsageComputed` is false. -/
def withVarUsage {P : Type} (ops : ExecutionPlanOps P) (p : P) : P :=
  if ops.varUsageComputed p then p else ops.findVarUsage p

/-- What the loop over the current plans adds to the next generation when it processes the
entry `e`: the entry itself when its level is the maximum rule level, and otherwise what the
rule pushed that the plan is dispatched to. -/
def produced {P : Type} (rules : List (Rule P)) (maxRuleLevel : Int) (e : P × Int) :
    List (P × Int) :=
  if e.2 = maxRuleLevel then [e]
  else
    match dispatch rules e.2 e.1 with
    | some (_, out) => out.pushed
    | none => []

/-- The loop over the current plans goes on behind the entry `e`: its level is the maximum
rule level, or the rule it is dispatched to returns `TRI_ERROR_NO_ERROR`. -/
def entryCompletes {P : Type} (rules : List (Rule P)) (maxRuleLevel : Int) (e : P × Int) :
    Bool :=
  if e.2 = maxRuleLevel then true
  else
    match dispatch rules e.2 e.1 with
    | some (_, RuleOutcome.returned res _) => decide (res = TRI_ERROR_NO_ERROR)
    | _ => false

/-- Is the event a call of `findVarUsage`. -/
def Event.isFindVarUsage {P : Type} : Event P → Bool
  | Event.findVarUsage _ => true
  | _ => false

/-- Every level of the plan list is 0 or a registered level, and at most `M`. -/
def LevelsRegistered {P : Type} (rules : List (Rule P)) (M : Int) (pl : PlanList P) : Prop :=
  ∀ l ∈ pl.levelDone, (l = 0 ∨ ∃ r ∈ rules, r.level = l) ∧ l ≤ M

/-- Every rule invocation recorded in the log was made on a plan whose variable usage is
computed. -/
def RulesSeeVarUsage {P : Type} (ops : ExecutionPlanOps P) (log : List (Event P)) : Prop :=
  ∀ e ∈ log, ∀ (name : String) (level count : Int) (p : P) (out : RuleOutcome P),
    e = Event.tryRule name level count p out → ops.varUsageComputed p = true

/-- The plan a rule invocation was made on, for an event that is a rule invocation. -/
def Event.rulePlan? {P : Type} : Event P → Option P
  | Event.tryRule _ _ _ p _ => some p
  | _ => none

/-- The name of the rule invoked, for an event that is a rule invocation. -/
def Event.ruleName? {P : Type} : Event P → Option String
  | Event.tryRule name _ _ _ _ => some name
  | _ => none

/-- The names of the rules that the log records as invoked, in the order of the
invocations. -/
def ruleNames {P : Type} (log : List (Event P)) : List String :=
  log.filterMap Event.ruleName?

/-- Every rule of the table returns `TRI_ERROR_NO_ERROR` and emits exactly one plan, at the
level it was invoked with. -/
def EmitsOnePlan {P : Type} (rules : List (Rule P)) : Prop :=
  ∀ r ∈ rules, ∀ (p : P) (l : Int),
    ∃ q : P, r.func p l = RuleOutcome.returned TRI_ERROR_NO_ERROR [(q, l)]

/-- The levels of the table increase strictly. -/
def StrictlySortedByLevel {P : Type} (rules : List (Rule P)) : Prop :=
  rules.Pairwise (fun a b => a.level < b.level)

/-- The number of calls of `startSubQuery` in a sequence of calls. -/
def starts (cs : List SubQueryCall) : Nat := cs.count SubQueryCall.startSubQuery

/-- The number of calls of `endSubQuery` in a sequence of calls. -/
def ends (cs : List SubQueryCall) : Nat := cs.count SubQueryCall.endSubQuery

/-- No prefix of the sequence contains more ends than starts. -/
def NoPrefixEndsMore (cs : List SubQueryCall) : Prop :=
  ∀ k : Nat, k ≤ cs.length → ends (cs.take k) ≤ starts (cs.take k)

/-- After every prefix of the sequence fewer than 2^64 sub-queries are open. -/
def DepthInRange (cs : List SubQueryCall) : Prop :=
  ∀ k : Nat, k ≤ cs.length → starts (cs.take k) < ends (cs.take k) + SIZE_RANGE

/-- Slices are strings; an attribute of a slice is the slice followed by a dot and the name,
the slice "none" is the one that is none, and the slices that start with "c" are custom. -/
def demoSliceOps : SliceOps String where
  IdString := "_id"
  KeyString := "_key"
  get := fun s a => s ++ "." ++ a
  getPath := fun s path => path.foldl (fun s a => s ++ "." ++ a) s
  isNone := fun s => s == "none"
  isCustom := fun s => s.startsWith "c"
  nullSlice := "null"
  extractIdFromDocument := fun s => s ++ "._id"
  extractKeyFromDocument := fun s => s ++ "._key"
  extractIdString := fun found _ => "id:" ++ found
  toRegisterId := fun r => r % 2 ^ 32

/-- Plans are natural numbers; the variable usage is never computed in advance,
`findVarUsage` leaves the plan as it is, and a plan with a larger number is cheaper. -/
def demoOps : ExecutionPlanOps Nat := ⟨fun _ => false, fun p => p, fun p => 100 - p⟩

/-- A rule at level 10 that fans out two plans from one. -/
def fanOutRule : Rule Nat :=
  ⟨"fan-out", fun p l => RuleOutcome.returned TRI_ERROR_NO_ERROR [(2 * p, l), (2 * p + 1, l)], 10⟩

/-- A rule at level 20 that keeps the plan. -/
def keepRule : Rule Nat :=
  ⟨"keep", fun p l => RuleOutcome.returned TRI_ERROR_NO_ERROR [(p, l)], 20⟩

/-- A rule at level 20 that pushes the plan and then returns the error code 7. -/
def failingRule : Rule Nat :=
  ⟨"failing", fun p l => RuleOutcome.returned 7 [(p, l)], 20⟩

/-- A rule at level 20 that pushes the plan and then throws. -/
def throwingRule : Rule Nat :=
  ⟨"throwing", fun p l => RuleOutcome.thrown [(p, l)], 20⟩

/-- A rule named `A` at level 10 that keeps the plan. -/
def ruleA : Rule Nat :=
  ⟨"A", fun p l => RuleOutcome.returned TRI_ERROR_NO_ERROR [(p, l)], 10⟩

/-- A rule named `B` at level 10 that keeps the plan. -/
def ruleB : Rule Nat :=
  ⟨"B", fun p l => RuleOutcome.returned TRI_ERROR_NO_ERROR [(p, l)], 10⟩

/-- A rule at level 10 that drops the plan: it emits nothing. -/
def dropRule : Rule Nat :=
  ⟨"drop", fun _ _ => RuleOutcome.returned TRI_ERROR_NO_ERROR [], 10⟩

/-- A rule at level 0 that keeps the plan. -/
def zeroRule : Rule Nat :=
  ⟨"zero", fun p l => RuleOutcome.returned TRI_ERROR_NO_ERROR [(p, l)], 0⟩

/-- A rule at level -5 that keeps the plan. -/
def belowZeroRule : Rule Nat :=
  ⟨"below-zero", fun p l => RuleOutcome.returned TRI_ERROR_NO_ERROR [(p, l)], -5⟩

/-- A rule at level -7 that keeps the plan. -/
def farBelowZeroRule : Rule Nat :=
  ⟨"far-below-zero", fun p l => RuleOutcome.returned TRI_ERROR_NO_ERROR [(p, l)], -7⟩

/-- A rule at level 10 that emits the plans 11 and 12. -/
def tieRule : Rule Nat :=
  ⟨"tie", fun _ l => RuleOutcome.returned TRI_ERROR_NO_ERROR [(11, l), (12, l)], 10⟩

/-- Plans are natural numbers and the cost of a plan is its number divided by 10, so that
the plans 11 and 12 cost the same. -/
def tieOps : ExecutionPlanOps Nat := ⟨fun _ => false, fun p => p, fun p => p / 10⟩

/-- Plans are natural numbers; the variable usage of a plan is computed when its number is
odd, and `findVarUsage` turns the plan `p` into the plan `2 * p + 1`. -/
def flagOps : ExecutionPlanOps Nat :=
  ⟨fun p => decide (p % 2 = 1), fun p => 2 * p + 1, fun p => p⟩

/-- The rule functions of the built-in rules, all of them keeping the plan. -/
def keepAll : OptimizerRules Nat where
  moveCalculationsUpRule := fun p l => RuleOutcome.returned TRI_ERROR_NO_ERROR [(p, l)]
  moveFiltersUpRule := fun p l => RuleOutcome.returned TRI_ERROR_NO_ERROR [(p, l)]
  interchangeAdjacentEnumerations := fun p l => RuleOutcome.returned TRI_ERROR_NO_ERROR [(p, l)]
  removeUnnecessaryFiltersRule := fun p l => RuleOutcome.returned TRI_ERROR_NO_ERROR [(p, l)]
  removeUnnecessaryCalculationsRule :=
    fun p l => RuleOutcome.returned TRI_ERROR_NO_ERROR [(p, l)]
  removeRedundantSorts := fun p l => RuleOutcome.returned TRI_ERROR_NO_ERROR [(p, l)]
  useIndexRange := fun p l => RuleOutcome.returned TRI_ERROR_NO_ERROR [(p, l)]
  useIndexForSort := fun p l => RuleOutcome.returned TRI_ERROR_NO_ERROR [(p, l)]

/-- A rule at level 10 that emits the plan 11 at level 10 and the plan 12 at level 20. -/
def mixRule : Rule Nat :=
  ⟨"mix", fun _ _ => RuleOutcome.returned TRI_ERROR_NO_ERROR [(11, 10), (12, 20)], 10⟩

/-- A table with the levels 10, 20, 20, 30, used as a concrete instance. -/
def demoTable : List (Rule Nat) :=
  [⟨"a", fun p l => RuleOutcome.returned 0 [(p, l)], 10⟩,
   ⟨"b", fun p l => RuleOutcome.returned 0 [(p + 1, l)], 20⟩,
   ⟨"c", fun p l => RuleOutcome.returned 0 [(p + 2, l)], 20⟩,
   ⟨"d", fun p l => RuleOutcome.returned 0 [(p + 3, l)], 30⟩]

/-! ## Lemmas on the sorting routines -/

theorem insertAfterEquals_perm {α : Type} (lt : α → α → Bool) (a : α) (l : List α) :
    (insertAfterEquals lt a l).Perm (a :: l) := by
  induction l with
  | nil => simp [insertAfterEquals]
  | cons b l ih =>
    unfold insertAfterEquals
    split
    · exact List.Perm.refl _
    · exact (List.Perm.cons b ih).trans (List.Perm.swap a b l)

theorem foldl_insertAfterEquals_perm {α : Type} (lt : α → α → Bool) (l acc : List α) :
    (l.foldl (fun acc a => insertAfterEquals lt a acc) acc).Perm (acc ++ l) := by
  induction l generalizing acc with
  | nil => simp
  | cons a l ih =>
    simp only [List.foldl_cons]
    refine (ih _).trans ?_
    refine ((insertAfterEquals_perm lt a acc).append_right l).trans ?_
    simpa using (@List.perm_middle _ a acc l).symm

theorem stable_sort_perm {α : Type} (lt : α → α → Bool) (l : List α) :
    (stable_sort lt l).Perm l := by
  simpa [stable_sort] using foldl_insertAfterEquals_perm lt l []

theorem StrictWeakOrder.asymm {α : Type} {lt : α → α → Bool} (h : StrictWeakOrder lt)
    {a b : α} (hab : lt a b = true) : lt b a = false := by
  cases hba : lt b a with
  | false => rfl
  | true =>
    have := h.2.1 a b a hab hba
    rw [h.1 a] at this
    exact absurd this (by simp)

theorem insertAfterEquals_sorted {α : Type} {lt : α → α → Bool} (h : StrictWeakOrder lt)
    (a : α) (l : List α) (hl : l.Pairwise (fun x y => lt y x = false)) :
    (insertAfterEquals lt a l).Pairwise (fun x y => lt y x = false) := by
  induction l with
  | nil => simp [insertAfterEquals]
  | cons b l ih =>
    rw [List.pairwise_cons] at hl
    unfold insertAfterEquals
    split
    · rename_i hab
      refine List.Pairwise.cons ?_ (List.Pairwise.cons hl.1 hl.2)
      intro x hx
      rcases List.mem_cons.1 hx with rfl | hx
      · exact h.asymm hab
      · cases hxa : lt x a with
        | false => rfl
        | true =>
          have := h.2.1 x a b hxa hab
          rw [hl.1 x hx] at this
          exact absurd this (by simp)
    · rename_i hab
      refine List.Pairwise.cons ?_ (ih hl.2)
      intro x hx
      rcases List.mem_cons.1 ((insertAfterEquals_perm lt a l).mem_iff.1 hx) with rfl | hx
      · simpa using hab
      · exact hl.1 x hx

theorem foldl_insertAfterEquals_sorted {α : Type} {lt : α → α → Bool} (h : StrictWeakOrder lt)
    (l acc : List α) (hacc : acc.Pairwise (fun x y => lt y x = false)) :
    (l.foldl (fun acc a => insertAfterEquals lt a acc) acc).Pairwise
      (fun x y => lt y x = false) := by
  induction l generalizing acc with
  | nil => simpa using hacc
  | cons a l ih =>
    simp only [List.foldl_cons]
    exact ih _ (insertAfterEquals_sorted h a acc hacc)

theorem stable_sort_sorted {α : Type} {lt : α → α → Bool} (h : StrictWeakOrder lt)
    (l : List α) : (stable_sort lt l).Pairwise (fun x y => lt y x = false) :=
  foldl_insertAfterEquals_sorted h l [] List.Pairwise.nil

/-- An implementation of `std::sort` by insertion; it keeps equivalent elements in their
order. -/
def insertionStdSort (α : Type) : StdSort α where
  sort := stable_sort
  perm := stable_sort_perm
  sorted := fun _ l h => stable_sort_sorted h l

/-- An implementation of `std::sort` that reverses the sequence and then sorts it by
insertion; it returns equivalent elements in the reverse of their order. -/
def reversingStdSort (α : Type) : StdSort α where
  sort := fun lt l => stable_sort lt l.reverse
  perm := fun lt l => (stable_sort_perm lt l.reverse).trans (List.reverse_perm l)
  sorted := fun _ l h => stable_sort_sorted h l.reverse

/-! ## Lemmas on `std::upper_bound` -/


theorem upper_bound_loop_spec {P : Type} (rules : List (Rule P)) (val : Rule P)
    (hs : SortedByLevel rules) :
    ∀ (fuel first len : Nat), len ≤ fuel → first + len ≤ rules.length →
      (∀ j (hj : j < rules.length), j < first → rules[j].level ≤ val.level) →
      (∀ j (hj : j < rules.length), first + len ≤ j → val.level < rules[j].level) →
      upper_bound_loop rules val fuel first len ≤ rules.length ∧
      (∀ j (hj : j < rules.length), j < upper_bound_loop rules val fuel first len →
        rules[j].level ≤ val.level) ∧
      (∀ j (hj : j < rules.length), upper_bound_loop rules val fuel first len ≤ j →
        val.level < rules[j].level) := by
  have hsort := List.pairwise_iff_getElem.1 hs
  intro fuel
  induction fuel with
  | zero =>
    intro first len hlen hle hlo hhi
    have h0 : len = 0 := by omega
    subst h0
    simp only [upper_bound_loop]
    exact ⟨by omega, hlo, fun j hj h => hhi j hj (by omega)⟩
  | succ fuel ih =>
    intro first len hlen hle hlo hhi
    unfold upper_bound_loop
    by_cases h0 : len = 0
    · subst h0
      simp only [if_true]
      exact ⟨by omega, hlo, fun j hj h => hhi j hj (by omega)⟩
    · simp only [h0, if_false]
      have hhalf : len / 2 < len := Nat.div_lt_self (by omega) (by decide)
      have hmid : first + len / 2 < rules.length := by omega
      rw [List.getElem?_eq_getElem hmid]
      simp only
      by_cases hlt : Rule.lt val rules[first + len / 2] = true
      · simp only [hlt, if_true]
        have hlt' : val.level < rules[first + len / 2].level := by
          simpa [Rule.lt] using hlt
        refine ih first (len / 2) (by omega) (by omega) hlo ?_
        intro j hj hge
        rcases Nat.eq_or_lt_of_le hge with heq | hgt
        · subst heq; exact hlt'
        · exact lt_of_lt_of_le hlt' (hsort _ _ hmid hj hgt)
      · simp only [hlt, if_false]
        have hge : rules[first + len / 2].level ≤ val.level := by
          simpa [Rule.lt] using hlt
        refine ih (first + len / 2 + 1) (len - len / 2 - 1) (by omega) (by omega) ?_ ?_
        · intro j hj hjlt
          rcases Nat.eq_or_lt_of_le (Nat.lt_succ_iff.1 hjlt) with heq | hlt2
          · subst heq; exact hge
          · exact le_trans (hsort _ _ hj hmid hlt2) hge
        · intro j hj hjge
          exact hhi j hj (by omega)

theorem upper_bound_spec {P : Type} (rules : List (Rule P)) (val : Rule P)
    (hs : SortedByLevel rules) :
    upper_bound rules val ≤ rules.length ∧
    (∀ j (hj : j < rules.length), j < upper_bound rules val → rules[j].level ≤ val.level) ∧
    (∀ j (hj : j < rules.length), upper_bound rules val ≤ j → val.level < rules[j].level) := by
  unfold upper_bound
  exact upper_bound_loop_spec rules val hs rules.length 0 rules.length (le_refl _) (by omega)
    (fun j _ h => absurd h (Nat.not_lt_zero j)) (fun j hj h => absurd hj (by omega))

theorem maxRuleLevel?_eq_some {P : Type} {rules : List (Rule P)} {M : Int}
    (h : maxRuleLevel? rules = some M) :
    ∃ hpos : rules.length - 1 < rules.length, rules[rules.length - 1].level = M := by
  unfold maxRuleLevel? at h
  rw [List.getLast?_eq_getElem?] at h
  cases hr : rules with
  | nil => subst hr; simp at h
  | cons a l =>
    subst hr
    have hpos : (a :: l).length - 1 < (a :: l).length := by simp
    rw [List.getElem?_eq_getElem hpos] at h
    exact ⟨hpos, by simpa using h⟩

/-- Below the maximum level of a sorted table the search finds a rule. -/
theorem upper_bound_lt_length {P : Type} {rules : List (Rule P)} {M : Int}
    (hs : SortedByLevel rules) (hM : maxRuleLevel? rules = some M) (val : Rule P)
    (hlt : val.level < M) : upper_bound rules val < rules.length := by
  obtain ⟨hpos, hlast⟩ := maxRuleLevel?_eq_some hM
  obtain ⟨hle, hlo, -⟩ := upper_bound_spec rules val hs
  by_contra hcon
  have heq : upper_bound rules val = rules.length := by omega
  have := hlo (rules.length - 1) hpos (by omega)
  rw [hlast] at this
  omega


/-! ## Lemmas on the loop over the current plans -/

theorem drainLoop_log_prefix {P : Type} (rules : List (Rule P)) (M : Int) :
    ∀ (ps : List P) (ls : List Int) (np : PlanList P) (c : Int) (log : List (Event P)),
      log <+: (drainLoop rules M ps ls np c log).log := by
  intro ps
  induction ps with
  | nil => intro ls np c log; simp [drainLoop]
  | cons p ps ih =>
    intro ls np c log
    cases ls with
    | nil => simp [drainLoop]
    | cons l ls =>
      unfold drainLoop
      split
      · exact ih _ _ _ _
      · split
        · exact List.prefix_refl _
        · exact List.prefix_append _ _
        · split
          · exact List.prefix_append _ _
          · exact (List.prefix_append _ _).trans (ih _ _ _ _)

/-- The first step of the loop over the current plans on an entry that is dispatched to a
rule: the log goes on with the invocation of that rule. -/
theorem drainLoop_dispatch_log {P : Type} (rules : List (Rule P)) (M : Int) (p : P)
    (ps : List P) (l : Int) (ls : List Int) (np : PlanList P) (c : Int) (log : List (Event P))
    (it : Rule P) (out : RuleOutcome P) (hl : l ≠ M)
    (hd : dispatch rules l p = some (it, out)) :
    (log ++ [Event.tryRule it.name it.level c p out]) <+:
      (drainLoop rules M (p :: ps) (l :: ls) np c log).log := by
  unfold drainLoop
  simp only [hl, if_false, hd]
  cases out with
  | thrown pushed =>
    simp only
    exact ⟨[Event.deletePlan p], by simp⟩
  | returned res pushed =>
    simp only
    split
    · exact List.prefix_refl _
    · exact drainLoop_log_prefix _ _ _ _ _ _ _

/-- Claim C6. For a rule table sorted by level and a plan entry whose level `L` is below the
maximum rule level, the search in `createPlans` finds the first rule of the table whose level
is strictly greater than `L`: every rule before it has a level of at most `L`, and its level
is the smallest registered level above `L`. The plan is dispatched to that rule, the rule
function is called with the rule's own level, and this call is the next event of the loop
over the current plans. -/
theorem C6_dispatch_first_rule_above {P : Type} (rules : List (Rule P)) (M L : Int)
    (hs : SortedByLevel rules) (hM : maxRuleLevel? rules = some M) (hL : L < M) (p : P) :
    ∃ (i : Nat) (hi : i < rules.length),
      upper_bound rules ⟨"dummy", dummyRule, L⟩ = i ∧
      L < rules[i].level ∧
      (∀ j (hj : j < rules.length), j < i → rules[j].level ≤ L) ∧
      (∀ r ∈ rules, L < r.level → rules[i].level ≤ r.level) ∧
      dispatch rules L p = some (rules[i], rules[i].func p rules[i].level) ∧
      ∀ (ps : List P) (ls : List Int) (np : PlanList P) (c : Int) (log : List (Event P)),
        (log ++ [Event.tryRule rules[i].name rules[i].level c p
            (rules[i].func p rules[i].level)]) <+:
          (drainLoop rules M (p :: ps) (L :: ls) np c log).log := by
  have hsort := List.pairwise_iff_getElem.1 hs
  have hi : upper_bound rules ⟨"dummy", dummyRule, L⟩ < rules.length :=
    upper_bound_lt_length hs hM ⟨"dummy", dummyRule, L⟩ hL
  obtain ⟨-, hlo, hhi⟩ := upper_bound_spec rules ⟨"dummy", dummyRule, L⟩ hs
  have hd : dispatch rules L p = some (rules[upper_bound rules ⟨"dummy", dummyRule, L⟩],
      rules[upper_bound rules ⟨"dummy", dummyRule, L⟩].func p
        rules[upper_bound rules ⟨"dummy", dummyRule, L⟩].level) := by
    unfold dispatch
    simp only [List.getElem?_eq_getElem hi]
  refine ⟨_, hi, rfl, hhi _ hi (le_refl _), fun j hj h => hlo j hj h, ?_, hd, ?_⟩
  · intro r hr hLr
    obtain ⟨j, hj, rfl⟩ := List.getElem_of_mem hr
    rcases Nat.lt_or_ge j (upper_bound rules ⟨"dummy", dummyRule, L⟩) with h | h
    · have := hlo j hj h
      simp only at this
      omega
    · rcases Nat.eq_or_lt_of_le h with heq | hlt
      · simp only [heq, le_refl]
      · exact hsort _ _ hi hj hlt
  · intro ps ls np c log
    exact drainLoop_dispatch_log rules M p ps L ls np c log _ _ (by omega) hd

/-- An instance of claim C6: the table with the levels 10, 20, 20, 30 and a plan at level
10. -/
theorem C6_dispatch_first_rule_above_witness :
    ∃ (i : Nat) (hi : i < demoTable.length),
      upper_bound demoTable ⟨"dummy", dummyRule, 10⟩ = i ∧
      (10 : Int) < demoTable[i].level ∧
      (∀ j (hj : j < demoTable.length), j < i → demoTable[j].level ≤ 10) ∧
      (∀ r ∈ demoTable, (10 : Int) < r.level → demoTable[i].level ≤ r.level) ∧
      dispatch demoTable 10 7 = some (demoTable[i], demoTable[i].func 7 demoTable[i].level) ∧
      ∀ (ps : List Nat) (ls : List Int) (np : PlanList Nat) (c : Int) (log : List (Event Nat)),
        (log ++ [Event.tryRule demoTable[i].name demoTable[i].level c 7
            (demoTable[i].func 7 demoTable[i].level)]) <+:
          (drainLoop demoTable 30 (7 :: ps) (10 :: ls) np c log).log :=
  C6_dispatch_first_rule_above demoTable 30 10
    (by simp [SortedByLevel, demoTable]) (by decide) (by decide) 7


/-! ## Lemmas on the rule table -/

theorem Rule.strictWeakOrder_lt {P : Type} : StrictWeakOrder (Rule.lt : Rule P → Rule P → Bool) := by
  refine ⟨?_, ?_, ?_⟩
  · intro a; simp [Rule.lt]
  · intro a b c; simp only [Rule.lt, decide_eq_true_eq]; omega
  · intro a b c; simp only [Rule.lt, decide_eq_true_eq]; omega

theorem sortedByLevel_iff {P : Type} (rules : List (Rule P)) :
    SortedByLevel rules ↔ rules.Pairwise (fun x y => Rule.lt y x = false) := by
  unfold SortedByLevel
  refine ⟨fun h => h.imp ?_, fun h => h.imp ?_⟩ <;> intro a b <;> simp [Rule.lt]

theorem insertAfterEquals_filter_level {P : Type} (a : Rule P) (k : Int) :
    ∀ (acc : List (Rule P)), SortedByLevel acc →
      (insertAfterEquals Rule.lt a acc).filter (fun r => decide (r.level = k)) =
        acc.filter (fun r => decide (r.level = k)) ++ (if a.level = k then [a] else []) := by
  intro acc
  induction acc with
  | nil =>
    intro _
    by_cases h : a.level = k <;> simp [insertAfterEquals, h]
  | cons b l ih =>
    intro hs
    have hs' := List.pairwise_cons.1 hs
    unfold insertAfterEquals
    by_cases hab : Rule.lt a b = true
    · simp only [hab, if_true]
      have hab' : a.level < b.level := by simpa [Rule.lt] using hab
      by_cases h : a.level = k
      · have hnone : (b :: l).filter (fun r => decide (r.level = k)) = [] := by
          rw [List.filter_eq_nil_iff]
          intro x hx
          rcases List.mem_cons.1 hx with rfl | hx
          · simp; omega
          · have := hs'.1 x hx
            simp; omega
        rw [List.filter_cons, hnone]
        simp [h]
      · rw [List.filter_cons]
        simp [h]
    · have hab' : Rule.lt a b = false := by simpa using hab
      simp only [hab', Bool.false_eq_true, if_false]
      rw [List.filter_cons, List.filter_cons, ih hs'.2]
      by_cases hb : b.level = k <;> simp [hb]

theorem foldl_insertAfterEquals_filter_level {P : Type} (k : Int) :
    ∀ (l acc : List (Rule P)), SortedByLevel acc →
      (l.foldl (fun acc a => insertAfterEquals Rule.lt a acc) acc).filter
          (fun r => decide (r.level = k)) =
        acc.filter (fun r => decide (r.level = k)) ++ l.filter (fun r => decide (r.level = k)) := by
  intro l
  induction l with
  | nil => intro acc _; simp
  | cons a l ih =>
    intro acc hs
    simp only [List.foldl_cons]
    have hs' : SortedByLevel (insertAfterEquals Rule.lt a acc) :=
      (sortedByLevel_iff _).2
        (insertAfterEquals_sorted Rule.strictWeakOrder_lt a acc ((sortedByLevel_iff _).1 hs))
    rw [ih _ hs', insertAfterEquals_filter_level a k acc hs, List.filter_cons]
    by_cases h : a.level = k <;> simp [h]

/-- Claim C8. The sort of `setupRules` returns a rearrangement of the registered rules that is
ordered by non-decreasing level and keeps the rules of each level in registration order. For
the built-in registrations the table is exactly the eight rules with the levels 10, 20, 100,
110, 120, 130, 210, 220 in that order, so the maximum rule level read by `createPlans` is
220. -/
theorem C8_setupRules_table {P : Type} :
    (∀ regs : List (Rule P),
      (stable_sort Rule.lt regs).Perm regs ∧
      SortedByLevel (stable_sort Rule.lt regs) ∧
      ∀ k : Int, (stable_sort Rule.lt regs).filter (fun r => decide (r.level = k)) =
        regs.filter (fun r => decide (r.level = k))) ∧
    (∀ R : OptimizerRules P, ∃ table : List (Rule P),
      setupRules R [] = some table ∧
      table = stable_sort Rule.lt (registerAll R []) ∧
      table = registerAll R [] ∧
      table.map (fun r => (r.name, r.level)) =
        [("move-calculations-up", 10), ("move-filters-up", 20),
         ("interchangeAdjacentEnumerations", 100), ("remove-unnecessary-filters", 110),
         ("remove-unnecessary-calculations", 120), ("remove-redundant-sorts", 130),
         ("use-index-range", 210), ("use-index-for-sort", 220)] ∧
      maxRuleLevel? table = some 220) := by
  refine ⟨fun regs => ⟨stable_sort_perm _ _, ?_, fun k => ?_⟩, fun R => ?_⟩
  · exact (sortedByLevel_iff _).2 (stable_sort_sorted Rule.strictWeakOrder_lt regs)
  · simpa [stable_sort] using
      foldl_insertAfterEquals_filter_level k regs [] List.Pairwise.nil
  · exact ⟨_, rfl, rfl, rfl, rfl, rfl⟩

/-! ## Lemmas on plan lists -/

theorem PlanList.pushAll_list {P : Type} (es : List (P × Int)) :
    ∀ np : PlanList P, (np.pushAll es).list = np.list ++ es.map Prod.fst := by
  induction es with
  | nil => intro np; simp [PlanList.pushAll]
  | cons e es ih =>
    intro np
    have := ih (np.push_back e.1 e.2)
    simp only [PlanList.pushAll, List.foldl_cons] at this ⊢
    rw [this]
    simp [PlanList.push_back]

theorem PlanList.pushAll_levelDone {P : Type} (es : List (P × Int)) :
    ∀ np : PlanList P, (np.pushAll es).levelDone = np.levelDone ++ es.map Prod.snd := by
  induction es with
  | nil => intro np; simp [PlanList.pushAll]
  | cons e es ih =>
    intro np
    have := ih (np.push_back e.1 e.2)
    simp only [PlanList.pushAll, List.foldl_cons] at this ⊢
    rw [this]
    simp [PlanList.push_back]

theorem PlanList.pushAll_size {P : Type} (es : List (P × Int)) (np : PlanList P) :
    (np.pushAll es).size = np.size + es.length := by
  simp [PlanList.size, PlanList.pushAll_list]

/-! ## Lemmas on the passes -/

theorem findVarUsageLoop_spec {P : Type} (ops : ExecutionPlanOps P) :
    ∀ (ps : List P) (log : List (Event P)),
      (findVarUsageLoop ops ps log).1.length = ps.length ∧
      ∃ ext, (findVarUsageLoop ops ps log).2 = log ++ ext ∧
        ∀ e ∈ ext, ∃ p, e = Event.findVarUsage p := by
  intro ps
  induction ps with
  | nil => intro log; exact ⟨rfl, [], by simp [findVarUsageLoop], by simp⟩
  | cons p ps ih =>
    intro log
    unfold findVarUsageLoop
    split
    · obtain ⟨h1, ext, h2, h3⟩ := ih log
      exact ⟨by simp [h1], ext, h2, h3⟩
    · obtain ⟨h1, ext, h2, h3⟩ := ih (log ++ [Event.findVarUsage p])
      refine ⟨by simp [h1], Event.findVarUsage p :: ext, by simp [h2], ?_⟩
      intro e he
      rcases List.mem_cons.1 he with rfl | he
      · exact ⟨p, rfl⟩
      · exact h3 e he

theorem dispatch_eq_some {P : Type} {rules : List (Rule P)} {l : Int} {p : P} {it : Rule P}
    {out : RuleOutcome P} (h : dispatch rules l p = some (it, out)) :
    it ∈ rules ∧ out = it.func p it.level ∧
      rules[upper_bound rules ⟨"dummy", dummyRule, l⟩]? = some it := by
  unfold dispatch at h
  simp only at h
  split at h
  · exact absurd h (by simp)
  · rename_i it' hit
    simp only [Option.some.injEq, Prod.mk.injEq] at h
    obtain ⟨rfl, rfl⟩ := h
    exact ⟨List.getElem?_mem hit, rfl, hit⟩

theorem drainLoop_log {P : Type} (rules : List (Rule P)) (M : Int) :
    ∀ (ps : List P) (ls : List Int) (np : PlanList P) (c : Int) (log : List (Event P)),
      ∃ ext, (drainLoop rules M ps ls np c log).log = log ++ ext ∧
        ∀ e ∈ ext, e.isTryRule = true ∨ e.isDeletePlan = true := by
  intro ps
  induction ps with
  | nil => intro ls np c log; exact ⟨[], by simp [drainLoop], by simp⟩
  | cons p ps ih =>
    intro ls np c log
    cases ls with
    | nil => exact ⟨[], by simp [drainLoop], by simp⟩
    | cons l ls =>
      unfold drainLoop
      split
      · exact ih _ _ _ _
      · split
        · exact ⟨[], by simp, by simp⟩
        · exact ⟨_, rfl, by simp [Event.isTryRule, Event.isDeletePlan]⟩
        · split
          · exact ⟨_, rfl, by simp [Event.isTryRule]⟩
          · rename_i it res pushed _ _
            obtain ⟨ext, h1, h2⟩ := ih ls (np.pushAll pushed) (c + 1)
              (log ++ [Event.tryRule it.name it.level c p (RuleOutcome.returned res pushed)])
            refine ⟨Event.tryRule it.name it.level c p (RuleOutcome.returned res pushed) :: ext,
              by rw [h1]; simp, ?_⟩
            intro e he
            rcases List.mem_cons.1 he with rfl | he
            · simp [Event.isTryRule]
            · exact h2 e he

theorem drainLoop_failed_ne {P : Type} (rules : List (Rule P)) (M : Int) :
    ∀ (ps : List P) (ls : List Int) (np : PlanList P) (c : Int) (log : List (Event P))
      (res : Int), (drainLoop rules M ps ls np c log).status = DrainStatus.failed res →
      res ≠ TRI_ERROR_NO_ERROR := by
  intro ps
  induction ps with
  | nil => intro ls np c log res h; simp [drainLoop] at h
  | cons p ps ih =>
    intro ls np c log res
    cases ls with
    | nil => intro h; simp [drainLoop] at h
    | cons l ls =>
      unfold drainLoop
      split
      · exact ih _ _ _ _ _
      · split
        · intro h; simp at h
        · intro h; simp at h
        · split
          · rename_i hne
            intro h
            simp only [DrainStatus.failed.injEq] at h
            subst h
            exact hne
          · exact ih _ _ _ _ _

theorem createPlansFrom_of_not_lt {P : Type} (S : StdSort P) (ops : ExecutionPlanOps P)
    (cap : Nat) (rules : List (Rule P)) (M pass : Int) (fuel : Nat) (least : Int)
    (plans : PlanList P) (log : List (Event P)) (h : ¬ least < M) :
    createPlansFrom S ops cap rules M pass fuel least plans log = finish S ops plans log := by
  cases fuel <;> simp [createPlansFrom, passLoop, h]

theorem createPlansFrom_zero {P : Type} (S : StdSort P) (ops : ExecutionPlanOps P)
    (cap : Nat) (rules : List (Rule P)) (M pass : Int) (least : Int)
    (plans : PlanList P) (log : List (Event P)) (h : least < M) :
    createPlansFrom S ops cap rules M pass 0 least plans log = ⟨Exit.outOfFuel, plans, log⟩ := by
  simp [createPlansFrom, passLoop, h]

theorem createPlansFrom_succ {P : Type} (S : StdSort P) (ops : ExecutionPlanOps P)
    (cap : Nat) (rules : List (Rule P)) (M pass : Int) (fuel : Nat) (least : Int)
    (plans : PlanList P) (log : List (Event P)) (h : least < M) :
    createPlansFrom S ops cap rules M pass (fuel + 1) least plans log =
      match (runPass ops rules M pass plans log).status with
      | DrainStatus.failed res =>
        ⟨Exit.returned res, (runPass ops rules M pass plans log)._plans,
          (runPass ops rules M pass plans log).log ++
            deleteAll (runPass ops rules M pass plans log).newPlans⟩
      | DrainStatus.threw =>
        ⟨Exit.thrown, (runPass ops rules M pass plans log)._plans,
          (runPass ops rules M pass plans log).log ++
            deleteAll (runPass ops rules M pass plans log).newPlans⟩
      | DrainStatus.assertFailed =>
        ⟨Exit.assertFailed, (runPass ops rules M pass plans log)._plans,
          (runPass ops rules M pass plans log).log⟩
      | DrainStatus.undefinedBehaviour =>
        ⟨Exit.undefinedBehaviour, (runPass ops rules M pass plans log)._plans,
          (runPass ops rules M pass plans log).log⟩
      | DrainStatus.completed =>
        if (runPass ops rules M pass plans log).newPlans.size ≥ cap then
          finish S ops (runPass ops rules M pass plans log).newPlans
            ((runPass ops rules M pass plans log).log ++
              deleteAll (runPass ops rules M pass plans log)._plans)
        else
          createPlansFrom S ops cap rules M pass fuel
            (leastDoneLevelLoop M (runPass ops rules M pass plans log).newPlans.levelDone)
            (runPass ops rules M pass plans log).newPlans
            ((runPass ops rules M pass plans log).log ++
              deleteAll (runPass ops rules M pass plans log)._plans) := by
  simp only [createPlansFrom, passLoop, h, if_true, steal]
  cases hst : (runPass ops rules M pass plans log).status <;> simp only []
  by_cases hc : (runPass ops rules M pass plans log).newPlans.size ≥ cap
  · rw [if_pos hc, if_pos hc]
  · rw [if_neg hc, if_neg hc]

/-! ## The end of a run -/

theorem passLoop_ended_exit {P : Type} (ops : ExecutionPlanOps P) (cap : Nat)
    (rules : List (Rule P)) (M pass : Int) :
    ∀ (fuel : Nat) (least : Int) (plans : PlanList P) (log : List (Event P)) (run : Run P),
      passLoop ops cap rules M pass fuel least plans log = LoopResult.ended run →
      run.exit ≠ Exit.returned TRI_ERROR_NO_ERROR := by
  intro fuel
  induction fuel with
  | zero =>
    intro least plans log run h
    simp only [passLoop] at h
    split at h
    · simp only [LoopResult.ended.injEq] at h
      subst h
      simp
    · exact absurd h (by simp)
  | succ fuel ih =>
    intro least plans log run h
    simp only [passLoop] at h
    split at h
    · split at h
      · rename_i res hst
        simp only [LoopResult.ended.injEq] at h
        subst h
        have := drainLoop_failed_ne _ _ _ _ _ _ _ _ hst
        simpa using this
      · simp only [LoopResult.ended.injEq] at h; subst h; simp
      · simp only [LoopResult.ended.injEq] at h; subst h; simp
      · simp only [LoopResult.ended.injEq] at h; subst h; simp
      · split at h
        · exact absurd h (by simp)
        · exact ih _ _ _ _ h
    · exact absurd h (by simp)

theorem strictWeakOrder_getCost {P : Type} (ops : ExecutionPlanOps P) :
    StrictWeakOrder (fun a b : P => decide (ops.getCost a < ops.getCost b)) := by
  refine ⟨?_, ?_, ?_⟩
  · intro a; simp
  · intro a b c; simp only [decide_eq_true_eq]; omega
  · intro a b c; simp only [decide_eq_true_eq]; omega

theorem sortPlans_perm {P : Type} (S : StdSort P) (ops : ExecutionPlanOps P)
    (plans : PlanList P) : (sortPlans S ops plans).list.Perm plans.list :=
  S.perm _ _

theorem sortPlans_sorted {P : Type} (S : StdSort P) (ops : ExecutionPlanOps P)
    (plans : PlanList P) :
    (sortPlans S ops plans).list.Pairwise (fun a b => ops.getCost a ≤ ops.getCost b) := by
  refine (S.sorted _ plans.list (strictWeakOrder_getCost ops)).imp ?_
  intro a b h
  simpa using h

/-- Claim C1. Whenever `createPlans` returns `TRI_ERROR_NO_ERROR`, the pass loop was left with
a last generation, and the plan list the run leaves behind is a rearrangement of the plans of
that generation ordered by non-decreasing cost. A last generation with the costs 9, 1, 5 is
returned in the order 1, 5, 9. -/
theorem C1_createPlans_sorted_by_cost {P : Type} (S : StdSort P) (ops : ExecutionPlanOps P)
    (cap : Nat) (rules : List (Rule P)) (fuel : Nat) (prev : PlanList P) (plan : P) :
    ((createPlans S ops cap rules fuel prev plan).exit = Exit.returned TRI_ERROR_NO_ERROR →
      ∃ (M : Int) (lastGen : PlanList P) (log : List (Event P)),
        maxRuleLevel? rules = some M ∧
        passLoop ops cap rules M 1 fuel 0 (PlanList.empty.push_back plan 0) (deleteAll prev) =
          LoopResult.left lastGen log ∧
        (createPlans S ops cap rules fuel prev plan)._plans.list.Perm lastGen.list ∧
        (createPlans S ops cap rules fuel prev plan)._plans.list.Pairwise
          (fun a b => ops.getCost a ≤ ops.getCost b)) ∧
    (∀ (lastGen : PlanList P) (log : List (Event P)),
      lastGen.list.map ops.getCost = [9, 1, 5] →
      (finish S ops lastGen log)._plans.list.map ops.getCost = [1, 5, 9]) := by
  constructor
  · intro h
    unfold createPlans at h ⊢
    cases hlast : rules.getLast? with
    | none => simp [hlast] at h
    | some back =>
      simp only [hlast, createPlansFrom] at h ⊢
      refine ⟨back.level, ?_⟩
      cases hloop : passLoop ops cap rules back.level 1 fuel 0
          (PlanList.empty.push_back plan 0) (deleteAll prev) with
      | ended run =>
        simp only [hloop] at h
        exact absurd h (passLoop_ended_exit _ _ _ _ _ _ _ _ _ _ hloop)
      | left gen log =>
        refine ⟨gen, log, by simp [maxRuleLevel?, hlast], rfl, ?_, ?_⟩
        · exact sortPlans_perm S ops gen
        · exact sortPlans_sorted S ops gen
  · intro lastGen log hc
    have hperm : ((finish S ops lastGen log)._plans.list.map ops.getCost).Perm [1, 5, 9] := by
      refine ((sortPlans_perm S ops lastGen).map ops.getCost).trans ?_
      rw [hc]
      decide
    have hsorted : ((finish S ops lastGen log)._plans.list.map ops.getCost).Sorted (· ≤ ·) := by
      have := sortPlans_sorted S ops lastGen
      exact List.pairwise_map.2 this
    exact List.eq_of_perm_of_sorted hperm hsorted (by decide)

/-- An instance of claim C1: a run that fans the seeded plan out into the plans 2 and 3 and
returns them cheapest first, and a last generation with the costs 9, 1, 5. -/
theorem C1_createPlans_sorted_by_cost_witness :
    (createPlans (insertionStdSort Nat) demoOps 5 [fanOutRule, keepRule] 10
        PlanList.empty 1)._plans.list = [3, 2] ∧
    (∃ (M : Int) (lastGen : PlanList Nat) (log : List (Event Nat)),
      maxRuleLevel? [fanOutRule, keepRule] = some M ∧
      passLoop demoOps 5 [fanOutRule, keepRule] M 1 10 0 (PlanList.empty.push_back 1 0)
          (deleteAll PlanList.empty) = LoopResult.left lastGen log ∧
      (createPlans (insertionStdSort Nat) demoOps 5 [fanOutRule, keepRule] 10
        PlanList.empty 1)._plans.list.Perm lastGen.list ∧
      (createPlans (insertionStdSort Nat) demoOps 5 [fanOutRule, keepRule] 10
        PlanList.empty 1)._plans.list.Pairwise
          (fun a b => demoOps.getCost a ≤ demoOps.getCost b)) ∧
    (finish (insertionStdSort Nat) demoOps ⟨[91, 99, 95], [0, 0, 0]⟩ [])._plans.list.map
      demoOps.getCost = [1, 5, 9] :=
  ⟨by decide,
   (C1_createPlans_sorted_by_cost (insertionStdSort Nat) demoOps 5 [fanOutRule, keepRule] 10
      PlanList.empty 1).1 (by decide),
   (C1_createPlans_sorted_by_cost (insertionStdSort Nat) demoOps 5 [fanOutRule, keepRule] 10
      PlanList.empty 1).2 ⟨[91, 99, 95], [0, 0, 0]⟩ [] (by decide)⟩

/-! ## Counting passes -/

theorem passCount_append {P : Type} (a b : List (Event P)) :
    passCount (a ++ b) = passCount a + passCount b := by
  simp [passCount, List.countP_append]

theorem passCount_eq_zero {P : Type} (ext : List (Event P))
    (h : ∀ e ∈ ext, e.isEnterPass = false) : passCount ext = 0 := by
  unfold passCount
  rw [List.countP_eq_zero]
  intro e he
  simp [h e he]

theorem passCount_deleteAll {P : Type} (plans : PlanList P) :
    passCount (deleteAll plans) = 0 := by
  apply passCount_eq_zero
  intro e he
  simp only [deleteAll, List.mem_map] at he
  obtain ⟨p, -, rfl⟩ := he
  rfl

theorem passCount_finish {P : Type} (S : StdSort P) (ops : ExecutionPlanOps P)
    (plans : PlanList P) (log : List (Event P)) :
    passCount (finish S ops plans log).log = passCount log := by
  have h1 : passCount (plans.list.map Event.getCost) = 0 := by
    apply passCount_eq_zero
    intro e he
    simp only [List.mem_map] at he
    obtain ⟨p, -, rfl⟩ := he
    rfl
  simp only [finish, estimatePlans, passCount_append, h1]
  rfl

theorem runPass_passCount {P : Type} (ops : ExecutionPlanOps P) (rules : List (Rule P))
    (M pass : Int) (plans : PlanList P) (log : List (Event P)) :
    passCount (runPass ops rules M pass plans log).log = passCount log + 1 := by
  unfold runPass
  obtain ⟨-, ext1, h1, h1'⟩ := findVarUsageLoop_spec ops plans.list (log ++ [Event.enterPass pass])
  obtain ⟨ext2, h2, h2'⟩ := drainLoop_log rules M
    (findVarUsageLoop ops plans.list (log ++ [Event.enterPass pass])).1 plans.levelDone
    PlanList.empty 0 (findVarUsageLoop ops plans.list (log ++ [Event.enterPass pass])).2
  simp only
  rw [h2, h1, passCount_append, passCount_append, passCount_append]
  have e1 : passCount ext1 = 0 := by
    apply passCount_eq_zero
    intro e he
    obtain ⟨p, rfl⟩ := h1' e he
    rfl
  have e2 : passCount ext2 = 0 := by
    apply passCount_eq_zero
    intro e he
    cases e <;> simp_all [Event.isTryRule, Event.isDeletePlan, Event.isEnterPass]
    rcases h2' _ he with h | h <;> simp [Event.isTryRule, Event.isDeletePlan] at h
  rw [e1, e2]
  rfl

theorem createPlansFrom_passCount_ge {P : Type} (S : StdSort P) (ops : ExecutionPlanOps P)
    (cap : Nat) (rules : List (Rule P)) (M pass : Int) :
    ∀ (fuel : Nat) (least : Int) (plans : PlanList P) (log : List (Event P)),
      passCount log ≤ passCount (createPlansFrom S ops cap rules M pass fuel least plans log).log := by
  intro fuel
  induction fuel with
  | zero =>
    intro least plans log
    by_cases h : least < M
    · rw [createPlansFrom_zero _ _ _ _ _ _ _ _ _ h]
    · rw [createPlansFrom_of_not_lt _ _ _ _ _ _ _ _ _ _ h, passCount_finish]
  | succ fuel ih =>
    intro least plans log
    by_cases h : least < M
    · rw [createPlansFrom_succ _ _ _ _ _ _ _ _ _ _ h]
      have hp := runPass_passCount ops rules M pass plans log
      split
      · simp only [passCount_append]; omega
      · simp only [passCount_append]; omega
      · simp only; omega
      · simp only; omega
      · split
        · rw [passCount_finish, passCount_append]; omega
        · refine le_trans ?_ (ih _ _ _)
          rw [passCount_append]; omega
    · rw [createPlansFrom_of_not_lt _ _ _ _ _ _ _ _ _ _ h, passCount_finish]

theorem createPlansFrom_succ_passCount_gt {P : Type} (S : StdSort P) (ops : ExecutionPlanOps P)
    (cap : Nat) (rules : List (Rule P)) (M pass : Int) (fuel : Nat) (least : Int)
    (plans : PlanList P) (log : List (Event P)) (h : least < M) :
    passCount log <
      passCount (createPlansFrom S ops cap rules M pass (fuel + 1) least plans log).log := by
  rw [createPlansFrom_succ _ _ _ _ _ _ _ _ _ _ h]
  have hp := runPass_passCount ops rules M pass plans log
  split
  · simp only [passCount_append]; omega
  · simp only [passCount_append]; omega
  · simp only; omega
  · simp only; omega
  · split
    · rw [passCount_finish, passCount_append]; omega
    · refine lt_of_lt_of_le ?_ (createPlansFrom_passCount_ge _ _ _ _ _ _ _ _ _ _)
      rw [passCount_append]; omega

theorem foldl_least_lt (M : Int) :
    ∀ (ls : List Int) (init : Int),
      ls.foldl (fun least l => if l < least then l else least) init < M ↔
        init < M ∨ ∃ l ∈ ls, l < M := by
  intro ls
  induction ls with
  | nil => intro init; simp
  | cons a ls ih =>
    intro init
    simp only [List.foldl_cons, ih, List.mem_cons, exists_eq_or_imp]
    by_cases h : a < init
    · simp only [h, if_true]
      constructor
      · rintro (h1 | h1)
        · exact Or.inr (Or.inl h1)
        · exact Or.inr (Or.inr h1)
      · rintro (h1 | h1 | h1)
        · exact Or.inl (by omega)
        · exact Or.inl h1
        · exact Or.inr h1
    · simp only [h, if_false]
      constructor
      · rintro (h1 | h1)
        · exact Or.inl h1
        · exact Or.inr (Or.inr h1)
      · rintro (h1 | h1 | h1)
        · exact Or.inl h1
        · exact Or.inl (by omega)
        · exact Or.inr h1

theorem leastDoneLevelLoop_lt (M : Int) (ls : List Int) :
    leastDoneLevelLoop M ls < M ↔ ∃ l ∈ ls, l < M := by
  unfold leastDoneLevelLoop
  rw [foldl_least_lt]
  simp

/-- Claim C5. When a pass ends with at least `maxNumberOfPlans` plans in the new generation,
the run goes on with the estimation and the sort and returns `TRI_ERROR_NO_ERROR`: the log
ends with one `getCost` per plan of the new generation and the call of `sortPlans`, no
further pass is entered (whatever the levels of the plans are), and the plan list left behind
is the new generation ordered by non-decreasing cost. -/
theorem C5_cap_reached_is_soft_stop {P : Type} (S : StdSort P) (ops : ExecutionPlanOps P)
    (cap : Nat) (rules : List (Rule P)) (M pass : Int) (fuel : Nat) (least : Int)
    (plans : PlanList P) (log : List (Event P)) (hlt : least < M)
    (hdone : (runPass ops rules M pass plans log).status = DrainStatus.completed)
    (hcap : (runPass ops rules M pass plans log).newPlans.size ≥ cap) :
    (createPlansFrom S ops cap rules M pass (fuel + 1) least plans log).exit =
      Exit.returned TRI_ERROR_NO_ERROR ∧
    (createPlansFrom S ops cap rules M pass (fuel + 1) least plans log).log =
      (runPass ops rules M pass plans log).log ++
        deleteAll (runPass ops rules M pass plans log)._plans ++
        (runPass ops rules M pass plans log).newPlans.list.map Event.getCost ++
        [Event.sortPlans] ∧
    passCount (createPlansFrom S ops cap rules M pass (fuel + 1) least plans log).log =
      passCount (runPass ops rules M pass plans log).log ∧
    (createPlansFrom S ops cap rules M pass (fuel + 1) least plans log)._plans.list.Perm
      (runPass ops rules M pass plans log).newPlans.list ∧
    (createPlansFrom S ops cap rules M pass (fuel + 1) least plans log)._plans.list.Pairwise
      (fun a b => ops.getCost a ≤ ops.getCost b) := by
  rw [createPlansFrom_succ _ _ _ _ _ _ _ _ _ _ hlt]
  simp only [hdone, if_pos hcap]
  refine ⟨rfl, rfl, ?_, sortPlans_perm S ops _, sortPlans_sorted S ops _⟩
  rw [passCount_finish, passCount_append, passCount_deleteAll]
  rfl

/-- An instance of claim C5: with `maxNumberOfPlans = 2` the first pass ends with two plans at
level 10, below the maximum level 20, and the run returns them ordered by cost. -/
theorem C5_cap_reached_is_soft_stop_witness :
    createPlans (insertionStdSort Nat) demoOps 2 [fanOutRule, keepRule] 5 PlanList.empty 1 =
      createPlansFrom (insertionStdSort Nat) demoOps 2 [fanOutRule, keepRule] 20 1 (4 + 1) 0
        (PlanList.empty.push_back 1 0) [] ∧
    (runPass demoOps [fanOutRule, keepRule] 20 1 (PlanList.empty.push_back 1 0) []).newPlans =
      ⟨[2, 3], [10, 10]⟩ ∧
    (createPlansFrom (insertionStdSort Nat) demoOps 2 [fanOutRule, keepRule] 20 1 (4 + 1) 0
      (PlanList.empty.push_back 1 0) [])._plans = ⟨[3, 2], [10, 10]⟩ ∧
    ((createPlansFrom (insertionStdSort Nat) demoOps 2 [fanOutRule, keepRule] 20 1 (4 + 1) 0
        (PlanList.empty.push_back 1 0) []).exit = Exit.returned TRI_ERROR_NO_ERROR ∧
      (createPlansFrom (insertionStdSort Nat) demoOps 2 [fanOutRule, keepRule] 20 1 (4 + 1) 0
        (PlanList.empty.push_back 1 0) []).log =
        (runPass demoOps [fanOutRule, keepRule] 20 1 (PlanList.empty.push_back 1 0) []).log ++
          deleteAll (runPass demoOps [fanOutRule, keepRule] 20 1
            (PlanList.empty.push_back 1 0) [])._plans ++
          (runPass demoOps [fanOutRule, keepRule] 20 1
            (PlanList.empty.push_back 1 0) []).newPlans.list.map Event.getCost ++
          [Event.sortPlans] ∧
      passCount (createPlansFrom (insertionStdSort Nat) demoOps 2 [fanOutRule, keepRule] 20 1
        (4 + 1) 0 (PlanList.empty.push_back 1 0) []).log =
        passCount (runPass demoOps [fanOutRule, keepRule] 20 1
          (PlanList.empty.push_back 1 0) []).log ∧
      (createPlansFrom (insertionStdSort Nat) demoOps 2 [fanOutRule, keepRule] 20 1 (4 + 1) 0
        (PlanList.empty.push_back 1 0) [])._plans.list.Perm
        (runPass demoOps [fanOutRule, keepRule] 20 1
          (PlanList.empty.push_back 1 0) []).newPlans.list ∧
      (createPlansFrom (insertionStdSort Nat) demoOps 2 [fanOutRule, keepRule] 20 1 (4 + 1) 0
        (PlanList.empty.push_back 1 0) [])._plans.list.Pairwise
        (fun a b => demoOps.getCost a ≤ demoOps.getCost b)) :=
  ⟨by decide, by decide, by decide,
   C5_cap_reached_is_soft_stop (insertionStdSort Nat) demoOps 2 [fanOutRule, keepRule] 20 1 4 0
     (PlanList.empty.push_back 1 0) [] (by decide) (by decide) (by decide)⟩

/-! ## When a pass is run -/

/-- Claim C2, as stated, fails for the first pass. With `maxNumberOfPlans = 1` and a table
whose maximum level is 20, the seeded collection holds one plan at level 0: the least level
is below the maximum, but the collection does not hold fewer than `maxNumberOfPlans` plans.
The claim says that no pass is started; the code runs a pass. -/
theorem C2_counterexample :
    ¬ (0 < passCount (createPlans (insertionStdSort Nat) demoOps 1 [fanOutRule, keepRule] 5
          PlanList.empty 1).log ↔
        ((0 : Int) < 20 ∧ (PlanList.empty.push_back 1 0 : PlanList Nat).size < 1)) := by
  decide

/-- After a completed pass a further pass is entered exactly when some entry of the new
generation has a level below the maximum rule level and the new generation holds fewer than
`maxNumberOfPlans` plans. -/
theorem createPlansFrom_further_pass_iff {P : Type} (S : StdSort P) (ops : ExecutionPlanOps P)
    (cap : Nat) (rules : List (Rule P)) (M : Int) (fuel : Nat) (pass least : Int)
    (plans : PlanList P) (log : List (Event P)) (hlt : least < M)
    (hdone : (runPass ops rules M pass plans log).status = DrainStatus.completed) :
    passCount (runPass ops rules M pass plans log).log <
        passCount (createPlansFrom S ops cap rules M pass (fuel + 2) least plans log).log ↔
      ((∃ l ∈ (runPass ops rules M pass plans log).newPlans.levelDone, l < M) ∧
        (runPass ops rules M pass plans log).newPlans.size < cap) := by
  rw [createPlansFrom_succ _ _ _ _ _ _ _ _ _ _ hlt]
  simp only [hdone]
  by_cases hcap : (runPass ops rules M pass plans log).newPlans.size ≥ cap
  · rw [if_pos hcap, passCount_finish, passCount_append, passCount_deleteAll]
    constructor
    · intro h; omega
    · rintro ⟨-, h⟩; omega
  · rw [if_neg hcap]
    by_cases hl : leastDoneLevelLoop M (runPass ops rules M pass plans log).newPlans.levelDone < M
    · have hgt := createPlansFrom_succ_passCount_gt S ops cap rules M pass fuel _
        (runPass ops rules M pass plans log).newPlans
        ((runPass ops rules M pass plans log).log ++
          deleteAll (runPass ops rules M pass plans log)._plans) hl
      rw [passCount_append, passCount_deleteAll] at hgt
      constructor
      · intro _
        exact ⟨(leastDoneLevelLoop_lt M _).1 hl, by omega⟩
      · intro _
        simpa using hgt
    · rw [createPlansFrom_of_not_lt _ _ _ _ _ _ _ _ _ _ hl, passCount_finish,
        passCount_append, passCount_deleteAll]
      constructor
      · intro h; omega
      · rintro ⟨h, -⟩
        exact absurd ((leastDoneLevelLoop_lt M _).2 h) hl

/-- Claim C2, amended. The first pass is run exactly when the level 0 of the seeded plan is
below the maximum rule level, whatever `maxNumberOfPlans` is. After a completed pass a
further pass is run exactly when some entry of the new generation has a level below the
maximum rule level and the new generation holds fewer than `maxNumberOfPlans` plans. -/
theorem C2_pass_condition {P : Type} (S : StdSort P) (ops : ExecutionPlanOps P) (cap : Nat)
    (rules : List (Rule P)) (M : Int) (fuel : Nat) :
    (∀ (prev : PlanList P) (plan : P), maxRuleLevel? rules = some M →
      (0 < passCount (createPlans S ops cap rules (fuel + 1) prev plan).log ↔ 0 < M)) ∧
    (∀ (pass least : Int) (plans : PlanList P) (log : List (Event P)), least < M →
      (runPass ops rules M pass plans log).status = DrainStatus.completed →
      (passCount (runPass ops rules M pass plans log).log <
          passCount (createPlansFrom S ops cap rules M pass (fuel + 2) least plans log).log ↔
        ((∃ l ∈ (runPass ops rules M pass plans log).newPlans.levelDone, l < M) ∧
          (runPass ops rules M pass plans log).newPlans.size < cap))) := by
  constructor
  · intro prev plan hM
    unfold maxRuleLevel? at hM
    unfold createPlans
    cases hlast : rules.getLast? with
    | none => simp [hlast] at hM
    | some back =>
      simp only [hlast, Option.map_some', Option.some.injEq] at hM
      subst hM
      simp only
      by_cases h : (0 : Int) < back.level
      · simp only [h, iff_true]
        exact lt_of_le_of_lt (Nat.zero_le _)
          (createPlansFrom_succ_passCount_gt S ops cap rules back.level 1 fuel 0 _ _ h)
      · simp only [h, iff_false]
        rw [createPlansFrom_of_not_lt _ _ _ _ _ _ _ _ _ _ h, passCount_finish,
          passCount_deleteAll]
        omega
  · intro pass least plans log hlt hdone
    exact createPlansFrom_further_pass_iff S ops cap rules M fuel pass least plans log hlt hdone

/-- An instance of the amended claim C2: a table with maximum level 20, first with
`maxNumberOfPlans = 1`, then with `maxNumberOfPlans = 5`. -/
theorem C2_pass_condition_witness :
    (0 < passCount (createPlans (insertionStdSort Nat) demoOps 1 [fanOutRule, keepRule] (4 + 1)
        PlanList.empty 1).log ↔ (0 : Int) < 20) ∧
    (passCount (runPass demoOps [fanOutRule, keepRule] 20 1
        (PlanList.empty.push_back 1 0) []).log <
        passCount (createPlansFrom (insertionStdSort Nat) demoOps 5 [fanOutRule, keepRule] 20 1
          (4 + 2) 0 (PlanList.empty.push_back 1 0) []).log ↔
      ((∃ l ∈ (runPass demoOps [fanOutRule, keepRule] 20 1
          (PlanList.empty.push_back 1 0) []).newPlans.levelDone, l < 20) ∧
        (runPass demoOps [fanOutRule, keepRule] 20 1
          (PlanList.empty.push_back 1 0) []).newPlans.size < 5)) :=
  ⟨(C2_pass_condition (insertionStdSort Nat) demoOps 1 [fanOutRule, keepRule] 20 4).1
      PlanList.empty 1 (by decide),
   (C2_pass_condition (insertionStdSort Nat) demoOps 5 [fanOutRule, keepRule] 20 4).2
      1 0 (PlanList.empty.push_back 1 0) [] (by decide) (by decide)⟩

/-! ## The number of plans -/

theorem drainLoop_sizes {P : Type} (rules : List (Rule P)) (M : Int) (k : Nat) (hk : 1 ≤ k)
    (hem : EmitsAtMost rules k) :
    ∀ (ps : List P) (ls : List Int) (np : PlanList P) (c : Int) (log : List (Event P)),
      (drainLoop rules M ps ls np c log).newPlans.size ≤ np.size + k * ps.length ∧
      (drainLoop rules M ps ls np c log)._plans.size ≤ ps.length := by
  intro ps
  induction ps with
  | nil => intro ls np c log; simp [drainLoop, PlanList.size]
  | cons p ps ih =>
    intro ls np c log
    cases ls with
    | nil => simp [drainLoop, PlanList.size]
    | cons l ls =>
      have hmul : k * (p :: ps).length = k * ps.length + k := by
        simp [Nat.mul_succ]
      unfold drainLoop
      split
      · obtain ⟨h1, h2⟩ := ih ls (np.push_back p l) c log
        have : (np.push_back p l).size = np.size + 1 := by
          simp [PlanList.push_back, PlanList.size]
        refine ⟨?_, ?_⟩
        · rw [hmul]; omega
        · simp only [List.length_cons]; omega
      · split
        · refine ⟨by simp only; omega, by simp [PlanList.size]⟩
        · rename_i it pushed hd
          obtain ⟨hmem, hout, -⟩ := dispatch_eq_some hd
          have hlen := hem it hmem p it.level
          rw [← hout] at hlen
          simp only [RuleOutcome.pushed] at hlen
          refine ⟨?_, by simp [PlanList.size]⟩
          simp only [PlanList.pushAll_size]
          rw [hmul]; omega
        · rename_i it res pushed hd
          obtain ⟨hmem, hout, -⟩ := dispatch_eq_some hd
          have hlen := hem it hmem p it.level
          rw [← hout] at hlen
          simp only [RuleOutcome.pushed] at hlen
          split
          · refine ⟨?_, by simp [PlanList.size]⟩
            simp only [PlanList.pushAll_size]
            rw [hmul]; omega
          · obtain ⟨h1, h2⟩ := ih ls (np.pushAll pushed) (c + 1)
              (log ++ [Event.tryRule it.name it.level c p (RuleOutcome.returned res pushed)])
            rw [PlanList.pushAll_size] at h1
            refine ⟨?_, ?_⟩
            · rw [hmul]; omega
            · simp only [List.length_cons]; omega

theorem runPass_sizes {P : Type} (ops : ExecutionPlanOps P) (rules : List (Rule P))
    (M pass : Int) (k : Nat) (hk : 1 ≤ k) (hem : EmitsAtMost rules k) (plans : PlanList P)
    (log : List (Event P)) :
    (runPass ops rules M pass plans log).newPlans.size ≤ k * plans.size ∧
    (runPass ops rules M pass plans log)._plans.size ≤ plans.size := by
  unfold runPass
  have h := drainLoop_sizes rules M k hk hem
    (findVarUsageLoop ops plans.list (log ++ [Event.enterPass pass])).1 plans.levelDone
    PlanList.empty 0 (findVarUsageLoop ops plans.list (log ++ [Event.enterPass pass])).2
  rw [(findVarUsageLoop_spec ops plans.list _).1] at h
  simpa [PlanList.size, PlanList.empty] using h

theorem finish_size {P : Type} (S : StdSort P) (ops : ExecutionPlanOps P) (plans : PlanList P)
    (log : List (Event P)) : (finish S ops plans log)._plans.size = plans.size :=
  (sortPlans_perm S ops plans).length_eq

theorem createPlansFrom_size {P : Type} (S : StdSort P) (ops : ExecutionPlanOps P)
    (c k : Nat) (hk : 1 ≤ k) (hc : 1 ≤ c) (rules : List (Rule P)) (M pass : Int)
    (hem : EmitsAtMost rules k) :
    ∀ (fuel : Nat) (least : Int) (plans : PlanList P) (log : List (Event P)),
      (plans.size ≤ 1 ∨ plans.size < c) →
      (createPlansFrom S ops c rules M pass fuel least plans log)._plans.size ≤ k * c := by
  have hkc : c ≤ k * c := Nat.le_mul_of_pos_left c hk
  intro fuel
  induction fuel with
  | zero =>
    intro least plans log hinv
    by_cases h : least < M
    · rw [createPlansFrom_zero _ _ _ _ _ _ _ _ _ h]
      simp only
      omega
    · rw [createPlansFrom_of_not_lt _ _ _ _ _ _ _ _ _ _ h, finish_size]
      omega
  | succ fuel ih =>
    intro least plans log hinv
    by_cases h : least < M
    · rw [createPlansFrom_succ _ _ _ _ _ _ _ _ _ _ h]
      obtain ⟨h1, h2⟩ := runPass_sizes ops rules M pass k hk hem plans log
      have hple : plans.size ≤ c := by omega
      have h3 : k * plans.size ≤ k * c := Nat.mul_le_mul_left k hple
      split
      · simp only; omega
      · simp only; omega
      · simp only; omega
      · simp only; omega
      · split
        · rw [finish_size]; omega
        · exact ih _ _ _ (Or.inr (by omega))
    · rw [createPlansFrom_of_not_lt _ _ _ _ _ _ _ _ _ _ h, finish_size]
      omega

/-- Claim C4. If every rule invocation emits at most `k` plans, with `k ≥ 1`, and
`maxNumberOfPlans = c ≥ 1`, then whenever `createPlans` returns, with whatever code, the
optimizer holds at most `k * c` plans; for a table that is not empty the bound holds however
the run ends and whatever the pass budget is. A pass behind a completed pass is only entered
with fewer than `c` plans. With `k = 2`, `c = 5` and a single rule at level 10 a run holds at
most 10 plans. -/
theorem C4_plan_count_bounded {P : Type} (S : StdSort P) (ops : ExecutionPlanOps P)
    (c k : Nat) (hk : 1 ≤ k) (hc : 1 ≤ c) (rules : List (Rule P)) (hem : EmitsAtMost rules k)
    (fuel : Nat) (prev : PlanList P) (plan : P) :
    (∀ res : Int, (createPlans S ops c rules fuel prev plan).exit = Exit.returned res →
      (createPlans S ops c rules fuel prev plan)._plans.size ≤ k * c) ∧
    (rules ≠ [] → (createPlans S ops c rules fuel prev plan)._plans.size ≤ k * c) ∧
    (∀ (M pass least : Int) (plans : PlanList P) (log : List (Event P)), least < M →
      (runPass ops rules M pass plans log).status = DrainStatus.completed →
      passCount (runPass ops rules M pass plans log).log <
        passCount (createPlansFrom S ops c rules M pass (fuel + 2) least plans log).log →
      (runPass ops rules M pass plans log).newPlans.size < c) ∧
    (∀ (name : String) (f : P → Int → RuleOutcome P), (∀ p l, (f p l).pushed.length ≤ 2) →
      (createPlans S ops 5 [⟨name, f, 10⟩] fuel prev plan)._plans.size ≤ 10) := by
  have key : ∀ (c' k' : Nat), 1 ≤ k' → 1 ≤ c' → ∀ rules' : List (Rule P),
      EmitsAtMost rules' k' → rules' ≠ [] →
      (createPlans S ops c' rules' fuel prev plan)._plans.size ≤ k' * c' := by
    intro c' k' hk' hc' rules' hem' hne
    unfold createPlans
    cases hlast : rules'.getLast? with
    | none => exact absurd (List.getLast?_eq_none_iff.1 hlast) hne
    | some back =>
      simp only
      exact createPlansFrom_size S ops c' k' hk' hc' rules' back.level 1 hem' fuel 0 _ _
        (Or.inl (by simp [PlanList.size, PlanList.push_back, PlanList.empty]))
  refine ⟨?_, key c k hk hc rules hem, ?_, ?_⟩
  · intro res hres
    by_cases hne : rules = []
    · subst hne
      simp [createPlans] at hres
    · exact key c k hk hc rules hem hne
  · intro M pass least plans log hlt hdone hmore
    exact ((createPlansFrom_further_pass_iff S ops c rules M fuel pass least plans log hlt
      hdone).1 hmore).2
  · intro name f hf
    refine key 5 2 (by decide) (by decide) [⟨name, f, 10⟩] ?_ (by simp)
    intro r hr p l
    simp only [List.mem_singleton] at hr
    subst hr
    exact hf p l

/-- An instance of claim C4: a single rule at level 10 that fans out two plans from one, with
`maxNumberOfPlans = 5`. -/
theorem C4_plan_count_bounded_witness :
    (createPlans (insertionStdSort Nat) demoOps 5 [fanOutRule] 3 PlanList.empty 1).exit =
      Exit.returned 0 ∧
    (createPlans (insertionStdSort Nat) demoOps 5 [fanOutRule] 3 PlanList.empty 1)._plans.size
      ≤ 2 * 5 :=
  ⟨by decide,
   (C4_plan_count_bounded (insertionStdSort Nat) demoOps 5 2 (by decide) (by decide)
      [fanOutRule] (by
        intro r hr p l
        simp only [List.mem_singleton] at hr
        subst hr
        simp [fanOutRule, RuleOutcome.pushed]) 3 PlanList.empty 1).1 0 (by decide)⟩

/-! ## Rule errors -/

theorem noFailedRule_append {P : Type} {a b : List (Event P)} :
    NoFailedRule (a ++ b) ↔ NoFailedRule a ∧ NoFailedRule b := by
  simp only [NoFailedRule, List.mem_append]
  constructor
  · intro h
    exact ⟨fun e he => h e (Or.inl he), fun e he => h e (Or.inr he)⟩
  · rintro ⟨h1, h2⟩ e (he | he)
    · exact h1 e he
    · exact h2 e he

theorem noFailedRule_deleteAll {P : Type} (plans : PlanList P) :
    NoFailedRule (deleteAll plans) := by
  intro e he
  simp only [deleteAll, List.mem_map] at he
  obtain ⟨p, -, rfl⟩ := he
  rfl

theorem noFailedRule_finish {P : Type} (S : StdSort P) (ops : ExecutionPlanOps P)
    (plans : PlanList P) (log : List (Event P)) (h : NoFailedRule log) :
    NoFailedRule (finish S ops plans log).log := by
  simp only [finish, estimatePlans]
  refine noFailedRule_append.2 ⟨noFailedRule_append.2 ⟨h, ?_⟩, ?_⟩
  · intro e he
    simp only [List.mem_map] at he
    obtain ⟨p, -, rfl⟩ := he
    rfl
  · intro e he
    simp only [List.mem_singleton] at he
    subst he
    rfl

theorem findVarUsageLoop_noFailedRule {P : Type} (ops : ExecutionPlanOps P) (ps : List P)
    (log : List (Event P)) (h : NoFailedRule log) :
    NoFailedRule (findVarUsageLoop ops ps log).2 := by
  obtain ⟨-, ext, h1, h2⟩ := findVarUsageLoop_spec ops ps log
  rw [h1]
  refine noFailedRule_append.2 ⟨h, ?_⟩
  intro e he
  obtain ⟨p, rfl⟩ := h2 e he
  rfl

theorem drainLoop_failure_shape {P : Type} (rules : List (Rule P)) (M : Int) :
    ∀ (ps : List P) (ls : List Int) (np : PlanList P) (c : Int) (log : List (Event P)),
      NoFailedRule log →
      (∀ res, (drainLoop rules M ps ls np c log).status = DrainStatus.failed res →
        ∃ pre name level count p pushed,
          (drainLoop rules M ps ls np c log).log =
            pre ++ [Event.tryRule name level count p (RuleOutcome.returned res pushed)] ∧
          NoFailedRule pre) ∧
      ((∀ res, (drainLoop rules M ps ls np c log).status ≠ DrainStatus.failed res) →
        NoFailedRule (drainLoop rules M ps ls np c log).log) := by
  intro ps
  induction ps with
  | nil =>
    intro ls np c log hclean
    simp only [drainLoop]
    exact ⟨fun res h => absurd h (by simp), fun _ => hclean⟩
  | cons p ps ih =>
    intro ls np c log hclean
    cases ls with
    | nil =>
      simp only [drainLoop]
      exact ⟨fun res h => absurd h (by simp), fun _ => hclean⟩
    | cons l ls =>
      unfold drainLoop
      split
      · exact ih _ _ _ _ hclean
      · split
        · exact ⟨fun res h => absurd h (by simp), fun _ => hclean⟩
        · refine ⟨fun res h => absurd h (by simp), fun _ => noFailedRule_append.2 ⟨hclean, ?_⟩⟩
          intro e he
          simp only [List.mem_cons, List.mem_singleton, List.not_mem_nil, or_false] at he
          rcases he with rfl | rfl <;> rfl
        · rename_i it res pushed hd
          split
          · refine ⟨?_, fun h => absurd rfl (h res)⟩
            intro res' h
            simp only [DrainStatus.failed.injEq] at h
            subst h
            exact ⟨log, it.name, it.level, c, p, pushed, rfl, hclean⟩
          · rename_i hres
            refine ih _ _ _ _ (noFailedRule_append.2 ⟨hclean, ?_⟩)
            intro e he
            simp only [List.mem_singleton] at he
            subst he
            simpa [Event.isFailedRule] using hres

theorem runPass_failure_shape {P : Type} (ops : ExecutionPlanOps P) (rules : List (Rule P))
    (M pass : Int) (plans : PlanList P) (log : List (Event P)) (hclean : NoFailedRule log) :
    (∀ res, (runPass ops rules M pass plans log).status = DrainStatus.failed res →
      ∃ pre name level count p pushed,
        (runPass ops rules M pass plans log).log =
          pre ++ [Event.tryRule name level count p (RuleOutcome.returned res pushed)] ∧
        NoFailedRule pre) ∧
    ((∀ res, (runPass ops rules M pass plans log).status ≠ DrainStatus.failed res) →
      NoFailedRule (runPass ops rules M pass plans log).log) := by
  unfold runPass
  apply drainLoop_failure_shape
  apply findVarUsageLoop_noFailedRule
  refine noFailedRule_append.2 ⟨hclean, ?_⟩
  intro e he
  simp only [List.mem_singleton] at he
  subst he
  rfl

theorem createPlansFrom_failsAtMostOnce {P : Type} (S : StdSort P) (ops : ExecutionPlanOps P)
    (cap : Nat) (rules : List (Rule P)) (M pass : Int) :
    ∀ (fuel : Nat) (least : Int) (plans : PlanList P) (log : List (Event P)),
      NoFailedRule log →
      FailsAtMostOnce (createPlansFrom S ops cap rules M pass fuel least plans log) := by
  intro fuel
  induction fuel with
  | zero =>
    intro least plans log hclean
    by_cases h : least < M
    · rw [createPlansFrom_zero _ _ _ _ _ _ _ _ _ h]
      exact Or.inl hclean
    · rw [createPlansFrom_of_not_lt _ _ _ _ _ _ _ _ _ _ h]
      exact Or.inl (noFailedRule_finish S ops plans log hclean)
  | succ fuel ih =>
    intro least plans log hclean
    by_cases h : least < M
    · rw [createPlansFrom_succ _ _ _ _ _ _ _ _ _ _ h]
      obtain ⟨hfail, hok⟩ := runPass_failure_shape ops rules M pass plans log hclean
      split
      · rename_i res hst
        obtain ⟨pre, name, level, count, p, pushed, hlog, hpre⟩ := hfail res hst
        refine Or.inr ⟨pre, name, level, count, p, res, pushed,
          deleteAll (runPass ops rules M pass plans log).newPlans, ?_, hpre, ?_, rfl⟩
        · simp only [hlog, List.append_assoc, List.singleton_append]
        · intro e he
          simp only [deleteAll, List.mem_map] at he
          obtain ⟨q, -, rfl⟩ := he
          rfl
      · rename_i hst
        exact Or.inl (noFailedRule_append.2
          ⟨hok (fun res hres => by rw [hst] at hres; exact absurd hres (by simp)),
            noFailedRule_deleteAll _⟩)
      · rename_i hst
        exact Or.inl (hok (fun res hres => by rw [hst] at hres; exact absurd hres (by simp)))
      · rename_i hst
        exact Or.inl (hok (fun res hres => by rw [hst] at hres; exact absurd hres (by simp)))
      · rename_i hst
        have hclean' : NoFailedRule ((runPass ops rules M pass plans log).log ++
            deleteAll (runPass ops rules M pass plans log)._plans) :=
          noFailedRule_append.2
            ⟨hok (fun res hres => by rw [hst] at hres; exact absurd hres (by simp)),
              noFailedRule_deleteAll _⟩
        split
        · exact Or.inl (noFailedRule_finish S ops _ _ hclean')
        · exact ih _ _ _ hclean'
    · rw [createPlansFrom_of_not_lt _ _ _ _ _ _ _ _ _ _ h]
      exact Or.inl (noFailedRule_finish S ops plans log hclean)

/-- Claim C9. If the log of a run of `createPlans` records a rule invocation that returned a
code `res` other than `TRI_ERROR_NO_ERROR`, then the run returned exactly `res`, and
everything recorded after that invocation is the release of a plan: no further rule is
invoked, no further pass is entered, no cost is estimated and `sortPlans` is not called. -/
theorem C9_rule_error_aborts {P : Type} (S : StdSort P) (ops : ExecutionPlanOps P) (cap : Nat)
    (rules : List (Rule P)) (fuel : Nat) (prev : PlanList P) (plan : P)
    (pre post : List (Event P)) (name : String) (level count : Int) (p : P) (res : Int)
    (pushed : List (P × Int))
    (hlog : (createPlans S ops cap rules fuel prev plan).log =
      pre ++ Event.tryRule name level count p (RuleOutcome.returned res pushed) :: post)
    (hres : res ≠ TRI_ERROR_NO_ERROR) :
    (createPlans S ops cap rules fuel prev plan).exit = Exit.returned res ∧
    ∀ e ∈ post, e.isDeletePlan = true ∧ e.isTryRule = false ∧ e.isEnterPass = false ∧
      e.isGetCost = false ∧ e.isSortPlans = false := by
  have hfail : (Event.tryRule name level count p (RuleOutcome.returned res pushed)).isFailedRule
      = true := by
    simpa [Event.isFailedRule] using hres
  have hgood : FailsAtMostOnce (createPlans S ops cap rules fuel prev plan) := by
    unfold createPlans
    cases hlast : rules.getLast? with
    | none => exact Or.inl (by intro e he; simp at he)
    | some back =>
      exact createPlansFrom_failsAtMostOnce S ops cap rules back.level 1 fuel 0 _ _
        (noFailedRule_deleteAll prev)
  rcases hgood with hclean | ⟨pre', name', level', count', p', res', pushed', post', hlog',
      hpre', hpost', hexit⟩
  · have := hclean (Event.tryRule name level count p (RuleOutcome.returned res pushed))
      (by rw [hlog]; simp)
    rw [hfail] at this
    exact absurd this (by simp)
  · have hdel : ∀ e : Event P, e.isDeletePlan = true → e.isDeletePlan = true ∧
        e.isTryRule = false ∧ e.isEnterPass = false ∧ e.isGetCost = false ∧
        e.isSortPlans = false := by
      intro e he
      cases e <;> simp_all [Event.isDeletePlan, Event.isTryRule, Event.isEnterPass,
        Event.isGetCost, Event.isSortPlans]
    rw [hlog] at hlog'
    rcases List.append_eq_append_iff.1 hlog' with ⟨a, ha, hb⟩ | ⟨a, ha, hb⟩
    · cases a with
      | nil =>
        simp only [List.nil_append, List.cons.injEq, Event.tryRule.injEq,
          RuleOutcome.returned.injEq] at hb
        obtain ⟨⟨-, -, -, -, hr, -⟩, hp⟩ := hb
        subst hr hp
        exact ⟨hexit, fun e he => hdel e (hpost' e he)⟩
      | cons x a =>
        simp only [List.cons_append, List.cons.injEq] at hb
        obtain ⟨rfl, -⟩ := hb
        exfalso
        have h1 := hpre' (Event.tryRule name level count p (RuleOutcome.returned res pushed))
          (by rw [ha]; simp)
        rw [hfail] at h1
        exact absurd h1 (by simp)
    · cases a with
      | nil =>
        simp only [List.nil_append, List.cons.injEq, Event.tryRule.injEq,
          RuleOutcome.returned.injEq] at hb
        obtain ⟨⟨-, -, -, -, hr, -⟩, hp⟩ := hb
        subst hr hp
        exact ⟨hexit, fun e he => hdel e (hpost' e he)⟩
      | cons x a =>
        simp only [List.cons_append, List.cons.injEq] at hb
        have hmem : Event.tryRule name level count p (RuleOutcome.returned res pushed)
            ∈ post' := by
          rw [hb.2]; simp
        have := hpost' _ hmem
        simp [Event.isDeletePlan] at this

/-- An instance of claim C9: the rule of level 20 returns the code 7 on the first plan of the
second pass. -/
theorem C9_rule_error_aborts_witness :
    (createPlans (insertionStdSort Nat) demoOps 5 [fanOutRule, failingRule] 4 PlanList.empty
      1).exit = Exit.returned 7 ∧
    ∀ e ∈ [Event.deletePlan (2 : Nat)], e.isDeletePlan = true ∧ e.isTryRule = false ∧
      e.isEnterPass = false ∧ e.isGetCost = false ∧ e.isSortPlans = false :=
  C9_rule_error_aborts (insertionStdSort Nat) demoOps 5 [fanOutRule, failingRule] 4
    PlanList.empty 1
    [Event.enterPass 1, Event.findVarUsage 1,
     Event.tryRule "fan-out" 10 0 1 (RuleOutcome.returned 0 [(2, 10), (3, 10)]),
     Event.enterPass 1, Event.findVarUsage 2, Event.findVarUsage 3]
    [Event.deletePlan 2] "failing" 20 0 2 7 [(2, 20)] (by decide) (by decide)

/-! ## Termination -/

theorem remainingLevels_le {P : Type} (rules : List (Rule P)) (L : Int) :
    remainingLevels rules L ≤ distinctLevels rules := by
  unfold remainingLevels distinctLevels
  rw [← List.card_toFinset]
  exact Finset.card_le_card (Finset.filter_subset _ _)

theorem remainingLevels_lt {P : Type} (rules : List (Rule P)) {L L' : Int} (h : L < L')
    (hreg : ∃ r ∈ rules, r.level = L') :
    remainingLevels rules L' < remainingLevels rules L := by
  unfold remainingLevels
  apply Finset.card_lt_card
  have hsub : (rules.map Rule.level).toFinset.filter (fun d => L' < d) ⊆
      (rules.map Rule.level).toFinset.filter (fun d => L < d) := by
    intro d hd
    simp only [Finset.mem_filter] at hd ⊢
    exact ⟨hd.1, by omega⟩
  rw [Finset.ssubset_iff_of_subset hsub]
  refine ⟨L', ?_, ?_⟩
  · simp only [Finset.mem_filter, List.mem_toFinset, List.mem_map]
    obtain ⟨r, hr, hl⟩ := hreg
    exact ⟨⟨r, hr, hl⟩, h⟩
  · simp

theorem level_le_maxRuleLevel {P : Type} {rules : List (Rule P)} {M : Int}
    (hs : SortedByLevel rules) (hM : maxRuleLevel? rules = some M) :
    ∀ r ∈ rules, r.level ≤ M := by
  intro r hr
  obtain ⟨hpos, hlast⟩ := maxRuleLevel?_eq_some hM
  obtain ⟨j, hj, rfl⟩ := List.getElem_of_mem hr
  rcases Nat.eq_or_lt_of_le (Nat.le_sub_one_of_lt hj) with heq | hlt
  · subst hlast
    simp only [heq, le_refl]
  · rw [← hlast]
    exact (List.pairwise_iff_getElem.1 hs) _ _ hj hpos hlt

theorem maxRuleLevel_registered {P : Type} {rules : List (Rule P)} {M : Int}
    (hM : maxRuleLevel? rules = some M) : ∃ r ∈ rules, r.level = M := by
  obtain ⟨hpos, hlast⟩ := maxRuleLevel?_eq_some hM
  exact ⟨_, List.getElem_mem hpos, hlast⟩

theorem remainingLevels_max {P : Type} {rules : List (Rule P)} {M : Int}
    (hs : SortedByLevel rules) (hM : maxRuleLevel? rules = some M) :
    remainingLevels rules M = 0 := by
  unfold remainingLevels
  rw [Finset.card_eq_zero, Finset.filter_eq_empty_iff]
  intro d hd
  simp only [List.mem_toFinset, List.mem_map] at hd
  obtain ⟨r, hr, rfl⟩ := hd
  have := level_le_maxRuleLevel hs hM r hr
  omega

theorem drainLoop_levels {P : Type} (rules : List (Rule P)) (M : Int) (n : Nat)
    (hs : SortedByLevel rules) (hM : maxRuleLevel? rules = some M)
    (hem : EmitsAtInvokedLevel rules) :
    ∀ (ps : List P) (ls : List Int) (np : PlanList P) (c : Int) (log : List (Event P)),
      LevelsWithin rules M (n + 1) ⟨ps, ls⟩ → LevelsWithin rules M n np →
      (drainLoop rules M ps ls np c log).status ≠ DrainStatus.assertFailed ∧
      (drainLoop rules M ps ls np c log).status ≠ DrainStatus.undefinedBehaviour ∧
      LevelsWithin rules M n (drainLoop rules M ps ls np c log).newPlans := by
  intro ps
  induction ps with
  | nil =>
    intro ls np c log _ hnp
    simp only [drainLoop]
    exact ⟨by simp, by simp, hnp⟩
  | cons p ps ih =>
    intro ls np c log hcur hnp
    cases ls with
    | nil =>
      have := hcur.1
      simp at this
    | cons l ls =>
      have hlen : ps.length = ls.length := by
        have := hcur.1
        simpa using this
      have hl := hcur.2 l (by simp)
      have hrest : LevelsWithin rules M (n + 1) ⟨ps, ls⟩ :=
        ⟨hlen, fun x hx => hcur.2 x (by simp [hx])⟩
      have hpushed : ∀ (it : Rule P) (out : RuleOutcome P), l ≠ M →
          dispatch rules l p = some (it, out) →
          LevelsWithin rules M n (np.pushAll out.pushed) := by
        intro it out hne hd
        obtain ⟨hmem, hout, hidx⟩ := dispatch_eq_some hd
        have hltM : l < M := by omega
        obtain ⟨hi, hit⟩ := List.getElem?_eq_some.1 hidx
        have hlt : l < it.level := by
          have := (upper_bound_spec rules ⟨"dummy", dummyRule, l⟩ hs).2.2 _ hi (le_refl _)
          rw [hit] at this
          exact this
        refine ⟨?_, ?_⟩
        · rw [PlanList.pushAll_list, PlanList.pushAll_levelDone]
          simp [hnp.1]
        · intro x hx
          rw [PlanList.pushAll_levelDone, List.mem_append] at hx
          rcases hx with hx | hx
          · exact hnp.2 x hx
          · simp only [List.mem_map] at hx
            obtain ⟨e, he, rfl⟩ := hx
            have he2 : e.2 = it.level := by
              have := hem it hmem p it.level e (by rw [← hout]; exact he)
              exact this
            rw [he2]
            refine ⟨level_le_maxRuleLevel hs hM it hmem, ?_⟩
            have := remainingLevels_lt rules hlt ⟨it, hmem, rfl⟩
            omega
      unfold drainLoop
      split
      · rename_i heq
        refine ih ls (np.push_back p l) c log hrest ?_
        refine ⟨by simp [PlanList.push_back, hnp.1], ?_⟩
        intro x hx
        simp only [PlanList.push_back, List.mem_append, List.mem_singleton] at hx
        rcases hx with hx | rfl
        · exact hnp.2 x hx
        · subst heq
          exact ⟨le_refl _, by rw [remainingLevels_max hs hM]; omega⟩
      · rename_i hne
        split
        · rename_i hd
          exfalso
          have hlt := upper_bound_lt_length hs hM ⟨"dummy", dummyRule, l⟩ (by
            show l < M
            omega)
          unfold dispatch at hd
          simp only [List.getElem?_eq_getElem hlt] at hd
          exact absurd hd (by simp)
        · rename_i it pushed hd
          exact ⟨by simp, by simp, hpushed it _ hne hd⟩
        · rename_i it res pushed hd
          split
          · exact ⟨by simp, by simp, hpushed it _ hne hd⟩
          · exact ih ls (np.pushAll pushed) (c + 1) _ hrest (hpushed it _ hne hd)

theorem runPass_levels {P : Type} (ops : ExecutionPlanOps P) (rules : List (Rule P))
    (M pass : Int) (n : Nat) (hs : SortedByLevel rules) (hM : maxRuleLevel? rules = some M)
    (hem : EmitsAtInvokedLevel rules) (plans : PlanList P) (log : List (Event P))
    (hinv : LevelsWithin rules M (n + 1) plans) :
    (runPass ops rules M pass plans log).status ≠ DrainStatus.assertFailed ∧
    (runPass ops rules M pass plans log).status ≠ DrainStatus.undefinedBehaviour ∧
    LevelsWithin rules M n (runPass ops rules M pass plans log).newPlans := by
  unfold runPass
  apply drainLoop_levels rules M n hs hM hem
  · exact ⟨by rw [(findVarUsageLoop_spec ops plans.list _).1]; exact hinv.1, hinv.2⟩
  · exact ⟨rfl, fun l hl => by simp [PlanList.empty] at hl⟩

theorem createPlansFrom_terminates {P : Type} (S : StdSort P) (ops : ExecutionPlanOps P)
    (cap : Nat) (rules : List (Rule P)) (M pass : Int) (hs : SortedByLevel rules)
    (hM : maxRuleLevel? rules = some M) (hem : EmitsAtInvokedLevel rules) :
    ∀ (n fuel : Nat) (least : Int) (plans : PlanList P) (log : List (Event P)),
      n ≤ fuel → LevelsWithin rules M n plans →
      (least < M → ∃ l ∈ plans.levelDone, l < M) →
      ((∃ res, (createPlansFrom S ops cap rules M pass fuel least plans log).exit =
          Exit.returned res) ∨
        (createPlansFrom S ops cap rules M pass fuel least plans log).exit = Exit.thrown) ∧
      passCount (createPlansFrom S ops cap rules M pass fuel least plans log).log ≤
        passCount log + n := by
  intro n
  induction n with
  | zero =>
    intro fuel least plans log _ hinv hleast
    have hnot : ¬ least < M := by
      intro hlt
      obtain ⟨l, hl, hlM⟩ := hleast hlt
      have h0 := (hinv.2 l hl).2
      have := remainingLevels_lt rules hlM (maxRuleLevel_registered hM)
      omega
    rw [createPlansFrom_of_not_lt _ _ _ _ _ _ _ _ _ _ hnot, passCount_finish]
    exact ⟨Or.inl ⟨_, rfl⟩, le_refl _⟩
  | succ n ih =>
    intro fuel least plans log hfuel hinv hleast
    by_cases hlt : least < M
    · obtain ⟨f, rfl⟩ : ∃ f, fuel = f + 1 := ⟨fuel - 1, by omega⟩
      rw [createPlansFrom_succ _ _ _ _ _ _ _ _ _ _ hlt]
      obtain ⟨ha, hu, hnew⟩ := runPass_levels ops rules M pass n hs hM hem plans log hinv
      have hp := runPass_passCount ops rules M pass plans log
      split
      · refine ⟨Or.inl ⟨_, rfl⟩, ?_⟩
        simp only [passCount_append, passCount_deleteAll]; omega
      · refine ⟨Or.inr rfl, ?_⟩
        simp only [passCount_append, passCount_deleteAll]; omega
      · rename_i hst; exact absurd hst ha
      · rename_i hst; exact absurd hst hu
      · split
        · rw [passCount_finish, passCount_append, passCount_deleteAll]
          exact ⟨Or.inl ⟨_, rfl⟩, by omega⟩
        · have := ih f
            (leastDoneLevelLoop M (runPass ops rules M pass plans log).newPlans.levelDone)
            (runPass ops rules M pass plans log).newPlans
            ((runPass ops rules M pass plans log).log ++
              deleteAll (runPass ops rules M pass plans log)._plans)
            (by omega) hnew (fun h => (leastDoneLevelLoop_lt M _).1 h)
          rw [passCount_append, passCount_deleteAll] at this
          exact ⟨this.1, by omega⟩
    · rw [createPlansFrom_of_not_lt _ _ _ _ _ _ _ _ _ _ hlt, passCount_finish]
      exact ⟨Or.inl ⟨_, rfl⟩, by omega⟩

/-- Claim C3. For a rule table that is not empty and sorted by level, and for every value of
`maxNumberOfPlans` (in particular every value of at least 1), if every rule emits its output plans at the level it was invoked
with, then `createPlans` terminates: with a budget of as many passes as there are distinct
levels in the table, or any larger budget, the run ends by returning a code or by an
exception of a rule, and it enters at most as many passes as there are distinct levels,
however many plans the rules emit. -/
theorem C3_createPlans_terminates {P : Type} (S : StdSort P) (ops : ExecutionPlanOps P)
    (cap : Nat) (rules : List (Rule P)) (hne : rules ≠ []) (hs : SortedByLevel rules)
    (hem : EmitsAtInvokedLevel rules) (fuel : Nat)
    (hfuel : distinctLevels rules ≤ fuel) (prev : PlanList P) (plan : P) :
    ((∃ res, (createPlans S ops cap rules fuel prev plan).exit = Exit.returned res) ∨
      (createPlans S ops cap rules fuel prev plan).exit = Exit.thrown) ∧
    passCount (createPlans S ops cap rules fuel prev plan).log ≤ distinctLevels rules := by
  unfold createPlans
  cases hlast : rules.getLast? with
  | none => exact absurd (List.getLast?_eq_none_iff.1 hlast) hne
  | some back =>
    simp only
    have hM : maxRuleLevel? rules = some back.level := by simp [maxRuleLevel?, hlast]
    by_cases h0 : (0 : Int) < back.level
    · have hrem := remainingLevels_le rules 0
      have := createPlansFrom_terminates S ops cap rules back.level 1 hs hM hem
        (remainingLevels rules 0) fuel 0 (PlanList.empty.push_back plan 0) (deleteAll prev)
        (by omega)
        ⟨rfl, fun l hl => by
          simp only [PlanList.push_back, PlanList.empty, List.nil_append,
            List.mem_singleton] at hl
          subst hl
          exact ⟨by omega, le_refl _⟩⟩
        (fun _ => ⟨0, by simp [PlanList.push_back, PlanList.empty], h0⟩)
      rw [passCount_deleteAll] at this
      exact ⟨this.1, by omega⟩
    · rw [createPlansFrom_of_not_lt _ _ _ _ _ _ _ _ _ _ h0, passCount_finish,
        passCount_deleteAll]
      exact ⟨Or.inl ⟨_, rfl⟩, Nat.zero_le _⟩

/-- An instance of claim C3: the table with the levels 10, 20, 20, 30 has three distinct
levels. -/
theorem C3_createPlans_terminates_witness :
    distinctLevels demoTable = 3 ∧
    (((∃ res, (createPlans (insertionStdSort Nat) demoOps 5 demoTable 3 PlanList.empty 1).exit =
          Exit.returned res) ∨
        (createPlans (insertionStdSort Nat) demoOps 5 demoTable 3 PlanList.empty 1).exit =
          Exit.thrown) ∧
      passCount (createPlans (insertionStdSort Nat) demoOps 5 demoTable 3 PlanList.empty 1).log ≤
        distinctLevels demoTable) :=
  ⟨by decide,
   C3_createPlans_terminates (insertionStdSort Nat) demoOps 5 demoTable
     (by simp [demoTable]) (by simp [SortedByLevel, demoTable])
     (by
       intro r hr p l e he
       simp only [demoTable, List.mem_cons, List.mem_singleton, List.not_mem_nil,
         or_false] at hr
       rcases hr with rfl | rfl | rfl | rfl <;>
         simp only [RuleOutcome.pushed, List.mem_singleton] at he <;> rw [he])
     3 (by decide) PlanList.empty 1⟩

/-! ## Rules of equal level -/

/-- In a table sorted by level the search never finds a rule that stands directly behind a
rule of the same level. -/
theorem upper_bound_skips_equal_level {P : Type} (rules : List (Rule P))
    (hs : SortedByLevel rules) (i : Nat) (h : i + 1 < rules.length)
    (heq : rules[i].level = rules[i + 1].level) (val : Rule P) :
    upper_bound rules val ≠ i + 1 := by
  intro hub
  obtain ⟨-, hlo, hhi⟩ := upper_bound_spec rules val hs
  have h1 := hlo i (by omega) (by omega)
  have h2 := hhi (i + 1) h (by omega)
  omega

/-- Claim C7 fails on the code. The rules `A` and `B` are registered at level 10, `A` before
`B`, and a third rule at level 20; the sort keeps `A` before `B`. A run on one plan invokes
`A` in the first pass and the rule of level 20 in the second pass, and ends with the plan at
level 20: the plan has progressed past level 10, and `B` was never invoked. -/
theorem C7_second_rule_of_equal_level_skipped :
    (stable_sort Rule.lt [ruleA, ruleB, keepRule]).map Rule.name = ["A", "B", "keep"] ∧
    (createPlans (insertionStdSort Nat) demoOps 1000
      (stable_sort Rule.lt [ruleA, ruleB, keepRule]) 5 PlanList.empty 1).exit =
        Exit.returned TRI_ERROR_NO_ERROR ∧
    (createPlans (insertionStdSort Nat) demoOps 1000
      (stable_sort Rule.lt [ruleA, ruleB, keepRule]) 5 PlanList.empty 1)._plans =
        ⟨[1], [20]⟩ ∧
    (createPlans (insertionStdSort Nat) demoOps 1000
      (stable_sort Rule.lt [ruleA, ruleB, keepRule]) 5 PlanList.empty 1).log.filter
        Event.isTryRule =
      [Event.tryRule "A" 10 0 1 (RuleOutcome.returned 0 [(1, 10)]),
       Event.tryRule "keep" 20 0 1 (RuleOutcome.returned 0 [(1, 20)])] := by
  decide

/-! ## Releasing plans when a rule fails -/

theorem optimizer_of_ne_nil {P : Type} (R : OptimizerRules P) (rules : List (Rule P))
    (h : rules ≠ []) : Optimizer.Optimizer R rules = some rules := by
  cases rules with
  | nil => exact absurd rfl h
  | cons a l => rfl

theorem constructTimes_of_ne_nil {P : Type} (R : OptimizerRules P) (rules : List (Rule P))
    (h : rules ≠ []) : ∀ n, constructTimes R n rules = some rules := by
  intro n
  induction n with
  | zero => rfl
  | succ n ih =>
    simp only [constructTimes, optimizer_of_ne_nil R rules h, Option.some_bind, ih]

/-- Claim C17. The constructor populates the static rule table only when it is empty. The
first construction, on the empty table, leaves the eight built-in rules, without duplicates;
a construction on that table, and any number of constructions one after the other, leave the
table exactly as the first construction left it; and a construction on any table that is not
empty leaves it as it is. -/
theorem C17_constructor_populates_once {P : Type} (R : OptimizerRules P) :
    ∃ table : List (Rule P),
      Optimizer.Optimizer R [] = some table ∧
      table ≠ [] ∧
      table.map Rule.name =
        ["move-calculations-up", "move-filters-up", "interchangeAdjacentEnumerations",
         "remove-unnecessary-filters", "remove-unnecessary-calculations",
         "remove-redundant-sorts", "use-index-range", "use-index-for-sort"] ∧
      (table.map Rule.name).Nodup ∧
      Optimizer.Optimizer R table = some table ∧
      (∀ n : Nat, constructTimes R (n + 1) [] = some table) ∧
      (∀ rules : List (Rule P), rules ≠ [] → Optimizer.Optimizer R rules = some rules) := by
  have hne : registerAll R [] ≠ [] := by simp [registerAll, registerRule]
  have hnames : (registerAll R []).map Rule.name =
      ["move-calculations-up", "move-filters-up", "interchangeAdjacentEnumerations",
       "remove-unnecessary-filters", "remove-unnecessary-calculations",
       "remove-redundant-sorts", "use-index-range", "use-index-for-sort"] := rfl
  refine ⟨registerAll R [], rfl, hne, hnames, by rw [hnames]; decide,
    optimizer_of_ne_nil R _ hne, ?_, fun rules h => optimizer_of_ne_nil R rules h⟩
  intro n
  have h0 : Optimizer.Optimizer R [] = some (registerAll R []) := rfl
  simp only [constructTimes, h0, Option.some_bind]
  exact constructTimes_of_ne_nil R _ hne n

/-- An instance of claim C17: a third construction, and a construction on a table of four
rules. -/
theorem C17_constructor_populates_once_witness :
    (constructTimes keepAll 3 []).map (List.map Rule.level) =
      some [10, 20, 100, 110, 120, 130, 210, 220] ∧
    (Optimizer.Optimizer keepAll demoTable).map (List.map Rule.level) = some [10, 20, 20, 30] ∧
    ∃ table : List (Rule Nat),
      Optimizer.Optimizer keepAll [] = some table ∧
      table ≠ [] ∧
      table.map Rule.name =
        ["move-calculations-up", "move-filters-up", "interchangeAdjacentEnumerations",
         "remove-unnecessary-filters", "remove-unnecessary-calculations",
         "remove-redundant-sorts", "use-index-range", "use-index-for-sort"] ∧
      (table.map Rule.name).Nodup ∧
      Optimizer.Optimizer keepAll table = some table ∧
      (∀ n : Nat, constructTimes keepAll (n + 1) [] = some table) ∧
      (∀ rules : List (Rule Nat), rules ≠ [] → Optimizer.Optimizer keepAll rules = some rules) :=
  ⟨by decide, by decide, C17_constructor_populates_once keepAll⟩

/-! ## The two sequences of a plan list -/

theorem drainLoop_lengths {P : Type} (rules : List (Rule P)) (M : Int) :
    ∀ (ps : List P) (ls : List Int) (np : PlanList P) (c : Int) (log : List (Event P)),
      ps.length = ls.length → np.list.length = np.levelDone.length →
      (drainLoop rules M ps ls np c log).status ≠ DrainStatus.undefinedBehaviour ∧
      (drainLoop rules M ps ls np c log).newPlans.list.length =
        (drainLoop rules M ps ls np c log).newPlans.levelDone.length ∧
      (drainLoop rules M ps ls np c log)._plans.list.length =
        (drainLoop rules M ps ls np c log)._plans.levelDone.length := by
  intro ps
  induction ps with
  | nil =>
    intro ls np c log hlen hnp
    cases ls with
    | nil => simp [drainLoop, hnp]
    | cons l ls => simp at hlen
  | cons p ps ih =>
    intro ls np c log hlen hnp
    cases ls with
    | nil => simp at hlen
    | cons l ls =>
      have hlen' : ps.length = ls.length := by simpa using hlen
      have hpush : ∀ es : List (P × Int),
          (np.pushAll es).list.length = (np.pushAll es).levelDone.length := by
        intro es
        rw [PlanList.pushAll_list, PlanList.pushAll_levelDone]
        simp [hnp]
      unfold drainLoop
      split
      · exact ih ls _ c log hlen' (by simp [PlanList.push_back, hnp])
      · split
        · exact ⟨by simp, hnp, hlen'⟩
        · exact ⟨by simp, hpush _, hlen'⟩
        · split
          · exact ⟨by simp, hpush _, hlen'⟩
          · exact ih ls _ _ _ hlen' (hpush _)

theorem runPass_lengths {P : Type} (ops : ExecutionPlanOps P) (rules : List (Rule P))
    (M pass : Int) (plans : PlanList P) (log : List (Event P))
    (h : plans.list.length = plans.levelDone.length) :
    (runPass ops rules M pass plans log).status ≠ DrainStatus.undefinedBehaviour ∧
    (runPass ops rules M pass plans log).newPlans.list.length =
      (runPass ops rules M pass plans log).newPlans.levelDone.length ∧
    (runPass ops rules M pass plans log)._plans.list.length =
      (runPass ops rules M pass plans log)._plans.levelDone.length := by
  unfold runPass
  apply drainLoop_lengths
  · rw [(findVarUsageLoop_spec ops plans.list _).1]; exact h
  · rfl

theorem finish_lengths {P : Type} (S : StdSort P) (ops : ExecutionPlanOps P)
    (plans : PlanList P) (log : List (Event P))
    (h : plans.list.length = plans.levelDone.length) :
    (finish S ops plans log)._plans.list.length =
      (finish S ops plans log)._plans.levelDone.length := by
  have := (sortPlans_perm S ops plans).length_eq
  simp only [finish]
  rw [this]
  exact h

theorem createPlansFrom_lengths {P : Type} (S : StdSort P) (ops : ExecutionPlanOps P)
    (cap : Nat) (rules : List (Rule P)) (M pass : Int) :
    ∀ (fuel : Nat) (least : Int) (plans : PlanList P) (log : List (Event P)),
      plans.list.length = plans.levelDone.length →
      (createPlansFrom S ops cap rules M pass fuel least plans log).exit ≠
        Exit.undefinedBehaviour ∧
      (createPlansFrom S ops cap rules M pass fuel least plans log)._plans.list.length =
        (createPlansFrom S ops cap rules M pass fuel least plans log)._plans.levelDone.length := by
  intro fuel
  induction fuel with
  | zero =>
    intro least plans log h
    by_cases hlt : least < M
    · rw [createPlansFrom_zero _ _ _ _ _ _ _ _ _ hlt]
      exact ⟨by simp, h⟩
    · rw [createPlansFrom_of_not_lt _ _ _ _ _ _ _ _ _ _ hlt]
      exact ⟨by simp [finish], finish_lengths S ops plans log h⟩
  | succ fuel ih =>
    intro least plans log h
    by_cases hlt : least < M
    · rw [createPlansFrom_succ _ _ _ _ _ _ _ _ _ _ hlt]
      obtain ⟨hu, hn, hp⟩ := runPass_lengths ops rules M pass plans log h
      split
      · exact ⟨by simp, hp⟩
      · exact ⟨by simp, hp⟩
      · exact ⟨by simp, hp⟩
      · rename_i hst; exact absurd hst hu
      · split
        · exact ⟨by simp [finish], finish_lengths S ops _ _ hn⟩
        · exact ih _ _ _ hn
    · rw [createPlansFrom_of_not_lt _ _ _ _ _ _ _ _ _ _ hlt]
      exact ⟨by simp [finish], finish_lengths S ops plans log h⟩

/-! ## The rule table behind the constructor -/

/-- The rule table is not empty when `createPlans` is called on an optimizer: the constructor
leaves a table that is not empty, and on such a table a run does not reach the undefined read
of `_rules.back()` on an empty vector. -/
theorem createPlans_after_constructor {P : Type} (S : StdSort P) (ops : ExecutionPlanOps P)
    (cap fuel : Nat) (prev : PlanList P) (plan : P) (R : OptimizerRules P)
    (rules table : List (Rule P)) (hctor : Optimizer.Optimizer R rules = some table) :
    table ≠ [] ∧
    (createPlans S ops cap table fuel prev plan).exit ≠ Exit.undefinedBehaviour := by
  have hne : table ≠ [] := by
    by_cases h : rules = []
    · subst h
      have h0 : Optimizer.Optimizer R [] = some (registerAll R []) := rfl
      rw [h0] at hctor
      simp only [Option.some.injEq] at hctor
      subst hctor
      simp [registerAll, registerRule]
    · rw [optimizer_of_ne_nil R rules h] at hctor
      simp only [Option.some.injEq] at hctor
      subst hctor
      exact h
  refine ⟨hne, ?_⟩
  unfold createPlans
  cases hlast : table.getLast? with
  | none => exact absurd (List.getLast?_eq_none_iff.1 hlast) hne
  | some back =>
    simp only
    exact (createPlansFrom_lengths S ops cap table back.level 1 fuel 0 _ _ rfl).1

/-! ## A pass in terms of its entries -/

theorem findVarUsageLoop_eq {P : Type} (ops : ExecutionPlanOps P) :
    ∀ (ps : List P) (log : List (Event P)),
      findVarUsageLoop ops ps log =
        (ps.map (withVarUsage ops),
          log ++ (ps.filter (fun p => !ops.varUsageComputed p)).map Event.findVarUsage) := by
  intro ps
  induction ps with
  | nil => intro log; simp [findVarUsageLoop]
  | cons p ps ih =>
    intro log
    unfold findVarUsageLoop
    by_cases h : ops.varUsageComputed p = true
    · simp [h, ih, withVarUsage]
    · have h' : ops.varUsageComputed p = false := by simpa using h
      simp [h', ih, withVarUsage]

theorem PlanList.pushAll_pushAll {P : Type} (np : PlanList P) (a b : List (P × Int)) :
    (np.pushAll a).pushAll b = np.pushAll (a ++ b) := by
  simp [PlanList.pushAll, List.foldl_append]

theorem PlanList.push_back_eq_pushAll {P : Type} (np : PlanList P) (p : P) (l : Int) :
    np.push_back p l = np.pushAll [(p, l)] := by
  simp [PlanList.pushAll]

theorem PlanList.ext_lists {P : Type} {a b : PlanList P} (h1 : a.list = b.list)
    (h2 : a.levelDone = b.levelDone) : a = b := by
  cases a
  cases b
  simp only at h1 h2
  subst h1 h2
  rfl

theorem PlanList.empty_pushAll {P : Type} (es : List (P × Int)) :
    (PlanList.empty : PlanList P).pushAll es = PlanList.ofEntries es := by
  apply PlanList.ext_lists
  · rw [PlanList.pushAll_list]; rfl
  · rw [PlanList.pushAll_levelDone]; rfl

theorem drainLoop_entries {P : Type} (rules : List (Rule P)) (M : Int) :
    ∀ (es : List (P × Int)) (np : PlanList P) (c : Int) (log : List (Event P)),
      ((drainLoop rules M (es.map Prod.fst) (es.map Prod.snd) np c log).status =
          DrainStatus.completed ↔ ∀ e ∈ es, entryCompletes rules M e = true) ∧
      ((drainLoop rules M (es.map Prod.fst) (es.map Prod.snd) np c log).status =
          DrainStatus.completed →
        (drainLoop rules M (es.map Prod.fst) (es.map Prod.snd) np c log).newPlans =
          np.pushAll (es.flatMap (produced rules M)) ∧
        (drainLoop rules M (es.map Prod.fst) (es.map Prod.snd) np c log)._plans = ⟨[], []⟩) := by
  intro es
  induction es with
  | nil =>
    intro np c log
    simp [drainLoop, PlanList.pushAll]
  | cons e es ih =>
    intro np c log
    obtain ⟨p, l⟩ := e
    simp only [List.map_cons, List.flatMap_cons, List.mem_cons, forall_eq_or_imp]
    unfold drainLoop
    by_cases hl : l = M
    · simp only [hl, if_true]
      have h := ih (np.push_back p M) c log
      have hprod : produced rules M (p, M) = [(p, M)] := by simp [produced]
      have hcomp : entryCompletes rules M (p, M) = true := by simp [entryCompletes]
      rw [hprod, hcomp, ← PlanList.pushAll_pushAll, ← PlanList.push_back_eq_pushAll]
      simpa using h
    · simp only [hl, if_false]
      cases hd : dispatch rules l p with
      | none =>
        simp [entryCompletes, hl, hd]
      | some x =>
        obtain ⟨it, out⟩ := x
        cases out with
        | thrown pushed =>
          simp [entryCompletes, hl, hd]
        | returned res pushed =>
          by_cases hres : res = TRI_ERROR_NO_ERROR
          · have h := ih (np.pushAll pushed) (c + 1)
              (log ++ [Event.tryRule it.name it.level c p (RuleOutcome.returned res pushed)])
            have hprod : produced rules M (p, l) = pushed := by
              simp [produced, hl, hd, RuleOutcome.pushed]
            have hcomp : entryCompletes rules M (p, l) = true := by
              simp [entryCompletes, hl, hd, hres]
            rw [hprod, hcomp, ← PlanList.pushAll_pushAll]
            simpa [hres] using h
          · simp [entryCompletes, hl, hd, hres]

theorem ofEntries_map_withVarUsage {P : Type} (ops : ExecutionPlanOps P)
    (es : List (P × Int)) :
    (es.map (fun e => (withVarUsage ops e.1, e.2))).map Prod.fst =
        (es.map Prod.fst).map (withVarUsage ops) ∧
    (es.map (fun e => (withVarUsage ops e.1, e.2))).map Prod.snd = es.map Prod.snd := by
  simp [List.map_map, Function.comp_def]

/-- A pass over the generation with the entries `es` completes exactly when the loop goes on
behind every entry, and then the next generation holds what the entries produce, in the order
of the entries, and the current generation is empty. -/
theorem runPass_entries {P : Type} (ops : ExecutionPlanOps P) (rules : List (Rule P))
    (M pass : Int) (es : List (P × Int)) (log : List (Event P)) :
    ((runPass ops rules M pass (PlanList.ofEntries es) log).status = DrainStatus.completed ↔
      ∀ e ∈ es.map (fun e => (withVarUsage ops e.1, e.2)), entryCompletes rules M e = true) ∧
    ((runPass ops rules M pass (PlanList.ofEntries es) log).status = DrainStatus.completed →
      (runPass ops rules M pass (PlanList.ofEntries es) log).newPlans =
        PlanList.ofEntries
          ((es.map (fun e => (withVarUsage ops e.1, e.2))).flatMap (produced rules M)) ∧
      (runPass ops rules M pass (PlanList.ofEntries es) log)._plans = ⟨[], []⟩) := by
  have h := drainLoop_entries rules M (es.map (fun e => (withVarUsage ops e.1, e.2)))
    PlanList.empty 0
    (log ++ [Event.enterPass pass] ++
      ((es.map Prod.fst).filter (fun p => !ops.varUsageComputed p)).map Event.findVarUsage)
  obtain ⟨h1, h2⟩ := ofEntries_map_withVarUsage ops es
  rw [h1, h2, PlanList.empty_pushAll] at h
  have hrun : runPass ops rules M pass (PlanList.ofEntries es) log =
      drainLoop rules M ((es.map Prod.fst).map (withVarUsage ops)) (es.map Prod.snd)
        PlanList.empty 0
        (log ++ [Event.enterPass pass] ++
          ((es.map Prod.fst).filter (fun p => !ops.varUsageComputed p)).map
            Event.findVarUsage) := by
    simp only [runPass, PlanList.ofEntries, findVarUsageLoop_eq]
  rw [hrun]
  exact h

theorem drainLoop_newPlans_lengths {P : Type} (rules : List (Rule P)) (M : Int) :
    ∀ (ps : List P) (ls : List Int) (np : PlanList P) (c : Int) (log : List (Event P)),
      np.list.length = np.levelDone.length →
      (drainLoop rules M ps ls np c log).newPlans.list.length =
        (drainLoop rules M ps ls np c log).newPlans.levelDone.length := by
  intro ps
  induction ps with
  | nil => intro ls np c log hnp; simpa [drainLoop] using hnp
  | cons p ps ih =>
    intro ls np c log hnp
    cases ls with
    | nil => simpa [drainLoop] using hnp
    | cons l ls =>
      have hpush : ∀ es : List (P × Int),
          (np.pushAll es).list.length = (np.pushAll es).levelDone.length := by
        intro es
        rw [PlanList.pushAll_list, PlanList.pushAll_levelDone]
        simp [hnp]
      unfold drainLoop
      split
      · exact ih ls _ c log (by simp [PlanList.push_back, hnp])
      · split
        · exact hnp
        · exact hpush _
        · split
          · exact hpush _
          · exact ih ls _ _ _ (hpush _)

theorem runPass_newPlans_lengths {P : Type} (ops : ExecutionPlanOps P) (rules : List (Rule P))
    (M pass : Int) (plans : PlanList P) (log : List (Event P)) :
    (runPass ops rules M pass plans log).newPlans.list.length =
      (runPass ops rules M pass plans log).newPlans.levelDone.length :=
  drainLoop_newPlans_lengths rules M _ _ _ _ _ rfl

theorem StdSort.sort_nil {α : Type} (S : StdSort α) (lt : α → α → Bool) : S.sort lt [] = [] :=
  List.perm_nil.1 (S.perm lt [])

theorem StdSort.sort_singleton {α : Type} (S : StdSort α) (lt : α → α → Bool) (a : α) :
    S.sort lt [a] = [a] :=
  List.perm_singleton.1 (S.perm lt [a])

/-! ## Entries at the maximum level -/

/-- Claim C13. An entry whose level is the maximum rule level is moved into the next
generation as it is: the loop over the current plans goes on with the entry appended to the
next generation and with the same log and the same plan counter, so no rule is invoked on
it; in a completed pass the next generation holds, for every entry of the current
generation in turn, what the entry contributes, and an entry at the maximum level contributes
itself (the plan being the object that the loop over the variable usage has left). A seeded
plan that is already at the maximum level, for a table whose maximum level is 0, is returned
as the only plan, unchanged, at level 0, and no pass is entered. -/
theorem C13_entry_at_maximum_level_passes_through {P : Type} (S : StdSort P)
    (ops : ExecutionPlanOps P) (cap : Nat) (rules : List (Rule P)) (M : Int) :
    (∀ (p : P) (ps : List P) (ls : List Int) (np : PlanList P) (c : Int)
        (log : List (Event P)),
      drainLoop rules M (p :: ps) (M :: ls) np c log =
        drainLoop rules M ps ls (np.push_back p M) c log) ∧
    (∀ p : P, produced rules M (p, M) = [(p, M)] ∧ entryCompletes rules M (p, M) = true) ∧
    (∀ (pass : Int) (es : List (P × Int)) (log : List (Event P)),
      (runPass ops rules M pass (PlanList.ofEntries es) log).status = DrainStatus.completed →
      (runPass ops rules M pass (PlanList.ofEntries es) log).newPlans =
        PlanList.ofEntries
          ((es.map (fun e => (withVarUsage ops e.1, e.2))).flatMap (produced rules M))) ∧
    (∀ (fuel : Nat) (prev : PlanList P) (plan : P), maxRuleLevel? rules = some 0 →
      createPlans S ops cap rules fuel prev plan =
        ⟨Exit.returned TRI_ERROR_NO_ERROR, ⟨[plan], [0]⟩,
          deleteAll prev ++ [Event.getCost plan, Event.sortPlans]⟩ ∧
      passCount (createPlans S ops cap rules fuel prev plan).log = 0) := by
  refine ⟨?_, ?_, ?_, ?_⟩
  · intro p ps ls np c log
    conv_lhs => unfold drainLoop
    simp
  · intro p
    simp [produced, entryCompletes]
  · intro pass es log hdone
    exact ((runPass_entries ops rules M pass es log).2 hdone).1
  · intro fuel prev plan hM
    have hrun : createPlans S ops cap rules fuel prev plan =
        ⟨Exit.returned TRI_ERROR_NO_ERROR, ⟨[plan], [0]⟩,
          deleteAll prev ++ [Event.getCost plan, Event.sortPlans]⟩ := by
      unfold maxRuleLevel? at hM
      unfold createPlans
      cases hlast : rules.getLast? with
      | none => simp [hlast] at hM
      | some back =>
        simp only [hlast, Option.map_some', Option.some.injEq] at hM
        simp only [hM]
        rw [createPlansFrom_of_not_lt _ _ _ _ _ _ _ _ _ _ (lt_irrefl 0)]
        simp [finish, sortPlans, estimatePlans, PlanList.push_back, PlanList.empty,
          StdSort.sort_singleton]
    refine ⟨hrun, ?_⟩
    rw [hrun]
    simp only [passCount_append, passCount_deleteAll]
    rfl

/-- An instance of claim C13: a table whose only rule has level 0. -/
theorem C13_entry_at_maximum_level_passes_through_witness :
    createPlans (insertionStdSort Nat) demoOps 5 [zeroRule] 4 ⟨[8], [20]⟩ 1 =
        ⟨Exit.returned TRI_ERROR_NO_ERROR, ⟨[1], [0]⟩,
          deleteAll ⟨[8], [20]⟩ ++ [Event.getCost 1, Event.sortPlans]⟩ ∧
      passCount (createPlans (insertionStdSort Nat) demoOps 5 [zeroRule] 4 ⟨[8], [20]⟩ 1).log
        = 0 :=
  (C13_entry_at_maximum_level_passes_through (insertionStdSort Nat) demoOps 5 [zeroRule]
    0).2.2.2 4 ⟨[8], [20]⟩ 1 (by decide)

/-! ## An empty next generation -/

/-- Claim C14. If a pass completes with an empty next generation, `createPlans` enters no
further pass and returns `TRI_ERROR_NO_ERROR` with an empty plan list. A run that ends
because a rule returned an error code returns that code, which is not `TRI_ERROR_NO_ERROR`,
so the two outcomes differ in the return code. -/
theorem C14_empty_generation_is_success {P : Type} (S : StdSort P) (ops : ExecutionPlanOps P)
    (cap : Nat) (rules : List (Rule P)) (M pass : Int) (fuel : Nat) (least : Int)
    (plans : PlanList P) (log : List (Event P)) (hlt : least < M) :
    ((runPass ops rules M pass plans log).status = DrainStatus.completed →
      (runPass ops rules M pass plans log).newPlans.list = [] →
      (createPlansFrom S ops cap rules M pass (fuel + 1) least plans log).exit =
        Exit.returned TRI_ERROR_NO_ERROR ∧
      (createPlansFrom S ops cap rules M pass (fuel + 1) least plans log)._plans = ⟨[], []⟩ ∧
      (createPlansFrom S ops cap rules M pass (fuel + 1) least plans log).log =
        (runPass ops rules M pass plans log).log ++
          deleteAll (runPass ops rules M pass plans log)._plans ++ [Event.sortPlans] ∧
      passCount (createPlansFrom S ops cap rules M pass (fuel + 1) least plans log).log =
        passCount (runPass ops rules M pass plans log).log) ∧
    (∀ res : Int, (runPass ops rules M pass plans log).status = DrainStatus.failed res →
      (createPlansFrom S ops cap rules M pass (fuel + 1) least plans log).exit =
        Exit.returned res ∧ res ≠ TRI_ERROR_NO_ERROR) := by
  constructor
  · intro hdone hempty
    have hlev : (runPass ops rules M pass plans log).newPlans.levelDone = [] := by
      have := runPass_newPlans_lengths ops rules M pass plans log
      rw [hempty] at this
      exact List.length_eq_zero.1 this.symm
    have hnew : (runPass ops rules M pass plans log).newPlans = ⟨[], []⟩ :=
      PlanList.ext_lists hempty hlev
    have hfin : createPlansFrom S ops cap rules M pass (fuel + 1) least plans log =
        finish S ops ⟨[], []⟩ ((runPass ops rules M pass plans log).log ++
          deleteAll (runPass ops rules M pass plans log)._plans) := by
      rw [createPlansFrom_succ _ _ _ _ _ _ _ _ _ _ hlt]
      simp only [hdone, hnew]
      split
      · rfl
      · rw [createPlansFrom_of_not_lt]
        simp [leastDoneLevelLoop]
    rw [hfin]
    refine ⟨rfl, ?_, ?_, ?_⟩
    · simp [finish, sortPlans, StdSort.sort_nil]
    · simp [finish, estimatePlans]
    · rw [passCount_finish, passCount_append, passCount_deleteAll]
      rfl
  · intro res hst
    refine ⟨?_, drainLoop_failed_ne _ _ _ _ _ _ _ _ hst⟩
    rw [createPlansFrom_succ _ _ _ _ _ _ _ _ _ _ hlt]
    simp only [hst]

/-- An instance of claim C14: the only rule drops the seeded plan, and the whole run returns
`TRI_ERROR_NO_ERROR` with an empty plan list after one pass. -/
theorem C14_empty_generation_is_success_witness :
    createPlans (insertionStdSort Nat) demoOps 5 [dropRule] 3 PlanList.empty 1 =
      createPlansFrom (insertionStdSort Nat) demoOps 5 [dropRule] 10 1 (2 + 1) 0
        (PlanList.empty.push_back 1 0) [] ∧
    passCount (createPlans (insertionStdSort Nat) demoOps 5 [dropRule] 3 PlanList.empty 1).log
      = 1 ∧
    ((createPlansFrom (insertionStdSort Nat) demoOps 5 [dropRule] 10 1 (2 + 1) 0
        (PlanList.empty.push_back 1 0) []).exit = Exit.returned TRI_ERROR_NO_ERROR ∧
      (createPlansFrom (insertionStdSort Nat) demoOps 5 [dropRule] 10 1 (2 + 1) 0
        (PlanList.empty.push_back 1 0) [])._plans = ⟨[], []⟩ ∧
      (createPlansFrom (insertionStdSort Nat) demoOps 5 [dropRule] 10 1 (2 + 1) 0
        (PlanList.empty.push_back 1 0) []).log =
        (runPass demoOps [dropRule] 10 1 (PlanList.empty.push_back 1 0) []).log ++
          deleteAll (runPass demoOps [dropRule] 10 1 (PlanList.empty.push_back 1 0) [])._plans
          ++ [Event.sortPlans] ∧
      passCount (createPlansFrom (insertionStdSort Nat) demoOps 5 [dropRule] 10 1 (2 + 1) 0
        (PlanList.empty.push_back 1 0) []).log =
        passCount (runPass demoOps [dropRule] 10 1 (PlanList.empty.push_back 1 0) []).log) :=
  ⟨by decide, by decide,
   (C14_empty_generation_is_success (insertionStdSort Nat) demoOps 5 [dropRule] 10 1 2 0
     (PlanList.empty.push_back 1 0) [] (by decide)).1 (by decide) (by decide)⟩

/-! ## The variable usage -/

theorem rulesSeeVarUsage_append {P : Type} (ops : ExecutionPlanOps P)
    {a b : List (Event P)} :
    RulesSeeVarUsage ops (a ++ b) ↔ RulesSeeVarUsage ops a ∧ RulesSeeVarUsage ops b := by
  simp only [RulesSeeVarUsage, List.mem_append]
  constructor
  · intro h
    exact ⟨fun e he => h e (Or.inl he), fun e he => h e (Or.inr he)⟩
  · rintro ⟨h1, h2⟩ e (he | he)
    · exact h1 e he
    · exact h2 e he

theorem rulesSeeVarUsage_of_no_tryRule {P : Type} (ops : ExecutionPlanOps P)
    (ext : List (Event P)) (h : ∀ e ∈ ext, e.isTryRule = false) : RulesSeeVarUsage ops ext := by
  intro e he name level count p out heq
  have := h e he
  rw [heq] at this
  simp [Event.isTryRule] at this

theorem rulesSeeVarUsage_deleteAll {P : Type} (ops : ExecutionPlanOps P) (plans : PlanList P) :
    RulesSeeVarUsage ops (deleteAll plans) := by
  apply rulesSeeVarUsage_of_no_tryRule
  intro e he
  simp only [deleteAll, List.mem_map] at he
  obtain ⟨p, -, rfl⟩ := he
  rfl

theorem rulesSeeVarUsage_finish {P : Type} (S : StdSort P) (ops : ExecutionPlanOps P)
    (plans : PlanList P) (log : List (Event P)) (h : RulesSeeVarUsage ops log) :
    RulesSeeVarUsage ops (finish S ops plans log).log := by
  simp only [finish, estimatePlans]
  refine (rulesSeeVarUsage_append ops).2 ⟨(rulesSeeVarUsage_append ops).2 ⟨h, ?_⟩, ?_⟩
  · apply rulesSeeVarUsage_of_no_tryRule
    intro e he
    simp only [List.mem_map] at he
    obtain ⟨p, -, rfl⟩ := he
    rfl
  · apply rulesSeeVarUsage_of_no_tryRule
    intro e he
    simp only [List.mem_singleton] at he
    subst he
    rfl

theorem drainLoop_rulesSeeVarUsage {P : Type} (ops : ExecutionPlanOps P)
    (rules : List (Rule P)) (M : Int) :
    ∀ (ps : List P) (ls : List Int) (np : PlanList P) (c : Int) (log : List (Event P)),
      (∀ p ∈ ps, ops.varUsageComputed p = true) → RulesSeeVarUsage ops log →
      RulesSeeVarUsage ops (drainLoop rules M ps ls np c log).log := by
  intro ps
  induction ps with
  | nil => intro ls np c log _ hlog; simpa [drainLoop] using hlog
  | cons p ps ih =>
    intro ls np c log hps hlog
    have hp : ops.varUsageComputed p = true := hps p (by simp)
    have hrest : ∀ q ∈ ps, ops.varUsageComputed q = true := fun q hq => hps q (by simp [hq])
    cases ls with
    | nil => simpa [drainLoop] using hlog
    | cons l ls =>
      have hstep : ∀ (name : String) (level : Int) (out : RuleOutcome P),
          RulesSeeVarUsage ops (log ++ [Event.tryRule name level c p out]) := by
        intro name level out
        refine (rulesSeeVarUsage_append ops).2 ⟨hlog, ?_⟩
        intro e he name' level' count' p' out' heq
        simp only [List.mem_singleton] at he
        rw [he] at heq
        simp only [Event.tryRule.injEq] at heq
        rw [← heq.2.2.2.1]
        exact hp
      unfold drainLoop
      split
      · exact ih ls _ c log hrest hlog
      · split
        · exact hlog
        · rename_i it pushed hd
          have := hstep it.name it.level (RuleOutcome.thrown pushed)
          refine (rulesSeeVarUsage_append ops).2 ⟨hlog, ?_⟩
          intro e he name' level' count' p' out' heq
          simp only [List.mem_cons, List.mem_singleton, List.not_mem_nil, or_false] at he
          rcases he with he | he
          · rw [he] at heq
            simp only [Event.tryRule.injEq] at heq
            rw [← heq.2.2.2.1]
            exact hp
          · rw [he] at heq
            exact absurd heq (by simp)
        · rename_i it res pushed hd
          split
          · exact hstep _ _ _
          · exact ih ls _ _ _ hrest (hstep _ _ _)

theorem runPass_rulesSeeVarUsage {P : Type} (ops : ExecutionPlanOps P)
    (hfv : ∀ p, ops.varUsageComputed (ops.findVarUsage p) = true) (rules : List (Rule P))
    (M pass : Int) (plans : PlanList P) (log : List (Event P))
    (hlog : RulesSeeVarUsage ops log) :
    RulesSeeVarUsage ops (runPass ops rules M pass plans log).log := by
  simp only [runPass, findVarUsageLoop_eq]
  apply drainLoop_rulesSeeVarUsage
  · intro p hp
    simp only [List.mem_map] at hp
    obtain ⟨q, -, rfl⟩ := hp
    unfold withVarUsage
    split
    · assumption
    · exact hfv q
  · refine (rulesSeeVarUsage_append ops).2 ⟨(rulesSeeVarUsage_append ops).2 ⟨hlog, ?_⟩, ?_⟩
    · apply rulesSeeVarUsage_of_no_tryRule
      intro e he
      simp only [List.mem_singleton] at he
      subst he
      rfl
    · apply rulesSeeVarUsage_of_no_tryRule
      intro e he
      simp only [List.mem_map] at he
      obtain ⟨p, -, rfl⟩ := he
      rfl

theorem createPlansFrom_rulesSeeVarUsage {P : Type} (S : StdSort P) (ops : ExecutionPlanOps P)
    (hfv : ∀ p, ops.varUsageComputed (ops.findVarUsage p) = true) (cap : Nat)
    (rules : List (Rule P)) (M pass : Int) :
    ∀ (fuel : Nat) (least : Int) (plans : PlanList P) (log : List (Event P)),
      RulesSeeVarUsage ops log →
      RulesSeeVarUsage ops (createPlansFrom S ops cap rules M pass fuel least plans log).log := by
  intro fuel
  induction fuel with
  | zero =>
    intro least plans log hlog
    by_cases h : least < M
    · rw [createPlansFrom_zero _ _ _ _ _ _ _ _ _ h]; exact hlog
    · rw [createPlansFrom_of_not_lt _ _ _ _ _ _ _ _ _ _ h]
      exact rulesSeeVarUsage_finish S ops plans log hlog
  | succ fuel ih =>
    intro least plans log hlog
    by_cases h : least < M
    · rw [createPlansFrom_succ _ _ _ _ _ _ _ _ _ _ h]
      have hd := runPass_rulesSeeVarUsage ops hfv rules M pass plans log hlog
      split
      · exact (rulesSeeVarUsage_append ops).2 ⟨hd, rulesSeeVarUsage_deleteAll ops _⟩
      · exact (rulesSeeVarUsage_append ops).2 ⟨hd, rulesSeeVarUsage_deleteAll ops _⟩
      · exact hd
      · exact hd
      · have hd' := (rulesSeeVarUsage_append ops).2
          ⟨hd, rulesSeeVarUsage_deleteAll ops (runPass ops rules M pass plans log)._plans⟩
        split
        · exact rulesSeeVarUsage_finish S ops _ _ hd'
        · exact ih _ _ _ hd'
    · rw [createPlansFrom_of_not_lt _ _ _ _ _ _ _ _ _ _ h]
      exact rulesSeeVarUsage_finish S ops plans log hlog

/-- Claim C15. Assume that `findVarUsage` sets the flag `varUsageComputed` of a plan. Then
every rule invocation that a run of `createPlans` records was made on a plan whose variable
usage is computed. In every pass the calls of `findVarUsage` are recorded directly behind the
entry of the pass, one for each plan of the current generation whose flag was false at the
start of the pass, in the order of the generation, and no other call is recorded in the
pass. -/
theorem C15_variable_usage_before_rules {P : Type} (S : StdSort P) (ops : ExecutionPlanOps P)
    (cap : Nat) (rules : List (Rule P))
    (hfv : ∀ p, ops.varUsageComputed (ops.findVarUsage p) = true) :
    (∀ (fuel : Nat) (prev : PlanList P) (plan : P),
      ∀ e ∈ (createPlans S ops cap rules fuel prev plan).log,
        ∀ (name : String) (level count : Int) (p : P) (out : RuleOutcome P),
          e = Event.tryRule name level count p out → ops.varUsageComputed p = true) ∧
    (∀ (M pass : Int) (plans : PlanList P) (log : List (Event P)),
      ∃ ext : List (Event P),
        (runPass ops rules M pass plans log).log =
          log ++ [Event.enterPass pass] ++
            (plans.list.filter (fun p => !ops.varUsageComputed p)).map Event.findVarUsage ++
            ext ∧
        ∀ e ∈ ext, e.isFindVarUsage = false) := by
  constructor
  · intro fuel prev plan
    have : RulesSeeVarUsage ops (createPlans S ops cap rules fuel prev plan).log := by
      unfold createPlans
      cases hlast : rules.getLast? with
      | none => intro e he; simp at he
      | some back =>
        exact createPlansFrom_rulesSeeVarUsage S ops hfv cap rules back.level 1 fuel 0 _ _
          (rulesSeeVarUsage_deleteAll ops prev)
    exact this
  · intro M pass plans log
    simp only [runPass, findVarUsageLoop_eq]
    obtain ⟨ext, h1, h2⟩ := drainLoop_log rules M (plans.list.map (withVarUsage ops))
      plans.levelDone PlanList.empty 0
      (log ++ [Event.enterPass pass] ++
        (plans.list.filter (fun p => !ops.varUsageComputed p)).map Event.findVarUsage)
    refine ⟨ext, h1, ?_⟩
    intro e he
    rcases h2 e he with h | h <;> cases e <;>
      simp_all [Event.isTryRule, Event.isDeletePlan, Event.isFindVarUsage]

/-- An instance of claim C15: the variable usage of a plan is computed when its number is
odd; the seeded plan 2 becomes the plan 5 before the first rule sees it. -/
theorem C15_variable_usage_before_rules_witness :
    (createPlans (insertionStdSort Nat) flagOps 5 [fanOutRule, keepRule] 4 PlanList.empty
      2).log.filter (fun e => e.isTryRule || e.isFindVarUsage) =
      [Event.findVarUsage 2,
       Event.tryRule "fan-out" 10 0 5 (RuleOutcome.returned 0 [(10, 10), (11, 10)]),
       Event.findVarUsage 10,
       Event.tryRule "keep" 20 0 21 (RuleOutcome.returned 0 [(21, 20)]),
       Event.tryRule "keep" 20 1 11 (RuleOutcome.returned 0 [(11, 20)])] ∧
    ∀ e ∈ (createPlans (insertionStdSort Nat) flagOps 5 [fanOutRule, keepRule] 4 PlanList.empty
        2).log,
      ∀ (name : String) (level count : Int) (p : Nat) (out : RuleOutcome Nat),
        e = Event.tryRule name level count p out → flagOps.varUsageComputed p = true :=
  ⟨by decide,
   (C15_variable_usage_before_rules (insertionStdSort Nat) flagOps 5 [fanOutRule, keepRule]
     (by intro p; simp [flagOps]; omega)).1 4 PlanList.empty 2⟩

/-! ## The levels of the entries -/

theorem PlanList.eq_ofEntries {P : Type} (pl : PlanList P)
    (h : pl.list.length = pl.levelDone.length) :
    pl = PlanList.ofEntries (pl.list.zip pl.levelDone) := by
  apply PlanList.ext_lists
  · simp only [PlanList.ofEntries]
    rw [List.map_fst_zip]
    omega
  · simp only [PlanList.ofEntries]
    rw [List.map_snd_zip]
    omega

theorem produced_levels {P : Type} {rules : List (Rule P)} {M : Int}
    (hs : SortedByLevel rules) (hM : maxRuleLevel? rules = some M)
    (hem : EmitsAtInvokedLevel rules) (e x : P × Int) (hx : x ∈ produced rules M e) :
    (∃ r ∈ rules, r.level = x.2) ∧ x.2 ≤ M ∧ e.2 ≤ x.2 ∧ (e.2 ≠ M → e.2 < x.2) := by
  unfold produced at hx
  by_cases hl : e.2 = M
  · simp only [hl, if_true, List.mem_singleton] at hx
    subst hx
    refine ⟨?_, by omega, le_refl _, fun h => absurd hl h⟩
    rw [hl]
    exact maxRuleLevel_registered hM
  · simp only [hl, if_false] at hx
    cases hd : dispatch rules e.2 e.1 with
    | none => simp [hd] at hx
    | some y =>
      obtain ⟨it, out⟩ := y
      simp only [hd] at hx
      obtain ⟨hmem, hout, hidx⟩ := dispatch_eq_some hd
      obtain ⟨hi, hit⟩ := List.getElem?_eq_some.1 hidx
      have hlt : e.2 < it.level := by
        have := (upper_bound_spec rules ⟨"dummy", dummyRule, e.2⟩ hs).2.2 _ hi (le_refl _)
        rw [hit] at this
        exact this
      have hx2 : x.2 = it.level := hem it hmem e.1 it.level x (by rw [← hout]; exact hx)
      rw [hx2]
      exact ⟨⟨it, hmem, rfl⟩, level_le_maxRuleLevel hs hM it hmem, le_of_lt hlt, fun _ => hlt⟩

/-- When the loop over the current plans stops, in whatever way, it has processed a first
part of the entries: the next generation holds what these entries produce, in their order,
and the rest of the entries is still in the current generation. -/
theorem drainLoop_entries_processed {P : Type} (rules : List (Rule P)) (M : Int) :
    ∀ (es : List (P × Int)) (np : PlanList P) (c : Int) (log : List (Event P)),
      ∃ done rest : List (P × Int), es = done ++ rest ∧
        (drainLoop rules M (es.map Prod.fst) (es.map Prod.snd) np c log).newPlans =
          np.pushAll (done.flatMap (produced rules M)) ∧
        (drainLoop rules M (es.map Prod.fst) (es.map Prod.snd) np c log)._plans =
          PlanList.ofEntries rest ∧
        ((drainLoop rules M (es.map Prod.fst) (es.map Prod.snd) np c log).status =
          DrainStatus.completed → rest = []) := by
  intro es
  induction es with
  | nil =>
    intro np c log
    exact ⟨[], [], rfl, by simp [drainLoop, PlanList.pushAll], by simp [drainLoop, PlanList.ofEntries],
      fun _ => rfl⟩
  | cons e es ih =>
    intro np c log
    obtain ⟨p, l⟩ := e
    simp only [List.map_cons]
    unfold drainLoop
    by_cases hl : l = M
    · simp only [hl, if_true]
      obtain ⟨done, rest, hes, h1, h2, h3⟩ := ih (np.push_back p M) c log
      refine ⟨(p, M) :: done, rest, by simp [hes], ?_, h2, h3⟩
      rw [h1, List.flatMap_cons, ← PlanList.pushAll_pushAll]
      have hprod : produced rules M (p, M) = [(p, M)] := by simp [produced]
      rw [hprod, ← PlanList.push_back_eq_pushAll]
    · simp only [hl, if_false]
      cases hd : dispatch rules l p with
      | none =>
        refine ⟨[(p, l)], es, rfl, ?_, rfl, fun h => absurd h (by simp)⟩
        simp [produced, hl, hd, PlanList.pushAll]
      | some x =>
        obtain ⟨it, out⟩ := x
        have hprod : produced rules M (p, l) = out.pushed := by
          simp [produced, hl, hd]
        cases out with
        | thrown pushed =>
          refine ⟨[(p, l)], es, rfl, ?_, rfl, fun h => absurd h (by simp)⟩
          simp [hprod, RuleOutcome.pushed]
        | returned res pushed =>
          simp only
          by_cases hres : res = TRI_ERROR_NO_ERROR
          · simp only [hres, ne_eq, not_true_eq_false, if_false]
            obtain ⟨done, rest, hes, h1, h2, h3⟩ := ih (np.pushAll pushed) (c + 1)
              (log ++ [Event.tryRule it.name it.level c p
                (RuleOutcome.returned TRI_ERROR_NO_ERROR pushed)])
            refine ⟨(p, l) :: done, rest, by simp [hes], ?_, h2, h3⟩
            rw [h1, List.flatMap_cons, ← PlanList.pushAll_pushAll, hprod]
            rfl
          · simp only [ne_eq, hres, not_false_eq_true, if_true]
            refine ⟨[(p, l)], es, rfl, ?_, rfl, fun h => absurd h (by simp)⟩
            simp [hprod, RuleOutcome.pushed]

theorem runPass_entries_processed {P : Type} (ops : ExecutionPlanOps P) (rules : List (Rule P))
    (M pass : Int) (es : List (P × Int)) (log : List (Event P)) :
    ∃ done rest : List (P × Int),
      es.map (fun e => (withVarUsage ops e.1, e.2)) = done ++ rest ∧
      (runPass ops rules M pass (PlanList.ofEntries es) log).newPlans =
        PlanList.ofEntries (done.flatMap (produced rules M)) ∧
      (runPass ops rules M pass (PlanList.ofEntries es) log)._plans = PlanList.ofEntries rest ∧
      ((runPass ops rules M pass (PlanList.ofEntries es) log).status =
        DrainStatus.completed → rest = []) := by
  have h := drainLoop_entries_processed rules M (es.map (fun e => (withVarUsage ops e.1, e.2)))
    PlanList.empty 0
    (log ++ [Event.enterPass pass] ++
      ((es.map Prod.fst).filter (fun p => !ops.varUsageComputed p)).map Event.findVarUsage)
  obtain ⟨h1, h2⟩ := ofEntries_map_withVarUsage ops es
  rw [h1, h2] at h
  have hrun : runPass ops rules M pass (PlanList.ofEntries es) log =
      drainLoop rules M ((es.map Prod.fst).map (withVarUsage ops)) (es.map Prod.snd)
        PlanList.empty 0
        (log ++ [Event.enterPass pass] ++
          ((es.map Prod.fst).filter (fun p => !ops.varUsageComputed p)).map
            Event.findVarUsage) := by
    simp only [runPass, PlanList.ofEntries, findVarUsageLoop_eq]
  rw [hrun]
  obtain ⟨done, rest, hes, hn, hp, hc⟩ := h
  exact ⟨done, rest, hes, by rw [hn, PlanList.empty_pushAll], hp, hc⟩

theorem runPass_levelsRegistered {P : Type} (ops : ExecutionPlanOps P) {rules : List (Rule P)}
    {M : Int} (hs : SortedByLevel rules) (hM : maxRuleLevel? rules = some M)
    (hem : EmitsAtInvokedLevel rules) (pass : Int) (plans : PlanList P)
    (log : List (Event P)) (hlen : plans.list.length = plans.levelDone.length)
    (hinv : LevelsRegistered rules M plans) :
    LevelsRegistered rules M (runPass ops rules M pass plans log).newPlans ∧
    LevelsRegistered rules M (runPass ops rules M pass plans log)._plans := by
  rw [PlanList.eq_ofEntries plans hlen] at hinv ⊢
  obtain ⟨done, rest, hes, hn, hp, -⟩ := runPass_entries_processed ops rules M pass
    (plans.list.zip plans.levelDone) log
  rw [hn, hp]
  constructor
  · intro l hl
    simp only [PlanList.ofEntries, List.mem_map] at hl
    obtain ⟨x, hx, rfl⟩ := hl
    obtain ⟨e, -, hxe⟩ := List.mem_flatMap.1 hx
    obtain ⟨hreg, hle, -, -⟩ := produced_levels hs hM hem e x hxe
    exact ⟨Or.inr hreg, hle⟩
  · intro l hl
    apply hinv l
    simp only [PlanList.ofEntries, List.mem_map] at hl ⊢
    obtain ⟨x, hx, rfl⟩ := hl
    have hx' : x ∈ (plans.list.zip plans.levelDone).map
        (fun e => (withVarUsage ops e.1, e.2)) := by
      rw [hes]; exact List.mem_append_right _ hx
    simp only [List.mem_map] at hx'
    obtain ⟨y, hy, rfl⟩ := hx'
    exact ⟨y, hy, rfl⟩

theorem createPlansFrom_levelsRegistered {P : Type} (S : StdSort P) (ops : ExecutionPlanOps P)
    (cap : Nat) {rules : List (Rule P)} {M : Int} (pass : Int) (hs : SortedByLevel rules)
    (hM : maxRuleLevel? rules = some M) (hem : EmitsAtInvokedLevel rules) :
    ∀ (fuel : Nat) (least : Int) (plans : PlanList P) (log : List (Event P)),
      plans.list.length = plans.levelDone.length → LevelsRegistered rules M plans →
      LevelsRegistered rules M
        (createPlansFrom S ops cap rules M pass fuel least plans log)._plans := by
  intro fuel
  induction fuel with
  | zero =>
    intro least plans log _ hinv
    by_cases h : least < M
    · rw [createPlansFrom_zero _ _ _ _ _ _ _ _ _ h]; exact hinv
    · rw [createPlansFrom_of_not_lt _ _ _ _ _ _ _ _ _ _ h]; exact hinv
  | succ fuel ih =>
    intro least plans log hlen hinv
    by_cases h : least < M
    · rw [createPlansFrom_succ _ _ _ _ _ _ _ _ _ _ h]
      obtain ⟨hn, hp⟩ := runPass_levelsRegistered ops hs hM hem pass plans log hlen hinv
      split
      · exact hp
      · exact hp
      · exact hp
      · exact hp
      · split
        · exact hn
        · exact ih _ _ _ (runPass_newPlans_lengths ops rules M pass plans log) hn
    · rw [createPlansFrom_of_not_lt _ _ _ _ _ _ _ _ _ _ h]; exact hinv

theorem createPlans_levelsRegistered {P : Type} (S : StdSort P) (ops : ExecutionPlanOps P)
    (cap : Nat) {rules : List (Rule P)} {M : Int} (hs : SortedByLevel rules)
    (hM : maxRuleLevel? rules = some M) (hem : EmitsAtInvokedLevel rules) (h0 : 0 ≤ M)
    (fuel : Nat) (prev : PlanList P) (plan : P) :
    LevelsRegistered rules M (createPlans S ops cap rules fuel prev plan)._plans := by
  have hM' := hM
  unfold maxRuleLevel? at hM'
  unfold createPlans
  cases hlast : rules.getLast? with
  | none => simp [hlast] at hM'
  | some back =>
    simp only [hlast, Option.map_some', Option.some.injEq] at hM'
    simp only [hM']
    apply createPlansFrom_levelsRegistered S ops cap 1 hs hM hem fuel 0 _ _ rfl
    intro l hl
    simp only [PlanList.push_back, PlanList.empty, List.nil_append, List.mem_singleton] at hl
    subst hl
    exact ⟨Or.inl rfl, h0⟩

/-- Claim C12, as stated, fails on the code. The only rule of the table has the level -5 and
emits at the level it is invoked with. The run enters no pass and returns the seeded plan at
level 0, which exceeds the maximum rule level -5. -/
theorem C12_counterexample :
    SortedByLevel [belowZeroRule] ∧
    maxRuleLevel? [belowZeroRule] = some (-5) ∧
    (createPlans (insertionStdSort Nat) demoOps 5 [belowZeroRule] 3 PlanList.empty
      1)._plans = ⟨[1], [0]⟩ ∧
    ¬ (∀ l ∈ (createPlans (insertionStdSort Nat) demoOps 5 [belowZeroRule] 3 PlanList.empty
      1)._plans.levelDone, l ≤ -5) := by
  refine ⟨by simp [SortedByLevel], by decide, by decide, by decide⟩

/-- Claim C12, amended. Let the rule table be sorted by level, let its maximum level be at
least 0, and let each rule emit its output plans at the level it was invoked with. Then,
however far a run of `createPlans` has come and however it ends, every level in the plan
collection is 0 or a registered level and is at most the maximum rule level. When the loop
over the current plans stops, the next generation holds what the processed entries produce
and the current generation holds the entries not yet processed. Every entry produced has a
registered level that is at most the maximum rule level and at least the level of the entry
it is produced from, and a strictly greater level when a rule was applied. -/
theorem C12_levels_registered_and_monotone {P : Type} (S : StdSort P)
    (ops : ExecutionPlanOps P) (cap : Nat) (rules : List (Rule P)) (M : Int)
    (hs : SortedByLevel rules) (hM : maxRuleLevel? rules = some M)
    (hem : EmitsAtInvokedLevel rules) (h0 : 0 ≤ M) :
    (∀ (fuel : Nat) (prev : PlanList P) (plan : P),
      ∀ l ∈ (createPlans S ops cap rules fuel prev plan)._plans.levelDone,
        (l = 0 ∨ ∃ r ∈ rules, r.level = l) ∧ l ≤ M) ∧
    (∀ (pass : Int) (es : List (P × Int)) (log : List (Event P)),
      ∃ done rest : List (P × Int),
        es.map (fun e => (withVarUsage ops e.1, e.2)) = done ++ rest ∧
        (runPass ops rules M pass (PlanList.ofEntries es) log).newPlans =
          PlanList.ofEntries (done.flatMap (produced rules M)) ∧
        (runPass ops rules M pass (PlanList.ofEntries es) log)._plans =
          PlanList.ofEntries rest) ∧
    (∀ e x : P × Int, x ∈ produced rules M e →
      (∃ r ∈ rules, r.level = x.2) ∧ x.2 ≤ M ∧ e.2 ≤ x.2 ∧ (e.2 ≠ M → e.2 < x.2)) := by
  refine ⟨?_, ?_, ?_⟩
  · intro fuel prev plan
    exact createPlans_levelsRegistered S ops cap hs hM hem h0 fuel prev plan
  · intro pass es log
    obtain ⟨done, rest, h1, h2, h3, -⟩ := runPass_entries_processed ops rules M pass es log
    exact ⟨done, rest, h1, h2, h3⟩
  · intro e x hx
    exact produced_levels hs hM hem e x hx


theorem emitsAtInvokedLevel_demoTable : EmitsAtInvokedLevel demoTable := by
  intro r hr p l e he
  simp only [demoTable, List.mem_cons, List.mem_singleton, List.not_mem_nil, or_false] at hr
  rcases hr with rfl | rfl | rfl | rfl <;>
    simp only [RuleOutcome.pushed, List.mem_singleton] at he <;> rw [he]

theorem sortedByLevel_demoTable : SortedByLevel demoTable := by
  simp [SortedByLevel, demoTable]

/-- An instance of the amended claim C12: the table with the levels 10, 20, 20, 30. -/
theorem C12_levels_registered_and_monotone_witness :
    (createPlans (insertionStdSort Nat) demoOps 5 demoTable 2 PlanList.empty 1)._plans =
      ⟨[2], [20]⟩ ∧
    ∀ l ∈ (createPlans (insertionStdSort Nat) demoOps 5 demoTable 2 PlanList.empty
        1)._plans.levelDone,
      (l = 0 ∨ ∃ r ∈ demoTable, r.level = l) ∧ l ≤ 30 :=
  ⟨by decide,
   (C12_levels_registered_and_monotone (insertionStdSort Nat) demoOps 5 demoTable 30
     sortedByLevel_demoTable (by decide) emitsAtInvokedLevel_demoTable (by decide)).1
     2 PlanList.empty 1⟩

/-! ## Exhaustion of the search -/

theorem createPlansFrom_exhausted {P : Type} (S : StdSort P) (ops : ExecutionPlanOps P)
    (cap : Nat) (rules : List (Rule P)) (M pass : Int) :
    ∀ (fuel : Nat) (least : Int) (plans : PlanList P) (log : List (Event P)),
      (¬ least < M → ∀ l ∈ plans.levelDone, M ≤ l) →
      (createPlansFrom S ops cap rules M pass fuel least plans log).exit =
        Exit.returned TRI_ERROR_NO_ERROR →
      (createPlansFrom S ops cap rules M pass fuel least plans log)._plans.size < cap →
      ∀ l ∈ (createPlansFrom S ops cap rules M pass fuel least plans log)._plans.levelDone,
        M ≤ l := by
  intro fuel
  induction fuel with
  | zero =>
    intro least plans log hleast hexit hsize
    by_cases h : least < M
    · rw [createPlansFrom_zero _ _ _ _ _ _ _ _ _ h] at hexit
      exact absurd hexit (by simp)
    · rw [createPlansFrom_of_not_lt _ _ _ _ _ _ _ _ _ _ h]
      exact hleast h
  | succ fuel ih =>
    intro least plans log hleast hexit hsize
    by_cases h : least < M
    · rw [createPlansFrom_succ _ _ _ _ _ _ _ _ _ _ h] at hexit hsize ⊢
      split at hexit
      · rename_i res hst
        have hne := drainLoop_failed_ne _ _ _ _ _ _ _ _ hst
        simp only [Exit.returned.injEq] at hexit
        exact absurd hexit hne
      · exact absurd hexit (by simp)
      · exact absurd hexit (by simp)
      · exact absurd hexit (by simp)
      · rename_i hst
        simp only [hst] at hsize ⊢
        split at hexit
        · rename_i hcap
          rw [if_pos hcap, finish_size] at hsize
          omega
        · rename_i hcap
          rw [if_neg hcap] at hsize ⊢
          refine ih _ _ _ ?_ hexit hsize
          intro hnot l hl
          by_contra hcon
          exact hnot ((leastDoneLevelLoop_lt M _).2 ⟨l, hl, by omega⟩)
    · rw [createPlansFrom_of_not_lt _ _ _ _ _ _ _ _ _ _ h]
      exact hleast h

/-- Claim C16, as stated, fails on the code. The only rule of the table has the level -7 and
emits at the level it is invoked with. The run returns `TRI_ERROR_NO_ERROR` with one plan,
fewer than `maxNumberOfPlans = 5`, and the level of the plan is 0, not the maximum rule
level -7. -/
theorem C16_counterexample :
    maxRuleLevel? [farBelowZeroRule] = some (-7) ∧
    (createPlans (insertionStdSort Nat) demoOps 5 [farBelowZeroRule] 3 PlanList.empty
      1).exit = Exit.returned TRI_ERROR_NO_ERROR ∧
    (createPlans (insertionStdSort Nat) demoOps 5 [farBelowZeroRule] 3 PlanList.empty
      1)._plans.size < 5 ∧
    ¬ (∀ l ∈ (createPlans (insertionStdSort Nat) demoOps 5 [farBelowZeroRule] 3
      PlanList.empty 1)._plans.levelDone, l = -7) := by
  decide

/-- Claim C16, amended. If `createPlans` returns `TRI_ERROR_NO_ERROR` with fewer than
`maxNumberOfPlans` plans, every level in the plan collection is at least the maximum rule
level. The levels are exactly the maximum rule level when, in addition, the rule table is
sorted by level, its maximum level is at least 0, and the rules emit at the level they were
invoked with. -/
theorem C16_search_exhausted {P : Type} (S : StdSort P) (ops : ExecutionPlanOps P)
    (cap : Nat) (rules : List (Rule P)) (M : Int) (hM : maxRuleLevel? rules = some M)
    (fuel : Nat) (prev : PlanList P) (plan : P)
    (hexit : (createPlans S ops cap rules fuel prev plan).exit =
      Exit.returned TRI_ERROR_NO_ERROR)
    (hsize : (createPlans S ops cap rules fuel prev plan)._plans.size < cap) :
    (∀ l ∈ (createPlans S ops cap rules fuel prev plan)._plans.levelDone, M ≤ l) ∧
    (SortedByLevel rules → EmitsAtInvokedLevel rules → 0 ≤ M →
      ∀ l ∈ (createPlans S ops cap rules fuel prev plan)._plans.levelDone, l = M) := by
  have hfirst : ∀ l ∈ (createPlans S ops cap rules fuel prev plan)._plans.levelDone,
      M ≤ l := by
    have hM' := hM
    unfold maxRuleLevel? at hM'
    unfold createPlans at hexit hsize ⊢
    cases hlast : rules.getLast? with
    | none => simp [hlast] at hM'
    | some back =>
      simp only [hlast, Option.map_some', Option.some.injEq] at hM'
      simp only [hlast, hM'] at hexit hsize ⊢
      refine createPlansFrom_exhausted S ops cap rules M 1 fuel 0 _ _ ?_ hexit hsize
      intro hnot l hl
      simp only [PlanList.push_back, PlanList.empty, List.nil_append,
        List.mem_singleton] at hl
      subst hl
      omega
  refine ⟨hfirst, ?_⟩
  intro hs hem h0 l hl
  have h1 := hfirst l hl
  have h2 := (createPlans_levelsRegistered S ops cap hs hM hem h0 fuel prev plan l hl).2
  omega

/-- An instance of the amended claim C16: the table with the levels 10, 20, 20, 30; the run
ends with one plan at level 30. -/
theorem C16_search_exhausted_witness :
    (createPlans (insertionStdSort Nat) demoOps 5 demoTable 3 PlanList.empty 1)._plans =
      ⟨[5], [30]⟩ ∧
    ((∀ l ∈ (createPlans (insertionStdSort Nat) demoOps 5 demoTable 3 PlanList.empty
        1)._plans.levelDone, (30 : Int) ≤ l) ∧
      (SortedByLevel demoTable → EmitsAtInvokedLevel demoTable → (0 : Int) ≤ 30 →
        ∀ l ∈ (createPlans (insertionStdSort Nat) demoOps 5 demoTable 3 PlanList.empty
          1)._plans.levelDone, l = 30)) :=
  ⟨by decide,
   C16_search_exhausted (insertionStdSort Nat) demoOps 5 demoTable 30 (by decide) 3
     PlanList.empty 1 (by decide) (by decide)⟩

/-! ## Plans of equal cost -/

theorem insertAfterEquals_filter_key {α : Type} (key : α → Nat) (a : α) (k : Nat) :
    ∀ (acc : List α), acc.Pairwise (fun x y => key x ≤ key y) →
      (insertAfterEquals (fun x y => decide (key x < key y)) a acc).filter
          (fun x => decide (key x = k)) =
        acc.filter (fun x => decide (key x = k)) ++ (if key a = k then [a] else []) := by
  intro acc
  induction acc with
  | nil =>
    intro _
    by_cases h : key a = k <;> simp [insertAfterEquals, h]
  | cons b l ih =>
    intro hs
    have hs' := List.pairwise_cons.1 hs
    unfold insertAfterEquals
    by_cases hab : key a < key b
    · simp only [hab, decide_True, if_true]
      by_cases h : key a = k
      · have hnone : (b :: l).filter (fun x => decide (key x = k)) = [] := by
          rw [List.filter_eq_nil_iff]
          intro x hx
          rcases List.mem_cons.1 hx with rfl | hx
          · simp; omega
          · have := hs'.1 x hx
            simp; omega
        rw [List.filter_cons, hnone]
        simp [h]
      · rw [List.filter_cons]
        simp [h]
    · simp only [hab, decide_False, Bool.false_eq_true, if_false]
      rw [List.filter_cons, List.filter_cons, ih hs'.2]
      by_cases hb : key b = k <;> simp [hb]

theorem strictWeakOrder_key {α : Type} (key : α → Nat) :
    StrictWeakOrder (fun x y : α => decide (key x < key y)) := by
  refine ⟨?_, ?_, ?_⟩
  · intro a; simp
  · intro a b c; simp only [decide_eq_true_eq]; omega
  · intro a b c; simp only [decide_eq_true_eq]; omega

theorem foldl_insertAfterEquals_filter_key {α : Type} (key : α → Nat) (k : Nat) :
    ∀ (l acc : List α), acc.Pairwise (fun x y => key x ≤ key y) →
      (l.foldl (fun acc a => insertAfterEquals (fun x y => decide (key x < key y)) a acc)
          acc).filter (fun x => decide (key x = k)) =
        acc.filter (fun x => decide (key x = k)) ++ l.filter (fun x => decide (key x = k)) := by
  intro l
  induction l with
  | nil => intro acc _; simp
  | cons a l ih =>
    intro acc hs
    simp only [List.foldl_cons]
    have hs' : (insertAfterEquals (fun x y => decide (key x < key y)) a acc).Pairwise
        (fun x y => key x ≤ key y) := by
      have h1 : acc.Pairwise (fun x y => decide (key y < key x) = false) :=
        hs.imp (fun h => by simpa using h)
      exact (insertAfterEquals_sorted (strictWeakOrder_key key) a acc h1).imp
        (fun h => by simpa using h)
    rw [ih _ hs', insertAfterEquals_filter_key key a k acc hs, List.filter_cons]
    by_cases h : key a = k <;> simp [h]

theorem stable_sort_filter_key {α : Type} (key : α → Nat) (k : Nat) (l : List α) :
    (stable_sort (fun x y => decide (key x < key y)) l).filter (fun x => decide (key x = k)) =
      l.filter (fun x => decide (key x = k)) := by
  simpa [stable_sort] using foldl_insertAfterEquals_filter_key key k l [] List.Pairwise.nil

theorem createPlans_returned_ok {P : Type} (S : StdSort P) (ops : ExecutionPlanOps P)
    (cap : Nat) (rules : List (Rule P)) (fuel : Nat) (prev : PlanList P) (plan : P)
    (h : (createPlans S ops cap rules fuel prev plan).exit =
      Exit.returned TRI_ERROR_NO_ERROR) :
    ∃ (M : Int) (lastGen : PlanList P) (log : List (Event P)),
      maxRuleLevel? rules = some M ∧
      passLoop ops cap rules M 1 fuel 0 (PlanList.empty.push_back plan 0) (deleteAll prev) =
        LoopResult.left lastGen log ∧
      createPlans S ops cap rules fuel prev plan = finish S ops lastGen log := by
  unfold createPlans at h ⊢
  cases hlast : rules.getLast? with
  | none => simp [hlast] at h
  | some back =>
    simp only [hlast, createPlansFrom] at h ⊢
    refine ⟨back.level, ?_⟩
    cases hloop : passLoop ops cap rules back.level 1 fuel 0
        (PlanList.empty.push_back plan 0) (deleteAll prev) with
    | ended run =>
      simp only [hloop] at h
      exact absurd h (passLoop_ended_exit _ _ _ _ _ _ _ _ _ _ hloop)
    | left gen log =>
      exact ⟨gen, log, by simp [maxRuleLevel?, hlast], rfl, rfl⟩

/-- Claim C18, as stated, fails on the code. The routine that reverses the sequence and then
sorts it by insertion meets the contract of `std::sort`. With it, a run whose final
generation holds the plans 11 and 12, in this order and of equal cost, returns them in the
order 12, 11. -/
theorem C18_counterexample :
    (runPass tieOps [tieRule] 10 1 (PlanList.empty.push_back 1 0) []).newPlans.list =
      [11, 12] ∧
    tieOps.getCost 11 = tieOps.getCost 12 ∧
    (createPlans (reversingStdSort Nat) tieOps 5 [tieRule] 3 PlanList.empty 1).exit =
      Exit.returned TRI_ERROR_NO_ERROR ∧
    (createPlans (reversingStdSort Nat) tieOps 5 [tieRule] 3 PlanList.empty 1)._plans.list =
      [12, 11] := by
  decide

/-- Claim C18, amended. In the list returned by `createPlans` the plans stand in
non-decreasing cost order, and for every cost the returned plans of that cost are a
rearrangement of the plans of that cost in the final generation. Their relative order is the
one the implementation of `std::sort` produces: it is the order of the final generation when
the implementation sorts by insertion, which keeps equivalent elements in order. -/
theorem C18_equal_cost_order {P : Type} (ops : ExecutionPlanOps P) (cap : Nat)
    (rules : List (Rule P)) (fuel : Nat) (prev : PlanList P) (plan : P) :
    (∀ S : StdSort P,
      (createPlans S ops cap rules fuel prev plan).exit = Exit.returned TRI_ERROR_NO_ERROR →
      ∃ (M : Int) (lastGen : PlanList P) (log : List (Event P)),
        passLoop ops cap rules M 1 fuel 0 (PlanList.empty.push_back plan 0) (deleteAll prev) =
          LoopResult.left lastGen log ∧
        (createPlans S ops cap rules fuel prev plan)._plans.list.Pairwise
          (fun a b => ops.getCost a ≤ ops.getCost b) ∧
        ∀ c : Nat,
          ((createPlans S ops cap rules fuel prev plan)._plans.list.filter
            (fun p => decide (ops.getCost p = c))).Perm
            (lastGen.list.filter (fun p => decide (ops.getCost p = c)))) ∧
    ((createPlans (insertionStdSort P) ops cap rules fuel prev plan).exit =
        Exit.returned TRI_ERROR_NO_ERROR →
      ∃ (M : Int) (lastGen : PlanList P) (log : List (Event P)),
        passLoop ops cap rules M 1 fuel 0 (PlanList.empty.push_back plan 0) (deleteAll prev) =
          LoopResult.left lastGen log ∧
        ∀ c : Nat,
          (createPlans (insertionStdSort P) ops cap rules fuel prev plan)._plans.list.filter
            (fun p => decide (ops.getCost p = c)) =
            lastGen.list.filter (fun p => decide (ops.getCost p = c))) := by
  constructor
  · intro S h
    obtain ⟨M, lastGen, log, -, hloop, hrun⟩ :=
      createPlans_returned_ok S ops cap rules fuel prev plan h
    refine ⟨M, lastGen, log, hloop, ?_, ?_⟩
    · rw [hrun]; exact sortPlans_sorted S ops lastGen
    · intro c
      rw [hrun]
      exact (sortPlans_perm S ops lastGen).filter _
  · intro h
    obtain ⟨M, lastGen, log, -, hloop, hrun⟩ :=
      createPlans_returned_ok (insertionStdSort P) ops cap rules fuel prev plan h
    refine ⟨M, lastGen, log, hloop, ?_⟩
    intro c
    rw [hrun]
    exact stable_sort_filter_key ops.getCost c lastGen.list

/-- An instance of the amended claim C18: the run of the counterexample, with the routine
that reverses and with the routine that sorts by insertion. -/
theorem C18_equal_cost_order_witness :
    (createPlans (insertionStdSort Nat) tieOps 5 [tieRule] 3 PlanList.empty 1)._plans.list =
      [11, 12] ∧
    (∃ (M : Int) (lastGen : PlanList Nat) (log : List (Event Nat)),
      passLoop tieOps 5 [tieRule] M 1 3 0 (PlanList.empty.push_back 1 0)
          (deleteAll PlanList.empty) = LoopResult.left lastGen log ∧
      (createPlans (reversingStdSort Nat) tieOps 5 [tieRule] 3 PlanList.empty
        1)._plans.list.Pairwise (fun a b => tieOps.getCost a ≤ tieOps.getCost b) ∧
      ∀ c : Nat,
        ((createPlans (reversingStdSort Nat) tieOps 5 [tieRule] 3 PlanList.empty
          1)._plans.list.filter (fun p => decide (tieOps.getCost p = c))).Perm
          (lastGen.list.filter (fun p => decide (tieOps.getCost p = c)))) ∧
    (∃ (M : Int) (lastGen : PlanList Nat) (log : List (Event Nat)),
      passLoop tieOps 5 [tieRule] M 1 3 0 (PlanList.empty.push_back 1 0)
          (deleteAll PlanList.empty) = LoopResult.left lastGen log ∧
      ∀ c : Nat,
        (createPlans (insertionStdSort Nat) tieOps 5 [tieRule] 3 PlanList.empty
          1)._plans.list.filter (fun p => decide (tieOps.getCost p = c)) =
          lastGen.list.filter (fun p => decide (tieOps.getCost p = c))) :=
  ⟨by decide,
   (C18_equal_cost_order tieOps 5 [tieRule] 3 PlanList.empty 1).1 (reversingStdSort Nat)
     (by decide),
   (C18_equal_cost_order tieOps 5 [tieRule] 3 PlanList.empty 1).2 (by decide)⟩

/-! ## Independence of what the plan collection held before -/

theorem drainLoop_log_append {P : Type} (rules : List (Rule P)) (M : Int) :
    ∀ (ps : List P) (ls : List Int) (np : PlanList P) (c : Int) (log log' : List (Event P)),
      drainLoop rules M ps ls np c (log ++ log') =
        ⟨(drainLoop rules M ps ls np c log').status, (drainLoop rules M ps ls np c log')._plans,
          (drainLoop rules M ps ls np c log').newPlans,
          log ++ (drainLoop rules M ps ls np c log').log⟩ := by
  intro ps
  induction ps with
  | nil => intro ls np c log log'; simp [drainLoop]
  | cons p ps ih =>
    intro ls np c log log'
    cases ls with
    | nil => simp [drainLoop]
    | cons l ls =>
      unfold drainLoop
      by_cases hl : l = M
      · simp only [hl, if_true]
        exact ih _ _ _ _ _
      · simp only [hl, if_false]
        cases hd : dispatch rules l p with
        | none => simp
        | some x =>
          obtain ⟨it, out⟩ := x
          cases out with
          | thrown pushed => simp
          | returned res pushed =>
            simp only
            by_cases hres : res = TRI_ERROR_NO_ERROR
            · simp only [hres, ne_eq, not_true_eq_false, if_false]
              rw [List.append_assoc]
              exact ih _ _ _ _ _
            · simp only [ne_eq, hres, not_false_eq_true, if_true, List.append_assoc]

theorem runPass_log_append {P : Type} (ops : ExecutionPlanOps P) (rules : List (Rule P))
    (M pass : Int) (plans : PlanList P) (log log' : List (Event P)) :
    runPass ops rules M pass plans (log ++ log') =
      ⟨(runPass ops rules M pass plans log').status, (runPass ops rules M pass plans log')._plans,
        (runPass ops rules M pass plans log').newPlans,
        log ++ (runPass ops rules M pass plans log').log⟩ := by
  simp only [runPass, findVarUsageLoop_eq, List.append_assoc]
  exact drainLoop_log_append rules M _ _ _ _ _ _

theorem finish_log_append {P : Type} (S : StdSort P) (ops : ExecutionPlanOps P)
    (plans : PlanList P) (log log' : List (Event P)) :
    finish S ops plans (log ++ log') =
      ⟨(finish S ops plans log').exit, (finish S ops plans log')._plans,
        log ++ (finish S ops plans log').log⟩ := by
  simp [finish, estimatePlans]

theorem createPlansFrom_log_append {P : Type} (S : StdSort P) (ops : ExecutionPlanOps P)
    (cap : Nat) (rules : List (Rule P)) (M pass : Int) :
    ∀ (fuel : Nat) (least : Int) (plans : PlanList P) (log log' : List (Event P)),
      createPlansFrom S ops cap rules M pass fuel least plans (log ++ log') =
        ⟨(createPlansFrom S ops cap rules M pass fuel least plans log').exit,
          (createPlansFrom S ops cap rules M pass fuel least plans log')._plans,
          log ++ (createPlansFrom S ops cap rules M pass fuel least plans log').log⟩ := by
  intro fuel
  induction fuel with
  | zero =>
    intro least plans log log'
    by_cases h : least < M
    · simp only [createPlansFrom_zero _ _ _ _ _ _ _ _ _ h]
    · simp only [createPlansFrom_of_not_lt _ _ _ _ _ _ _ _ _ _ h]
      exact finish_log_append S ops plans log log'
  | succ fuel ih =>
    intro least plans log log'
    by_cases h : least < M
    · rw [createPlansFrom_succ _ _ _ _ _ _ _ _ _ _ h, createPlansFrom_succ _ _ _ _ _ _ _ _ _ _ h,
        runPass_log_append]
      simp only
      cases hst : (runPass ops rules M pass plans log').status with
      | completed =>
        simp only
        by_cases hcap : (runPass ops rules M pass plans log').newPlans.size ≥ cap
        · simp only [hcap, if_true, List.append_assoc]
          exact finish_log_append S ops _ log _
        · simp only [hcap, if_false, List.append_assoc]
          exact ih _ _ log _
      | failed res => simp only [List.append_assoc]
      | threw => simp only [List.append_assoc]
      | assertFailed => simp only
      | undefinedBehaviour => simp only
    · simp only [createPlansFrom_of_not_lt _ _ _ _ _ _ _ _ _ _ h]
      exact finish_log_append S ops plans log log'

theorem createPlans_eq_of_prev {P : Type} (S : StdSort P) (ops : ExecutionPlanOps P)
    (cap : Nat) (rules : List (Rule P)) (hne : rules ≠ []) (fuel : Nat) (prev : PlanList P)
    (plan : P) :
    createPlans S ops cap rules fuel prev plan =
      ⟨(createPlans S ops cap rules fuel PlanList.empty plan).exit,
        (createPlans S ops cap rules fuel PlanList.empty plan)._plans,
        prev.list.map Event.deletePlan ++
          (createPlans S ops cap rules fuel PlanList.empty plan).log⟩ := by
  unfold createPlans
  cases hlast : rules.getLast? with
  | none => exact absurd (List.getLast?_eq_none_iff.1 hlast) hne
  | some back =>
    simp only [deleteAll, PlanList.empty, List.map_nil]
    have := createPlansFrom_log_append S ops cap rules back.level 1 fuel 0
      ((⟨[], []⟩ : PlanList P).push_back plan 0) (prev.list.map Event.deletePlan) []
    rw [List.append_nil] at this
    exact this

/-- Claim C19. A run of `createPlans` first releases every plan that the plan collection
held, and then runs the pass loop on the collection that holds exactly the given plan at
level 0. The way the run ends, the plan list it leaves and everything the log records behind
the releases do not depend on what the collection held before: two runs on the same plan
with the same table, rules and costs end in the same way and, when they return, leave the
same ranked plan list. -/
theorem C19_independent_of_previous_result {P : Type} (S : StdSort P)
    (ops : ExecutionPlanOps P) (cap : Nat) (rules : List (Rule P)) (fuel : Nat) (plan : P) :
    (∀ (M : Int) (prev : PlanList P), maxRuleLevel? rules = some M →
      createPlans S ops cap rules fuel prev plan =
        createPlansFrom S ops cap rules M 1 fuel 0 ⟨[plan], [0]⟩
          (prev.list.map Event.deletePlan)) ∧
    (∀ prev : PlanList P, rules ≠ [] →
      createPlans S ops cap rules fuel prev plan =
        ⟨(createPlans S ops cap rules fuel PlanList.empty plan).exit,
          (createPlans S ops cap rules fuel PlanList.empty plan)._plans,
          prev.list.map Event.deletePlan ++
            (createPlans S ops cap rules fuel PlanList.empty plan).log⟩) ∧
    (∀ prev prev' : PlanList P,
      (createPlans S ops cap rules fuel prev plan).exit =
        (createPlans S ops cap rules fuel prev' plan).exit ∧
      ∀ res : Int, (createPlans S ops cap rules fuel prev plan).exit = Exit.returned res →
        (createPlans S ops cap rules fuel prev plan)._plans =
          (createPlans S ops cap rules fuel prev' plan)._plans) := by
  refine ⟨?_, ?_, ?_⟩
  · intro M prev hM
    unfold maxRuleLevel? at hM
    unfold createPlans
    cases hlast : rules.getLast? with
    | none => simp [hlast] at hM
    | some back =>
      simp only [hlast, Option.map_some', Option.some.injEq] at hM
      simp only [hM]
      rfl
  · intro prev hne
    exact createPlans_eq_of_prev S ops cap rules hne fuel prev plan
  · intro prev prev'
    by_cases hne : rules = []
    · subst hne
      exact ⟨rfl, fun res h => by simp [createPlans] at h⟩
    · rw [createPlans_eq_of_prev S ops cap rules hne fuel prev plan,
        createPlans_eq_of_prev S ops cap rules hne fuel prev' plan]
      exact ⟨rfl, fun _ _ => rfl⟩

/-- An instance of claim C19: a run on an empty collection and a run on a collection that
holds the plans 8 and 9. -/
theorem C19_independent_of_previous_result_witness :
    (createPlans (insertionStdSort Nat) demoOps 5 [fanOutRule, keepRule] 4 ⟨[8, 9], [20, 20]⟩
      1).log.take 2 = [Event.deletePlan 8, Event.deletePlan 9] ∧
    (createPlans (insertionStdSort Nat) demoOps 5 [fanOutRule, keepRule] 4 PlanList.empty
      1)._plans =
      (createPlans (insertionStdSort Nat) demoOps 5 [fanOutRule, keepRule] 4
        ⟨[8, 9], [20, 20]⟩ 1)._plans :=
  ⟨by decide,
   ((C19_independent_of_previous_result (insertionStdSort Nat) demoOps 5
      [fanOutRule, keepRule] 4 1).2.2 PlanList.empty ⟨[8, 9], [20, 20]⟩).2 0 (by decide)⟩

/-! ## The order of the entries within a pass -/

theorem runPass_perm {P : Type} (ops : ExecutionPlanOps P) (rules : List (Rule P))
    (M pass : Int) (es es' : List (P × Int)) (hperm : es.Perm es')
    (log log' : List (Event P)) :
    ((runPass ops rules M pass (PlanList.ofEntries es) log).status = DrainStatus.completed ↔
      (runPass ops rules M pass (PlanList.ofEntries es') log').status =
        DrainStatus.completed) ∧
    ((runPass ops rules M pass (PlanList.ofEntries es) log).status = DrainStatus.completed →
      ∃ X X' : List (P × Int),
        (runPass ops rules M pass (PlanList.ofEntries es) log).newPlans =
          PlanList.ofEntries X ∧
        (runPass ops rules M pass (PlanList.ofEntries es') log').newPlans =
          PlanList.ofEntries X' ∧
        X.Perm X') := by
  obtain ⟨h1, h2⟩ := runPass_entries ops rules M pass es log
  obtain ⟨h1', h2'⟩ := runPass_entries ops rules M pass es' log'
  have hmap : (es.map (fun e => (withVarUsage ops e.1, e.2))).Perm
      (es'.map (fun e => (withVarUsage ops e.1, e.2))) := hperm.map _
  have hiff : (runPass ops rules M pass (PlanList.ofEntries es) log).status =
      DrainStatus.completed ↔
      (runPass ops rules M pass (PlanList.ofEntries es') log').status =
        DrainStatus.completed := by
    rw [h1, h1']
    constructor
    · intro h e he; exact h e (hmap.mem_iff.2 he)
    · intro h e he; exact h e (hmap.mem_iff.1 he)
  refine ⟨hiff, fun hdone => ?_⟩
  exact ⟨_, _, (h2 hdone).1, (h2' (hiff.1 hdone)).1, hmap.flatMap_right _⟩

theorem createPlansFrom_succ_not_completed {P : Type} (S : StdSort P)
    (ops : ExecutionPlanOps P) (cap : Nat) (rules : List (Rule P)) (M pass : Int) (fuel : Nat)
    (least : Int) (plans : PlanList P) (log : List (Event P)) (h : least < M)
    (hst : (runPass ops rules M pass plans log).status ≠ DrainStatus.completed) :
    (createPlansFrom S ops cap rules M pass (fuel + 1) least plans log).exit ≠
      Exit.returned TRI_ERROR_NO_ERROR := by
  rw [createPlansFrom_succ _ _ _ _ _ _ _ _ _ _ h]
  split
  · rename_i res hres
    have := drainLoop_failed_ne _ _ _ _ _ _ _ _ hres
    simpa using this
  · simp
  · simp
  · simp
  · rename_i hc; exact absurd hc hst

theorem createPlansFrom_perm {P : Type} (S : StdSort P) (ops : ExecutionPlanOps P)
    (cap : Nat) (rules : List (Rule P)) (M pass : Int) :
    ∀ (fuel : Nat) (least least' : Int) (es es' : List (P × Int))
      (log log' : List (Event P)),
      es.Perm es' → (least < M ↔ least' < M) →
      ((createPlansFrom S ops cap rules M pass fuel least (PlanList.ofEntries es) log).exit =
          Exit.returned TRI_ERROR_NO_ERROR ↔
        (createPlansFrom S ops cap rules M pass fuel least' (PlanList.ofEntries es') log').exit =
          Exit.returned TRI_ERROR_NO_ERROR) ∧
      ((createPlansFrom S ops cap rules M pass fuel least (PlanList.ofEntries es) log).exit =
          Exit.returned TRI_ERROR_NO_ERROR →
        (createPlansFrom S ops cap rules M pass fuel least
            (PlanList.ofEntries es) log)._plans.list.Perm
          (createPlansFrom S ops cap rules M pass fuel least'
            (PlanList.ofEntries es') log')._plans.list ∧
        (createPlansFrom S ops cap rules M pass fuel least
            (PlanList.ofEntries es) log)._plans.levelDone.Perm
          (createPlansFrom S ops cap rules M pass fuel least'
            (PlanList.ofEntries es') log')._plans.levelDone) := by
  have hfinish : ∀ (X X' : List (P × Int)) (lg lg' : List (Event P)), X.Perm X' →
      ((finish S ops (PlanList.ofEntries X) lg).exit = Exit.returned TRI_ERROR_NO_ERROR ↔
        (finish S ops (PlanList.ofEntries X') lg').exit = Exit.returned TRI_ERROR_NO_ERROR) ∧
      ((finish S ops (PlanList.ofEntries X) lg).exit = Exit.returned TRI_ERROR_NO_ERROR →
        (finish S ops (PlanList.ofEntries X) lg)._plans.list.Perm
          (finish S ops (PlanList.ofEntries X') lg')._plans.list ∧
        (finish S ops (PlanList.ofEntries X) lg)._plans.levelDone.Perm
          (finish S ops (PlanList.ofEntries X') lg')._plans.levelDone) := by
    intro X X' lg lg' hX
    refine ⟨⟨fun _ => rfl, fun _ => rfl⟩, fun _ => ⟨?_, ?_⟩⟩
    · exact ((sortPlans_perm S ops _).trans (hX.map Prod.fst)).trans
        (sortPlans_perm S ops _).symm
    · exact hX.map Prod.snd
  intro fuel
  induction fuel with
  | zero =>
    intro least least' es es' log log' hperm hleast
    by_cases h : least < M
    · rw [createPlansFrom_zero _ _ _ _ _ _ _ _ _ h,
        createPlansFrom_zero _ _ _ _ _ _ _ _ _ (hleast.1 h)]
      simp
    · rw [createPlansFrom_of_not_lt _ _ _ _ _ _ _ _ _ _ h,
        createPlansFrom_of_not_lt _ _ _ _ _ _ _ _ _ _ (fun h' => h (hleast.2 h'))]
      exact hfinish es es' log log' hperm
  | succ fuel ih =>
    intro least least' es es' log log' hperm hleast
    by_cases h : least < M
    · have h' := hleast.1 h
      obtain ⟨hiff, hnew⟩ := runPass_perm ops rules M pass es es' hperm log log'
      by_cases hdone : (runPass ops rules M pass (PlanList.ofEntries es) log).status =
          DrainStatus.completed
      · have hdone' := hiff.1 hdone
        obtain ⟨X, X', hX, hX', hXX⟩ := hnew hdone
        rw [createPlansFrom_succ _ _ _ _ _ _ _ _ _ _ h,
          createPlansFrom_succ _ _ _ _ _ _ _ _ _ _ h']
        simp only [hdone, hdone', hX, hX']
        have hsize : (PlanList.ofEntries X).size = (PlanList.ofEntries X').size := by
          simp [PlanList.size, PlanList.ofEntries, hXX.length_eq]
        by_cases hcap : (PlanList.ofEntries X).size ≥ cap
        · rw [if_pos hcap, if_pos (by rw [← hsize]; exact hcap)]
          exact hfinish X X' _ _ hXX
        · rw [if_neg hcap, if_neg (by rw [← hsize]; exact hcap)]
          refine ih _ _ X X' _ _ hXX ?_
          rw [leastDoneLevelLoop_lt, leastDoneLevelLoop_lt]
          have hl : (PlanList.ofEntries X).levelDone.Perm (PlanList.ofEntries X').levelDone :=
            hXX.map Prod.snd
          constructor
          · rintro ⟨l, hl1, hl2⟩; exact ⟨l, hl.mem_iff.1 hl1, hl2⟩
          · rintro ⟨l, hl1, hl2⟩; exact ⟨l, hl.mem_iff.2 hl1, hl2⟩
      · have hdone' : (runPass ops rules M pass (PlanList.ofEntries es') log').status ≠
            DrainStatus.completed := fun hc => hdone (hiff.2 hc)
        have e1 := createPlansFrom_succ_not_completed S ops cap rules M pass fuel least
          (PlanList.ofEntries es) log h hdone
        have e2 := createPlansFrom_succ_not_completed S ops cap rules M pass fuel least'
          (PlanList.ofEntries es') log' h' hdone'
        exact ⟨⟨fun hc => absurd hc e1, fun hc => absurd hc e2⟩, fun hc => absurd hc e1⟩
    · rw [createPlansFrom_of_not_lt _ _ _ _ _ _ _ _ _ _ h,
        createPlansFrom_of_not_lt _ _ _ _ _ _ _ _ _ _ (fun h' => h (hleast.2 h'))]
      exact hfinish es es' log log' hperm

/-- Claim C20. The rules being functions of the plan and the level, let the entries of the
current generation be rearranged before a pass. Then the pass completes for one order exactly
when it completes for the other, and the two next generations hold the same entries up to
their order. Going on from there, `createPlans` returns `TRI_ERROR_NO_ERROR` for one order
exactly when it does for the other, and then the two plan lists returned hold the same plans,
and the same levels, up to their order. -/
theorem C20_dispatch_order_irrelevant {P : Type} (S : StdSort P) (ops : ExecutionPlanOps P)
    (cap : Nat) (rules : List (Rule P)) (M pass : Int) (es es' : List (P × Int))
    (hperm : es.Perm es') :
    (∀ log log' : List (Event P),
      ((runPass ops rules M pass (PlanList.ofEntries es) log).status =
          DrainStatus.completed ↔
        (runPass ops rules M pass (PlanList.ofEntries es') log').status =
          DrainStatus.completed) ∧
      ((runPass ops rules M pass (PlanList.ofEntries es) log).status =
          DrainStatus.completed →
        ∃ X X' : List (P × Int),
          (runPass ops rules M pass (PlanList.ofEntries es) log).newPlans =
            PlanList.ofEntries X ∧
          (runPass ops rules M pass (PlanList.ofEntries es') log').newPlans =
            PlanList.ofEntries X' ∧
          X.Perm X')) ∧
    (∀ (fuel : Nat) (least : Int) (log log' : List (Event P)),
      ((createPlansFrom S ops cap rules M pass fuel least (PlanList.ofEntries es) log).exit =
          Exit.returned TRI_ERROR_NO_ERROR ↔
        (createPlansFrom S ops cap rules M pass fuel least (PlanList.ofEntries es') log').exit =
          Exit.returned TRI_ERROR_NO_ERROR) ∧
      ((createPlansFrom S ops cap rules M pass fuel least (PlanList.ofEntries es) log).exit =
          Exit.returned TRI_ERROR_NO_ERROR →
        (createPlansFrom S ops cap rules M pass fuel least
            (PlanList.ofEntries es) log)._plans.list.Perm
          (createPlansFrom S ops cap rules M pass fuel least
            (PlanList.ofEntries es') log')._plans.list ∧
        (createPlansFrom S ops cap rules M pass fuel least
            (PlanList.ofEntries es) log)._plans.levelDone.Perm
          (createPlansFrom S ops cap rules M pass fuel least
            (PlanList.ofEntries es') log')._plans.levelDone)) :=
  ⟨fun log log' => runPass_perm ops rules M pass es es' hperm log log',
   fun fuel least log log' =>
     createPlansFrom_perm S ops cap rules M pass fuel least least es es' log log' hperm
       Iff.rfl⟩

/-- An instance of claim C20: the generation with the plans 2 and 3 at level 10, in both
orders, before the pass of the rule of level 20. -/
theorem C20_dispatch_order_irrelevant_witness :
    (runPass demoOps [fanOutRule, keepRule] 20 1 (PlanList.ofEntries [(2, 10), (3, 10)])
      []).newPlans = ⟨[2, 3], [20, 20]⟩ ∧
    (runPass demoOps [fanOutRule, keepRule] 20 1 (PlanList.ofEntries [(3, 10), (2, 10)])
      []).newPlans = ⟨[3, 2], [20, 20]⟩ ∧
    ((createPlansFrom (insertionStdSort Nat) demoOps 5 [fanOutRule, keepRule] 20 1 3 10
        (PlanList.ofEntries [(2, 10), (3, 10)]) []).exit = Exit.returned TRI_ERROR_NO_ERROR ↔
      (createPlansFrom (insertionStdSort Nat) demoOps 5 [fanOutRule, keepRule] 20 1 3 10
        (PlanList.ofEntries [(3, 10), (2, 10)]) []).exit = Exit.returned TRI_ERROR_NO_ERROR) ∧
    ((createPlansFrom (insertionStdSort Nat) demoOps 5 [fanOutRule, keepRule] 20 1 3 10
        (PlanList.ofEntries [(2, 10), (3, 10)]) []).exit = Exit.returned TRI_ERROR_NO_ERROR →
      (createPlansFrom (insertionStdSort Nat) demoOps 5 [fanOutRule, keepRule] 20 1 3 10
          (PlanList.ofEntries [(2, 10), (3, 10)]) [])._plans.list.Perm
        (createPlansFrom (insertionStdSort Nat) demoOps 5 [fanOutRule, keepRule] 20 1 3 10
          (PlanList.ofEntries [(3, 10), (2, 10)]) [])._plans.list ∧
      (createPlansFrom (insertionStdSort Nat) demoOps 5 [fanOutRule, keepRule] 20 1 3 10
          (PlanList.ofEntries [(2, 10), (3, 10)]) [])._plans.levelDone.Perm
        (createPlansFrom (insertionStdSort Nat) demoOps 5 [fanOutRule, keepRule] 20 1 3 10
          (PlanList.ofEntries [(3, 10), (2, 10)]) [])._plans.levelDone) :=
  ⟨by decide, by decide,
   ((C20_dispatch_order_irrelevant (insertionStdSort Nat) demoOps 5 [fanOutRule, keepRule] 20
      1 [(2, 10), (3, 10)] [(3, 10), (2, 10)] (List.Perm.swap _ _ _)).2 3 10 [] []).1,
   ((C20_dispatch_order_irrelevant (insertionStdSort Nat) demoOps 5 [fanOutRule, keepRule] 20
      1 [(2, 10), (3, 10)] [(3, 10), (2, 10)] (List.Perm.swap _ _ _)).2 3 10 [] []).2⟩

/-! ## The assertion behind the search -/

/-- In a sorted table, a level below the maximum is dispatched to a rule. -/
theorem dispatch_isSome_of_lt {P : Type} {rules : List (Rule P)} {M : Int}
    (hs : SortedByLevel rules) (hM : maxRuleLevel? rules = some M) (L : Int) (p : P)
    (hlt : L < M) : (dispatch rules L p).isSome = true := by
  have hub := upper_bound_lt_length hs hM ⟨"dummy", dummyRule, L⟩ hlt
  unfold dispatch
  simp only
  rw [List.getElem?_eq_getElem hub]
  rfl

/-- The loop over the current plans never ends in the failed assertion when the table is
sorted and no level of the generation exceeds the maximum. -/
theorem drainLoop_no_assertFailed {P : Type} {rules : List (Rule P)} {M : Int}
    (hs : SortedByLevel rules) (hM : maxRuleLevel? rules = some M) :
    ∀ (ps : List P) (ls : List Int) (np : PlanList P) (c : Int) (log : List (Event P)),
      (∀ l ∈ ls, l ≤ M) →
      (drainLoop rules M ps ls np c log).status ≠ DrainStatus.assertFailed := by
  intro ps
  induction ps with
  | nil => intro ls np c log _; simp [drainLoop]
  | cons p ps ih =>
    intro ls np c log hle
    cases ls with
    | nil => simp [drainLoop]
    | cons l ls =>
      have hl : l ≤ M := hle l (List.mem_cons_self _ _)
      have hrest : ∀ x ∈ ls, x ≤ M := fun x hx => hle x (List.mem_cons_of_mem _ hx)
      unfold drainLoop
      by_cases hlM : l = M
      · rw [if_pos hlM]
        exact ih _ _ _ _ hrest
      · rw [if_neg hlM]
        have hsome := dispatch_isSome_of_lt hs hM l p (lt_of_le_of_ne hl hlM)
        cases hd : dispatch rules l p with
        | none => rw [hd] at hsome; simp at hsome
        | some x =>
          obtain ⟨it, out⟩ := x
          cases out with
          | thrown pushed => simp
          | returned res pushed =>
            simp only
            split
            · simp
            · exact ih _ _ _ _ hrest

/-- Claim C24. When the rule table is sorted by level and no entry of the collection has a
level above the maximum rule level, the assertion behind the search never fails: for every
entry whose level differs from the maximum the search ends at an index inside the table and
the entry is dispatched to a rule, and a pass over such a collection never ends in the failed
assertion. -/
theorem C24_assertion_never_fails {P : Type} (rules : List (Rule P)) (M : Int)
    (hs : SortedByLevel rules) (hM : maxRuleLevel? rules = some M) :
    (∀ (L : Int) (p : P), L ≤ M → L ≠ M →
      upper_bound rules ⟨"dummy", dummyRule, L⟩ < rules.length ∧
      ∃ it ∈ rules, L < it.level ∧ dispatch rules L p = some (it, it.func p it.level)) ∧
    (∀ (ops : ExecutionPlanOps P) (pass : Int) (_plans : PlanList P) (log : List (Event P)),
      (∀ l ∈ _plans.levelDone, l ≤ M) →
      (runPass ops rules M pass _plans log).status ≠ DrainStatus.assertFailed) := by
  refine ⟨?_, ?_⟩
  · intro L p hle hne
    have hlt : L < M := lt_of_le_of_ne hle hne
    have hub := upper_bound_lt_length hs hM ⟨"dummy", dummyRule, L⟩ hlt
    refine ⟨hub, rules[upper_bound rules ⟨"dummy", dummyRule, L⟩], List.getElem_mem _, ?_, ?_⟩
    · exact (upper_bound_spec rules ⟨"dummy", dummyRule, L⟩ hs).2.2 _ hub (le_refl _)
    · unfold dispatch
      simp only
      rw [List.getElem?_eq_getElem hub]
  · intro ops pass _plans log hle
    unfold runPass
    exact drainLoop_no_assertFailed hs hM _ _ _ _ _ hle

theorem C24_assertion_never_fails_witness :
    SortedByLevel demoTable ∧ maxRuleLevel? demoTable = some 30 ∧
    (runPass demoOps demoTable 30 1 ⟨[1, 2, 3], [0, 20, 30]⟩ []).status ≠
      DrainStatus.assertFailed :=
  ⟨sortedByLevel_demoTable, rfl,
   (C24_assertion_never_fails demoTable 30 sortedByLevel_demoTable rfl).2 demoOps 1
     ⟨[1, 2, 3], [0, 20, 30]⟩ [] (by decide)⟩

/-! ## The order of the rule invocations of a pass -/

/-- When the loop over the current plans completes, what it added to the log is one rule
invocation for every entry below the maximum level, in the order of the entries. -/
theorem drainLoop_completed_invocations {P : Type} (rules : List (Rule P)) (M : Int) :
    ∀ (es : List (P × Int)) (np : PlanList P) (c : Int) (log : List (Event P)),
      (drainLoop rules M (es.map Prod.fst) (es.map Prod.snd) np c log).status =
        DrainStatus.completed →
      ∃ ext : List (Event P),
        (drainLoop rules M (es.map Prod.fst) (es.map Prod.snd) np c log).log = log ++ ext ∧
        ext.map Event.rulePlan? =
          (es.filter (fun e => decide (e.2 ≠ M))).map (fun e => some e.1) := by
  intro es
  induction es with
  | nil => intro np c log _; exact ⟨[], by simp [drainLoop], by simp⟩
  | cons e es ih =>
    obtain ⟨p, l⟩ := e
    intro np c log hst
    simp only [List.map_cons] at hst ⊢
    unfold drainLoop at hst ⊢
    by_cases hlM : l = M
    · rw [if_pos hlM] at hst ⊢
      obtain ⟨ext, h1, h2⟩ := ih _ _ _ hst
      exact ⟨ext, h1, by simp [List.filter_cons, hlM, h2]⟩
    · rw [if_neg hlM] at hst ⊢
      cases hd : dispatch rules l p with
      | none => rw [hd] at hst; simp at hst
      | some x =>
        obtain ⟨it, out⟩ := x
        rw [hd] at hst
        cases out with
        | thrown pushed => simp at hst
        | returned res pushed =>
          simp only at hst ⊢
          by_cases hres : res ≠ TRI_ERROR_NO_ERROR
          · rw [if_pos hres] at hst; simp at hst
          · rw [if_neg hres] at hst ⊢
            obtain ⟨ext, h1, h2⟩ := ih _ _ _ hst
            refine ⟨Event.tryRule it.name it.level c p (RuleOutcome.returned res pushed) :: ext,
              by simp [h1], ?_⟩
            simp [List.filter_cons, hlM, h2, Event.rulePlan?]

/-- Claim C23. A pass works through the entries of the current generation from the front:
however the pass ends, the next generation holds what a first part of the entries produced,
in the order of these entries, and the rest of the entries is still in the current
generation. When the pass completes, every entry was processed: the next generation is the
outputs of all entries, grouped in the order of the entries, the current generation is empty,
and the rule invocations the pass logged behind the variable usage analysis are exactly one
per entry below the maximum level, in the order of the entries. -/
theorem C23_entries_processed_in_order {P : Type} (ops : ExecutionPlanOps P)
    (rules : List (Rule P)) (M pass : Int) (es : List (P × Int)) (log : List (Event P)) :
    (∃ done rest : List (P × Int),
      es.map (fun e => (withVarUsage ops e.1, e.2)) = done ++ rest ∧
      (runPass ops rules M pass (PlanList.ofEntries es) log).newPlans =
        PlanList.ofEntries (done.flatMap (produced rules M)) ∧
      (runPass ops rules M pass (PlanList.ofEntries es) log)._plans =
        PlanList.ofEntries rest) ∧
    ((runPass ops rules M pass (PlanList.ofEntries es) log).status = DrainStatus.completed →
      (runPass ops rules M pass (PlanList.ofEntries es) log).newPlans =
        PlanList.ofEntries
          ((es.map (fun e => (withVarUsage ops e.1, e.2))).flatMap (produced rules M)) ∧
      (runPass ops rules M pass (PlanList.ofEntries es) log)._plans = ⟨[], []⟩ ∧
      ∃ ext : List (Event P),
        (runPass ops rules M pass (PlanList.ofEntries es) log).log =
          log ++ [Event.enterPass pass] ++
            ((es.map Prod.fst).filter (fun p => !ops.varUsageComputed p)).map
              Event.findVarUsage ++ ext ∧
        ext.map Event.rulePlan? =
          ((es.map (fun e => (withVarUsage ops e.1, e.2))).filter
            (fun e => decide (e.2 ≠ M))).map (fun e => some e.1)) := by
  refine ⟨?_, ?_⟩
  · obtain ⟨done, rest, h1, h2, h3, -⟩ := runPass_entries_processed ops rules M pass es log
    exact ⟨done, rest, h1, h2, h3⟩
  · intro hst
    obtain ⟨hn, hp⟩ := (runPass_entries ops rules M pass es log).2 hst
    refine ⟨hn, hp, ?_⟩
    obtain ⟨h1, h2⟩ := ofEntries_map_withVarUsage ops es
    have hrun : runPass ops rules M pass (PlanList.ofEntries es) log =
        drainLoop rules M ((es.map (fun e => (withVarUsage ops e.1, e.2))).map Prod.fst)
          ((es.map (fun e => (withVarUsage ops e.1, e.2))).map Prod.snd)
          PlanList.empty 0
          (log ++ [Event.enterPass pass] ++
            ((es.map Prod.fst).filter (fun p => !ops.varUsageComputed p)).map
              Event.findVarUsage) := by
      rw [h1, h2]
      simp only [runPass, PlanList.ofEntries, findVarUsageLoop_eq]
    rw [hrun] at hst ⊢
    exact drainLoop_completed_invocations rules M _ _ _ _ hst

theorem C23_entries_processed_in_order_witness :
    (runPass demoOps demoTable 30 1 (PlanList.ofEntries [(1, 0), (2, 30), (3, 20)]) []).status =
      DrainStatus.completed ∧
    ((runPass demoOps demoTable 30 1 (PlanList.ofEntries [(1, 0), (2, 30), (3, 20)])
        []).newPlans =
      PlanList.ofEntries
        (([(1, 0), (2, 30), (3, 20)].map
          (fun e => (withVarUsage demoOps e.1, e.2))).flatMap (produced demoTable 30)) ∧
    (runPass demoOps demoTable 30 1 (PlanList.ofEntries [(1, 0), (2, 30), (3, 20)])
        [])._plans = ⟨[], []⟩ ∧
    ∃ ext : List (Event Nat),
      (runPass demoOps demoTable 30 1 (PlanList.ofEntries [(1, 0), (2, 30), (3, 20)])
          []).log =
        [] ++ [Event.enterPass 1] ++
          (([(1, 0), (2, 30), (3, 20)].map Prod.fst).filter
            (fun p => !demoOps.varUsageComputed p)).map Event.findVarUsage ++ ext ∧
      ext.map Event.rulePlan? =
        (([(1, 0), (2, 30), (3, 20)].map (fun e => (withVarUsage demoOps e.1, e.2))).filter
          (fun e => decide (e.2 ≠ 30))).map (fun e => some e.1)) :=
  ⟨by decide,
   (C23_entries_processed_in_order demoOps demoTable 30 1 [(1, 0), (2, 30), (3, 20)] []).2
     (by decide)⟩

/-! ## A single plan walking through a table of strictly increasing levels -/

theorem StrictlySortedByLevel.sorted {P : Type} {rules : List (Rule P)}
    (h : StrictlySortedByLevel rules) : SortedByLevel rules :=
  List.Pairwise.imp (fun hab => le_of_lt hab) h

/-- In a sorted table the search for a level ends at the first rule above the level. -/
theorem upper_bound_eq_of_split {P : Type} (pre post : List (Rule P)) (r : Rule P) (L : Int)
    (hs : SortedByLevel (pre ++ r :: post)) (hpre : ∀ x ∈ pre, x.level ≤ L)
    (hr : L < r.level) :
    upper_bound (pre ++ r :: post) ⟨"dummy", dummyRule, L⟩ = pre.length := by
  obtain ⟨hle, hlo, hhi⟩ := upper_bound_spec (pre ++ r :: post) ⟨"dummy", dummyRule, L⟩ hs
  rcases Nat.lt_trichotomy (upper_bound (pre ++ r :: post) ⟨"dummy", dummyRule, L⟩) pre.length
    with hlt | heq | hgt
  · exfalso
    have hj : upper_bound (pre ++ r :: post) ⟨"dummy", dummyRule, L⟩ <
        (pre ++ r :: post).length := by simp; omega
    have h1 := hhi _ hj (le_refl _)
    rw [List.getElem_append_left hlt] at h1
    have h2 := hpre _ (List.getElem_mem hlt)
    simp only at h1
    omega
  · exact heq
  · exfalso
    have hj : pre.length < (pre ++ r :: post).length := by simp
    have h1 := hlo pre.length hj hgt
    simp only [List.getElem_append_right (le_refl pre.length), Nat.sub_self,
      List.getElem_cons_zero] at h1
    omega

theorem dispatch_of_split {P : Type} (pre post : List (Rule P)) (r : Rule P) (L : Int) (p : P)
    (hs : SortedByLevel (pre ++ r :: post)) (hpre : ∀ x ∈ pre, x.level ≤ L)
    (hr : L < r.level) :
    dispatch (pre ++ r :: post) L p = some (r, r.func p r.level) := by
  unfold dispatch
  simp only
  rw [upper_bound_eq_of_split pre post r L hs hpre hr]
  have h : (pre ++ r :: post)[pre.length]? = some r := by
    rw [List.getElem?_append_right (le_refl _)]
    simp
  rw [h]

theorem ruleNames_append {P : Type} (a b : List (Event P)) :
    ruleNames (a ++ b) = ruleNames a ++ ruleNames b := by
  simp [ruleNames, List.filterMap_append]

theorem ruleNames_deleteAll {P : Type} (plans : PlanList P) : ruleNames (deleteAll plans) = [] := by
  simp only [ruleNames, deleteAll, List.filterMap_map]
  apply List.filterMap_eq_nil_iff.2
  intro p _
  rfl

theorem ruleNames_finish {P : Type} (S : StdSort P) (ops : ExecutionPlanOps P)
    (plans : PlanList P) (log : List (Event P)) :
    ruleNames (finish S ops plans log).log = ruleNames log := by
  have h1 : ruleNames (plans.list.map Event.getCost) = [] := by
    simp only [ruleNames, List.filterMap_map]
    apply List.filterMap_eq_nil_iff.2
    intro p _
    rfl
  simp only [finish, estimatePlans, ruleNames_append, h1, List.append_nil]
  simp [ruleNames, Event.ruleName?]

/-- One pass over a single plan whose level lies below the rule `r` of the table and at or
above every rule in front of `r`: the plan is dispatched to `r`. -/
theorem runPass_single {P : Type} (ops : ExecutionPlanOps P) (pre post : List (Rule P))
    (r : Rule P) (L M pass : Int) (p q : P) (log : List (Event P))
    (hs : SortedByLevel (pre ++ r :: post)) (hpre : ∀ x ∈ pre, x.level ≤ L)
    (hr : L < r.level) (hM : r.level ≤ M)
    (hq : r.func (withVarUsage ops p) r.level =
      RuleOutcome.returned TRI_ERROR_NO_ERROR [(q, r.level)]) :
    runPass ops (pre ++ r :: post) M pass ⟨[p], [L]⟩ log =
      ⟨DrainStatus.completed, ⟨[], []⟩, ⟨[q], [r.level]⟩,
        log ++ [Event.enterPass pass] ++
          ([p].filter (fun p => !ops.varUsageComputed p)).map Event.findVarUsage ++
          [Event.tryRule r.name r.level 0 (withVarUsage ops p)
            (RuleOutcome.returned TRI_ERROR_NO_ERROR [(q, r.level)])]⟩ := by
  have hLM : L ≠ M := by omega
  simp only [runPass, findVarUsageLoop_eq, List.map_cons, List.map_nil]
  unfold drainLoop
  rw [if_neg hLM, dispatch_of_split pre post r L _ hs hpre hr, hq]
  simp [drainLoop, PlanList.pushAll, PlanList.push_back, PlanList.empty]

theorem passCount_single_pass {P : Type} (ops : ExecutionPlanOps P) (pass : Int) (p : P)
    (name : String) (level count : Int) (p' : P) (out : RuleOutcome P) (log : List (Event P)) :
    passCount (log ++ [Event.enterPass pass] ++
      ([p].filter (fun p => !ops.varUsageComputed p)).map Event.findVarUsage ++
      [Event.tryRule name level count p' out] ++
      deleteAll (⟨[], []⟩ : PlanList P)) = passCount log + 1 := by
  by_cases h : ops.varUsageComputed p = true <;>
    simp [passCount, List.countP_cons, List.countP_append, Event.isEnterPass, deleteAll, h]

theorem ruleNames_single_pass {P : Type} (ops : ExecutionPlanOps P) (pass : Int) (p : P)
    (name : String) (level count : Int) (p' : P) (out : RuleOutcome P) (log : List (Event P)) :
    ruleNames (log ++ [Event.enterPass pass] ++
      ([p].filter (fun p => !ops.varUsageComputed p)).map Event.findVarUsage ++
      [Event.tryRule name level count p' out] ++
      deleteAll (⟨[], []⟩ : PlanList P)) = ruleNames log ++ [name] := by
  by_cases h : ops.varUsageComputed p = true <;>
    simp [ruleNames, List.filterMap_append, Event.ruleName?, deleteAll, h]

/-- A single plan at the level `L` walks through the rest `r :: post` of a table of strictly
increasing levels whose rules each emit one plan at the invoked level: one pass per rule, the
rules invoked in the order of the table, and the run ends with one plan at the maximum
level. -/
theorem createPlansFrom_chain {P : Type} (S : StdSort P) (ops : ExecutionPlanOps P)
    (cap : Nat) (rules : List (Rule P)) (M pass : Int)
    (hs : StrictlySortedByLevel rules) (hM : maxRuleLevel? rules = some M)
    (he : EmitsOnePlan rules) (hcap : 2 ≤ cap) :
    ∀ (post pre : List (Rule P)) (r : Rule P) (L : Int) (p : P) (log : List (Event P))
      (fuel : Nat),
      rules = pre ++ r :: post → (∀ x ∈ pre, x.level ≤ L) → L < r.level →
      post.length + 1 ≤ fuel →
      (createPlansFrom S ops cap rules M pass fuel L ⟨[p], [L]⟩ log).exit =
        Exit.returned TRI_ERROR_NO_ERROR ∧
      (∃ q : P, (createPlansFrom S ops cap rules M pass fuel L ⟨[p], [L]⟩ log)._plans =
        ⟨[q], [M]⟩) ∧
      passCount (createPlansFrom S ops cap rules M pass fuel L ⟨[p], [L]⟩ log).log =
        passCount log + (post.length + 1) ∧
      ruleNames (createPlansFrom S ops cap rules M pass fuel L ⟨[p], [L]⟩ log).log =
        ruleNames log ++ (r :: post).map Rule.name := by
  intro post
  induction post with
  | nil =>
    intro pre r L p log fuel hrules hpre hr hfuel
    obtain ⟨f, rfl⟩ : ∃ f, fuel = f + 1 := ⟨fuel - 1, by omega⟩
    have hrM : r.level = M := by
      subst hrules
      simpa [maxRuleLevel?] using hM
    have hLM : L < M := by omega
    have hmem : r ∈ rules := by subst hrules; simp
    obtain ⟨q, hq⟩ := he r hmem (withVarUsage ops p) r.level
    have hsort : SortedByLevel (pre ++ [r]) := by
      rw [← hrules]; exact hs.sorted
    have hrun := runPass_single ops pre [] r L M pass p q log hsort hpre hr (le_of_eq hrM) hq
    rw [← hrules] at hrun
    rw [createPlansFrom_succ S ops cap rules M pass f L _ log hLM, hrun]
    simp only
    have hsz : ¬ (PlanList.size (⟨[q], [r.level]⟩ : PlanList P) ≥ cap) := by
      simp [PlanList.size]; omega
    rw [if_neg hsz]
    have hleast : ¬ leastDoneLevelLoop M [r.level] < M := by
      simp [leastDoneLevelLoop, hrM]
    rw [createPlansFrom_of_not_lt S ops cap rules M pass f _ _ _ hleast]
    refine ⟨rfl, ⟨q, ?_⟩, ?_, ?_⟩
    · simp [finish, sortPlans, StdSort.sort_singleton, hrM]
    · rw [passCount_finish, passCount_single_pass]
      simp
    · rw [ruleNames_finish, ruleNames_single_pass]
      simp
  | cons r' post ih =>
    intro pre r L p log fuel hrules hpre hr hfuel
    obtain ⟨f, rfl⟩ : ∃ f, fuel = f + 1 := ⟨fuel - 1, by simp at hfuel; omega⟩
    have hs' : StrictlySortedByLevel (pre ++ r :: r' :: post) := by rw [← hrules]; exact hs
    have hrr' : r.level < r'.level := by
      have h1 := (List.pairwise_append.1 hs').2.1
      exact (List.pairwise_cons.1 h1).1 r' (List.mem_cons_self _ _)
    have hmem : r ∈ rules := by subst hrules; simp
    have hmem' : r' ∈ rules := by subst hrules; simp
    have hr'M : r'.level ≤ M := level_le_maxRuleLevel hs.sorted hM r' hmem'
    have hrM : r.level < M := by omega
    have hLM : L < M := by omega
    obtain ⟨q, hq⟩ := he r hmem (withVarUsage ops p) r.level
    have hsort : SortedByLevel (pre ++ r :: r' :: post) := hs'.sorted
    have hrun := runPass_single ops pre (r' :: post) r L M pass p q log hsort hpre hr
      (le_of_lt hrM) hq
    rw [← hrules] at hrun
    rw [createPlansFrom_succ S ops cap rules M pass f L _ log hLM, hrun]
    simp only
    have hsz : ¬ (PlanList.size (⟨[q], [r.level]⟩ : PlanList P) ≥ cap) := by
      simp [PlanList.size]; omega
    rw [if_neg hsz]
    have hleast : leastDoneLevelLoop M [r.level] = r.level := by
      simp [leastDoneLevelLoop, hrM]
    rw [hleast]
    have hrules' : rules = (pre ++ [r]) ++ r' :: post := by rw [hrules]; simp
    have hpre' : ∀ x ∈ pre ++ [r], x.level ≤ r.level := by
      intro x hx
      rcases List.mem_append.1 hx with hx | hx
      · have := hpre x hx; omega
      · simp at hx; subst hx; exact le_refl _
    obtain ⟨h1, h2, h3, h4⟩ := ih (pre ++ [r]) r' r.level q _ f hrules' hpre' hrr'
      (by simp at hfuel; omega)
    refine ⟨h1, h2, ?_, ?_⟩
    · rw [h3, passCount_single_pass]
      simp; omega
    · rw [h4, ruleNames_single_pass]
      simp

/-! ## The built-in table on one seed plan -/

theorem emitsOnePlan_keepAll : EmitsOnePlan (registerAll keepAll []) := by
  intro r hr p l
  simp only [registerAll, registerRule, List.nil_append, List.cons_append, List.mem_cons,
    List.mem_singleton, List.not_mem_nil, or_false] at hr
  rcases hr with rfl | rfl | rfl | rfl | rfl | rfl | rfl | rfl <;> exact ⟨p, rfl⟩

/-- Claim C21, as stated, fails when `maxNumberOfPlans` is 1. The run on the built-in table
stops behind its first pass: one pass, one rule invoked, and the plan is left at level 10,
although every rule emits exactly one plan at the level it was invoked with. -/
theorem C21_counterexample :
    setupRules keepAll [] = some (registerAll keepAll []) ∧
    EmitsOnePlan (registerAll keepAll []) ∧
    (createPlans (insertionStdSort Nat) demoOps 1 (registerAll keepAll []) 8
      PlanList.empty 1).exit = Exit.returned TRI_ERROR_NO_ERROR ∧
    passCount (createPlans (insertionStdSort Nat) demoOps 1 (registerAll keepAll []) 8
      PlanList.empty 1).log = 1 ∧
    ruleNames (createPlans (insertionStdSort Nat) demoOps 1 (registerAll keepAll []) 8
      PlanList.empty 1).log = ["move-calculations-up"] ∧
    (createPlans (insertionStdSort Nat) demoOps 1 (registerAll keepAll []) 8
      PlanList.empty 1)._plans = ⟨[1], [10]⟩ :=
  ⟨rfl, emitsOnePlan_keepAll, by decide, by decide, by decide, by decide⟩

/-- Claim C21, amended. With the built-in table, rules that each return without an error and
emit exactly one plan at the level they were invoked with, and a value of `maxNumberOfPlans`
of at least 2, `createPlans` on one seed plan returns `TRI_ERROR_NO_ERROR` after exactly 8
passes, invokes every registered rule exactly once, in the order move-calculations-up,
move-filters-up, interchangeAdjacentEnumerations, remove-unnecessary-filters,
remove-unnecessary-calculations, remove-redundant-sorts, use-index-range, use-index-for-sort,
and ends with a single plan at level 220. A budget of 8 passes is enough. -/
theorem C21_builtin_table_single_plan {P : Type} (S : StdSort P) (ops : ExecutionPlanOps P)
    (maxNumberOfPlans : Nat) (R : OptimizerRules P) (rules : List (Rule P)) (fuel : Nat)
    (_plans : PlanList P) (plan : P)
    (hrules : setupRules R [] = some rules) (he : EmitsOnePlan rules)
    (hcap : 2 ≤ maxNumberOfPlans) (hfuel : 8 ≤ fuel) :
    (createPlans S ops maxNumberOfPlans rules fuel _plans plan).exit =
      Exit.returned TRI_ERROR_NO_ERROR ∧
    passCount (createPlans S ops maxNumberOfPlans rules fuel _plans plan).log = 8 ∧
    ruleNames (createPlans S ops maxNumberOfPlans rules fuel _plans plan).log =
      ["move-calculations-up", "move-filters-up", "interchangeAdjacentEnumerations",
       "remove-unnecessary-filters", "remove-unnecessary-calculations",
       "remove-redundant-sorts", "use-index-range", "use-index-for-sort"] ∧
    ∃ q : P, (createPlans S ops maxNumberOfPlans rules fuel _plans plan)._plans =
      ⟨[q], [220]⟩ := by
  have hr : rules = registerAll R [] := by
    have h : setupRules R [] = some (registerAll R []) := rfl
    rw [h] at hrules
    exact (Option.some.inj hrules).symm
  subst hr
  have hs : StrictlySortedByLevel (registerAll R []) := by
    simp [StrictlySortedByLevel, registerAll, registerRule]
  have hrun : createPlans S ops maxNumberOfPlans (registerAll R []) fuel _plans plan =
      createPlansFrom S ops maxNumberOfPlans (registerAll R []) 220 1 fuel 0 ⟨[plan], [0]⟩
        (deleteAll _plans) := rfl
  rw [hrun]
  obtain ⟨h1, h2, h3, h4⟩ := createPlansFrom_chain S ops maxNumberOfPlans (registerAll R [])
    220 1 hs rfl he hcap
    [⟨"move-filters-up", R.moveFiltersUpRule, 20⟩,
     ⟨"interchangeAdjacentEnumerations", R.interchangeAdjacentEnumerations, 100⟩,
     ⟨"remove-unnecessary-filters", R.removeUnnecessaryFiltersRule, 110⟩,
     ⟨"remove-unnecessary-calculations", R.removeUnnecessaryCalculationsRule, 120⟩,
     ⟨"remove-redundant-sorts", R.removeRedundantSorts, 130⟩,
     ⟨"use-index-range", R.useIndexRange, 210⟩,
     ⟨"use-index-for-sort", R.useIndexForSort, 220⟩]
    [] ⟨"move-calculations-up", R.moveCalculationsUpRule, 10⟩ 0 plan (deleteAll _plans) fuel
    rfl (by simp) (by show (0 : Int) < 10; decide) (by simpa using hfuel)
  refine ⟨h1, ?_, ?_, h2⟩
  · rw [h3, passCount_deleteAll]; rfl
  · rw [h4, ruleNames_deleteAll]; rfl

theorem C21_builtin_table_single_plan_witness :
    setupRules keepAll [] = some (registerAll keepAll []) ∧
    EmitsOnePlan (registerAll keepAll []) ∧
    passCount (createPlans (insertionStdSort Nat) demoOps 2 (registerAll keepAll []) 8
      PlanList.empty 1).log = 8 ∧
    (createPlans (insertionStdSort Nat) demoOps 2 (registerAll keepAll []) 8
      PlanList.empty 1)._plans = ⟨[1], [220]⟩ :=
  ⟨rfl, emitsOnePlan_keepAll,
   (C21_builtin_table_single_plan (insertionStdSort Nat) demoOps 2 keepAll
     (registerAll keepAll []) 8 PlanList.empty 1 rfl emitsOnePlan_keepAll (by decide)
     (by decide)).2.1,
   by decide⟩

/-! ## The pairing of plans and levels -/

/-- Claim C22. The two sequences of the plan collection have the same length after every run
that starts with an empty collection. The pairing is lost in the sort: with a rule at level 10
that emits the plan 11 at level 10 and the plan 12 at level 20, and the cap 2, the run stops
behind the first pass with the entries (11, 10) and (12, 20); `sortPlans` moves the cheaper
plan 12 to the front of `list` and leaves `levelDone` as it was, so the plan 12, which reached
level 20, stands beside the level 10. -/
theorem C22_sort_breaks_pairing :
    (∀ {P : Type} (S : StdSort P) (ops : ExecutionPlanOps P) (maxNumberOfPlans : Nat)
      (rules : List (Rule P)) (fuel : Nat) (plan : P),
      (createPlans S ops maxNumberOfPlans rules fuel PlanList.empty plan)._plans.list.length =
        (createPlans S ops maxNumberOfPlans rules fuel PlanList.empty
          plan)._plans.levelDone.length) ∧
    (runPass demoOps [mixRule, keepRule] 20 1 ⟨[1], [0]⟩ []).newPlans =
      PlanList.ofEntries [(11, 10), (12, 20)] ∧
    demoOps.getCost 12 < demoOps.getCost 11 ∧
    createPlans (insertionStdSort Nat) demoOps 2 [mixRule, keepRule] 9 PlanList.empty 1 =
      ⟨Exit.returned TRI_ERROR_NO_ERROR, ⟨[12, 11], [10, 20]⟩,
        [Event.enterPass 1, Event.findVarUsage 1,
         Event.tryRule "mix" 10 0 1 (RuleOutcome.returned 0 [(11, 10), (12, 20)]),
         Event.getCost 11, Event.getCost 12, Event.sortPlans]⟩ := by
  refine ⟨?_, by decide, by decide, by decide⟩
  intro P S ops cap rules fuel plan
  unfold createPlans
  cases rules.getLast? with
  | none => rfl
  | some back =>
    simp only
    exact (createPlansFrom_lengths S ops cap rules back.level 1 fuel 0
      (PlanList.empty.push_back plan 0) (deleteAll PlanList.empty) rfl).2

/-! ## The sub-query counter -/

theorem SIZE_RANGE_pos : 0 < SIZE_RANGE := by unfold SIZE_RANGE; positivity

theorem starts_cons_start (cs : List SubQueryCall) :
    starts (SubQueryCall.startSubQuery :: cs) = starts cs + 1 := by
  simp [starts]

theorem starts_cons_end (cs : List SubQueryCall) :
    starts (SubQueryCall.endSubQuery :: cs) = starts cs := by
  simp [starts]

theorem ends_cons_start (cs : List SubQueryCall) :
    ends (SubQueryCall.startSubQuery :: cs) = ends cs := by
  simp [ends]

theorem ends_cons_end (cs : List SubQueryCall) :
    ends (SubQueryCall.endSubQuery :: cs) = ends cs + 1 := by
  simp [ends]

/-- As long as the counter neither falls below zero nor leaves the range of `size_t`, no
assertion fails and the counter is its first value plus the starts minus the ends. -/
theorem Parser.calls_count : ∀ (cs : List SubQueryCall) (c : Nat), c < SIZE_RANGE →
    (∀ k : Nat, k ≤ cs.length → ends (cs.take k) ≤ c + starts (cs.take k) ∧
      c + starts (cs.take k) < ends (cs.take k) + SIZE_RANGE) →
    Parser.calls ⟨c⟩ cs = some ⟨c + starts cs - ends cs⟩ := by
  intro cs
  induction cs with
  | nil => intro c _ _; simp [Parser.calls, starts, ends]
  | cons a cs ih =>
    intro c hc h
    cases a with
    | startSubQuery =>
      have h1 := h 1 (by simp)
      simp only [List.take_succ_cons, List.take_zero, starts_cons_start, ends_cons_start] at h1
      have h0 : starts ([] : List SubQueryCall) = 0 := rfl
      have h0' : ends ([] : List SubQueryCall) = 0 := rfl
      rw [h0, h0'] at h1
      have hmod : (c + 1) % SIZE_RANGE = c + 1 := Nat.mod_eq_of_lt (by omega)
      simp only [Parser.calls, Parser.call, Parser.startSubQuery, Option.bind_eq_bind,
        Option.some_bind, hmod]
      rw [ih (c + 1) (by omega) ?_, starts_cons_start, ends_cons_start]
      · congr 2; omega
      · intro k hk
        have := h (k + 1) (by simpa using hk)
        simp only [List.take_succ_cons, starts_cons_start, ends_cons_start] at this
        omega
    | endSubQuery =>
      have h1 := h 1 (by simp)
      simp only [List.take_succ_cons, List.take_zero, starts_cons_end, ends_cons_end] at h1
      have h0 : starts ([] : List SubQueryCall) = 0 := rfl
      have h0' : ends ([] : List SubQueryCall) = 0 := rfl
      rw [h0, h0'] at h1
      have hpos : c > 0 := by omega
      have hmod : (c - 1) % SIZE_RANGE = c - 1 := Nat.mod_eq_of_lt (by omega)
      simp only [Parser.calls, Parser.call, Parser.endSubQuery, hpos, if_true,
        Option.bind_eq_bind, Option.some_bind, hmod]
      rw [ih (c - 1) (by omega) ?_, starts_cons_end, ends_cons_end]
      · congr 2; omega
      · intro k hk
        have := h (k + 1) (by simpa using hk)
        simp only [List.take_succ_cons, starts_cons_end, ends_cons_end] at this
        omega

/-- Starts only: the counter is the number of starts modulo 2^64. -/
theorem Parser.calls_replicate_start : ∀ (n c : Nat),
    Parser.calls ⟨c⟩ (List.replicate n SubQueryCall.startSubQuery) =
      some ⟨if n = 0 then c else (c + n) % SIZE_RANGE⟩ := by
  intro n
  induction n with
  | zero => intro c; simp [Parser.calls]
  | succ n ih =>
    intro c
    simp only [List.replicate_succ, Parser.calls, Parser.call, Parser.startSubQuery,
      Option.bind_eq_bind, Option.some_bind]
    rw [ih]
    by_cases hn : n = 0
    · subst hn; simp
    · simp only [hn, if_false, Nat.add_eq_zero, one_ne_zero, and_false]
      congr 2
      rw [Nat.add_mod, Nat.mod_mod, ← Nat.add_mod]
      congr 1; omega

theorem Parser.calls_append (p : Parser) (a b : List SubQueryCall) :
    p.calls (a ++ b) = (p.calls a).bind (fun q => q.calls b) := by
  induction a generalizing p with
  | nil => simp [Parser.calls]
  | cons c a ih =>
    simp only [List.cons_append, Parser.calls, Option.bind_eq_bind]
    cases p.call c with
    | none => rfl
    | some q => simp only [Option.some_bind]; exact ih q

theorem ends_replicate_start (n : Nat) :
    ends (List.replicate n SubQueryCall.startSubQuery) = 0 := by
  simp [ends, List.count_replicate]

theorem starts_replicate_start (n : Nat) :
    starts (List.replicate n SubQueryCall.startSubQuery) = n := by
  simp [starts, List.count_replicate]

theorem ends_replicate_start_end (n : Nat) :
    ends (List.replicate n SubQueryCall.startSubQuery ++ [SubQueryCall.endSubQuery]) = 1 := by
  simp [ends, List.count_replicate]

theorem starts_replicate_start_end (n : Nat) :
    starts (List.replicate n SubQueryCall.startSubQuery ++ [SubQueryCall.endSubQuery]) = n := by
  simp [starts, List.count_replicate]

theorem noPrefixEndsMore_replicate (n : Nat) :
    NoPrefixEndsMore (List.replicate n SubQueryCall.startSubQuery) := by
  intro k _
  rw [List.take_replicate, ends_replicate_start]
  exact Nat.zero_le _

theorem noPrefixEndsMore_replicate_end (n : Nat) (hn : 0 < n) :
    NoPrefixEndsMore (List.replicate n SubQueryCall.startSubQuery ++
      [SubQueryCall.endSubQuery]) := by
  intro k hk
  by_cases hle : k ≤ (List.replicate n SubQueryCall.startSubQuery).length
  · rw [List.take_append_of_le_length hle, List.take_replicate, ends_replicate_start]
    exact Nat.zero_le _
  · rw [List.take_of_length_le (by simp at hle ⊢; omega), ends_replicate_start_end,
      starts_replicate_start_end]
    exact hn

theorem Parser.calls_replicate_range :
    Parser.calls ⟨0⟩ (List.replicate SIZE_RANGE SubQueryCall.startSubQuery) = some ⟨0⟩ := by
  rw [Parser.calls_replicate_start]
  have hne : SIZE_RANGE ≠ 0 := Nat.pos_iff_ne_zero.1 SIZE_RANGE_pos
  simp [hne]

/-- Claim C25, as stated, fails for a sequence that opens 2^64 sub-queries. After 2^64 calls
of `startSubQuery` on a fresh parser the counter has wrapped around to zero: `isInSubQuery`
answers false although the starts exceed the ends, and the assertion of a call of
`endSubQuery` that follows fails, although no prefix of the sequence contains more ends than
starts. -/
theorem C25_counterexample :
    NoPrefixEndsMore (List.replicate SIZE_RANGE SubQueryCall.startSubQuery ++
      [SubQueryCall.endSubQuery]) ∧
    NoPrefixEndsMore (List.replicate SIZE_RANGE SubQueryCall.startSubQuery) ∧
    Parser.calls ⟨0⟩ (List.replicate SIZE_RANGE SubQueryCall.startSubQuery) = some ⟨0⟩ ∧
    Parser.isInSubQuery ⟨0⟩ = false ∧
    ends (List.replicate SIZE_RANGE SubQueryCall.startSubQuery) <
      starts (List.replicate SIZE_RANGE SubQueryCall.startSubQuery) ∧
    Parser.calls ⟨0⟩ (List.replicate SIZE_RANGE SubQueryCall.startSubQuery ++
      [SubQueryCall.endSubQuery]) = none := by
  refine ⟨noPrefixEndsMore_replicate_end SIZE_RANGE SIZE_RANGE_pos,
    noPrefixEndsMore_replicate SIZE_RANGE, Parser.calls_replicate_range, rfl, ?_, ?_⟩
  · rw [ends_replicate_start, starts_replicate_start]
    exact SIZE_RANGE_pos
  · rw [Parser.calls_append, Parser.calls_replicate_range]
    rfl

/-- Claim C25, amended. On a fresh parser, whose counter is zero, and for every sequence of
calls of `startSubQuery` and `endSubQuery` in which no prefix contains more ends than starts
and fewer than 2^64 sub-queries are open after every prefix: no assertion fails, after every
prefix the counter is the number of starts minus the number of ends, and `isInSubQuery` is
true exactly when the starts so far exceed the ends. A call of `endSubQuery` directly after a
call of `startSubQuery` restores the parser it started from whenever the counter was below
2^64 - 1. -/
theorem C25_sub_query_counter (p : Parser) (cs : List SubQueryCall)
    (hfresh : p._subQueryCount = 0) (hb : NoPrefixEndsMore cs) (hd : DepthInRange cs) :
    (∀ k : Nat, k ≤ cs.length → ∃ q : Parser, p.calls (cs.take k) = some q ∧
      q._subQueryCount + ends (cs.take k) = starts (cs.take k) ∧
      (q.isInSubQuery = true ↔ ends (cs.take k) < starts (cs.take k))) ∧
    (∀ q : Parser, q._subQueryCount + 1 < SIZE_RANGE →
      q.startSubQuery.endSubQuery = some q) := by
  refine ⟨?_, ?_⟩
  · intro k hk
    obtain ⟨c⟩ := p
    simp only at hfresh
    subst hfresh
    have hcond : ∀ j : Nat, j ≤ (cs.take k).length →
        ends ((cs.take k).take j) ≤ 0 + starts ((cs.take k).take j) ∧
        0 + starts ((cs.take k).take j) < ends ((cs.take k).take j) + SIZE_RANGE := by
      intro j _
      rw [List.take_take]
      have hm : min j k ≤ cs.length := le_trans (Nat.min_le_right _ _) hk
      have h1 := hb _ hm
      have h2 := hd _ hm
      omega
    have hle := hb k hk
    refine ⟨_, Parser.calls_count (cs.take k) 0 SIZE_RANGE_pos hcond, ?_, ?_⟩
    · simp only; omega
    · simp only [Parser.isInSubQuery, decide_eq_true_eq]; omega
  · intro q hq
    obtain ⟨c⟩ := q
    simp only at hq
    have hmod : (c + 1) % SIZE_RANGE = c + 1 := Nat.mod_eq_of_lt hq
    have hmod' : c % SIZE_RANGE = c := Nat.mod_eq_of_lt (by omega)
    simp [Parser.startSubQuery, Parser.endSubQuery, hmod, hmod']

theorem C25_sub_query_counter_witness :
    NoPrefixEndsMore [SubQueryCall.startSubQuery, SubQueryCall.startSubQuery,
      SubQueryCall.endSubQuery, SubQueryCall.endSubQuery] ∧
    DepthInRange [SubQueryCall.startSubQuery, SubQueryCall.startSubQuery,
      SubQueryCall.endSubQuery, SubQueryCall.endSubQuery] ∧
    ∃ q : Parser, Parser.calls ⟨0⟩ ([SubQueryCall.startSubQuery, SubQueryCall.startSubQuery,
      SubQueryCall.endSubQuery, SubQueryCall.endSubQuery].take 3) = some q ∧
      q._subQueryCount + ends ([SubQueryCall.startSubQuery, SubQueryCall.startSubQuery,
        SubQueryCall.endSubQuery, SubQueryCall.endSubQuery].take 3) =
        starts ([SubQueryCall.startSubQuery, SubQueryCall.startSubQuery,
          SubQueryCall.endSubQuery, SubQueryCall.endSubQuery].take 3) ∧
      (q.isInSubQuery = true ↔
        ends ([SubQueryCall.startSubQuery, SubQueryCall.startSubQuery,
          SubQueryCall.endSubQuery, SubQueryCall.endSubQuery].take 3) <
        starts ([SubQueryCall.startSubQuery, SubQueryCall.startSubQuery,
          SubQueryCall.endSubQuery, SubQueryCall.endSubQuery].take 3)) :=
  ⟨by unfold NoPrefixEndsMore; decide, by unfold DepthInRange; decide,
   (C25_sub_query_counter ⟨0⟩ [SubQueryCall.startSubQuery, SubQueryCall.startSubQuery,
      SubQueryCall.endSubQuery, SubQueryCall.endSubQuery] rfl
      (by unfold NoPrefixEndsMore; decide) (by unfold DepthInRange; decide)).1 3
      (by decide)⟩

/-! ## The callbacks of `buildCallback` -/

/-- Claim C27. Every callback returned by `buildCallback`, whatever the members
`_produceResult` and `_useRawDocumentPointers` and the projection are, increases `row` by one
in the arithmetic of `size_t` (the new value is `row + 1` unless `row` is the largest value
of `size_t`), and calls `copyValuesFromRow(row, registerId, fromRow)` exactly once when `row`
differs from `fromRow` and not at all when they are equal. When the output variable is not
used later, the callback makes no call of `emplaceValue`; otherwise it makes exactly one, for
the row `row` and the register `registerId`, in front of the copy. -/
theorem C27_callback_advances_row {Slice : Type} (ops : SliceOps Slice)
    (b : DocumentProducingBlock) (slice : Slice) (registerId row fromRow : Nat) :
    (b.buildCallback ops slice registerId row fromRow).2 = (row + 1) % SIZE_RANGE ∧
    (row + 1 < SIZE_RANGE → (b.buildCallback ops slice registerId row fromRow).2 = row + 1) ∧
    (b.buildCallback ops slice registerId row fromRow).1.filter BlockCall.isCopyValuesFromRow =
      (if row ≠ fromRow then
        [BlockCall.copyValuesFromRow row (ops.toRegisterId registerId) fromRow] else []) ∧
    (b._produceResult = false →
      (b.buildCallback ops slice registerId row fromRow).1.filter BlockCall.isEmplaceValue =
        []) ∧
    (b._produceResult = true → ∃ value : EmplacedValue Slice,
      (b.buildCallback ops slice registerId row fromRow).1 =
        BlockCall.emplaceValue row (ops.toRegisterId registerId) value ::
          (if row ≠ fromRow then
            [BlockCall.copyValuesFromRow row (ops.toRegisterId registerId) fromRow]
            else [])) := by
  obtain ⟨pr, raw, proj⟩ := b
  cases pr
  · refine ⟨rfl, fun h => Nat.mod_eq_of_lt h, ?_, fun _ => ?_, fun h => absurd h (by simp)⟩
    · by_cases hrow : row = fromRow <;>
        simp [DocumentProducingBlock.buildCallback, hrow, BlockCall.isCopyValuesFromRow]
    · by_cases hrow : row = fromRow <;>
        simp [DocumentProducingBlock.buildCallback, hrow, BlockCall.isEmplaceValue]
  · have key : ∃ value : EmplacedValue Slice,
        DocumentProducingBlock.buildCallback ops ⟨true, raw, proj⟩ slice registerId row fromRow =
          (BlockCall.emplaceValue row (ops.toRegisterId registerId) value ::
            (if row ≠ fromRow then
              [BlockCall.copyValuesFromRow row (ops.toRegisterId registerId) fromRow]
              else []), (row + 1) % SIZE_RANGE) := by
      rcases proj with _ | ⟨a, _ | ⟨a2, rest⟩⟩
      · cases raw <;> by_cases hrow : row = fromRow <;>
          simp [DocumentProducingBlock.buildCallback, hrow]
      · by_cases h1 : a = ops.IdString
        · subst h1
          by_cases hc : ops.isCustom (ops.extractIdFromDocument slice) = true <;>
            by_cases hrow : row = fromRow <;>
            simp [DocumentProducingBlock.buildCallback, hc, hrow]
        · by_cases h2 : a = ops.KeyString
          · subst h2
            cases raw <;> by_cases hrow : row = fromRow <;>
              simp [DocumentProducingBlock.buildCallback, h1, hrow]
          · cases raw <;> by_cases hn : ops.isNone (ops.get slice a) = true <;>
              by_cases hrow : row = fromRow <;>
              simp [DocumentProducingBlock.buildCallback, h1, h2, hn, hrow]
      · cases raw <;> by_cases hn : ops.isNone (ops.getPath slice (a :: a2 :: rest)) = true <;>
          by_cases hrow : row = fromRow <;>
          simp [DocumentProducingBlock.buildCallback, hn, hrow]
    obtain ⟨value, hv⟩ := key
    rw [hv]
    refine ⟨rfl, fun h => Nat.mod_eq_of_lt h, ?_, fun h => absurd h (by simp), fun _ => ⟨value, rfl⟩⟩
    by_cases hrow : row = fromRow <;> simp [hrow, BlockCall.isCopyValuesFromRow]

theorem C27_callback_advances_row_witness :
    5 + 1 < SIZE_RANGE ∧
    (DocumentProducingBlock.buildCallback demoSliceOps ⟨false, true, ["a"]⟩ "doc" 2 5 4).2 =
      5 + 1 ∧
    (DocumentProducingBlock.buildCallback demoSliceOps ⟨false, true, ["a"]⟩ "doc" 2 5
      4).1.filter BlockCall.isEmplaceValue = [] ∧
    ∃ value : EmplacedValue String,
      (DocumentProducingBlock.buildCallback demoSliceOps ⟨true, false, ["_key"]⟩ "doc" 2 5
        5).1 =
        BlockCall.emplaceValue 5 (demoSliceOps.toRegisterId 2) value ::
          (if 5 ≠ 5 then [BlockCall.copyValuesFromRow 5 (demoSliceOps.toRegisterId 2) 5]
            else []) :=
  ⟨by decide,
   (C27_callback_advances_row demoSliceOps ⟨false, true, ["a"]⟩ "doc" 2 5 4).2.1 (by decide),
   (C27_callback_advances_row demoSliceOps ⟨false, true, ["a"]⟩ "doc" 2 5 4).2.2.2.1 rfl,
   (C27_callback_advances_row demoSliceOps ⟨true, false, ["_key"]⟩ "doc" 2 5 5).2.2.2.2 rfl⟩

end Aql

namespace VocBase

/-! ## Writing the defaults and reading them back -/

/-- Claim C26. Reading back what `toVelocyPack(builder)` wrote does not restore all six
members: `TRI_FromJsonVocBaseDefaults` takes over the five booleans and leaves the member
`defaultMaximalSize` of the target as it was, because its last block reads the attribute
"forceSyncProperties" a second time in place of "defaultMaximalSize". With the written
defaults holding the size 1048576 and the target holding 33554432, the target still holds
33554432 after the call. -/
theorem C26_defaultMaximalSize_not_restored :
    (∀ (maxSize : Nat) (d d' : TRI_vocbase_defaults_t), ∃ builder : VPackBuilder,
      d.toVelocyPack ⟨false, []⟩ = some builder ∧
      builder.attributes =
        [("waitForSync", VPackValue.bool d.defaultWaitForSync),
         ("requireAuthentication", VPackValue.bool d.requireAuthentication),
         ("requireAuthenticationUnixSockets",
           VPackValue.bool d.requireAuthenticationUnixSockets),
         ("authenticateSystemOnly", VPackValue.bool d.authenticateSystemOnly),
         ("forceSyncProperties", VPackValue.bool d.forceSyncProperties),
         ("defaultMaximalSize", VPackValue.number (d.defaultMaximalSize : Int))] ∧
      TRI_FromJsonVocBaseDefaults maxSize d' (VPackSlice.object builder.attributes) =
        some { d with defaultMaximalSize := d'.defaultMaximalSize }) ∧
    writtenDefaults.toVelocyPack ⟨false, []⟩ =
      some ⟨false,
        [("waitForSync", VPackValue.bool true), ("requireAuthentication", VPackValue.bool true),
         ("requireAuthenticationUnixSockets", VPackValue.bool false),
         ("authenticateSystemOnly", VPackValue.bool true),
         ("forceSyncProperties", VPackValue.bool true),
         ("defaultMaximalSize", VPackValue.number 1048576)]⟩ ∧
    TRI_FromJsonVocBaseDefaults 4294967295 targetDefaults
      (VPackSlice.object
        [("waitForSync", VPackValue.bool true), ("requireAuthentication", VPackValue.bool true),
         ("requireAuthenticationUnixSockets", VPackValue.bool false),
         ("authenticateSystemOnly", VPackValue.bool true),
         ("forceSyncProperties", VPackValue.bool true),
         ("defaultMaximalSize", VPackValue.number 1048576)]) =
      some ⟨33554432, true, true, false, true, true⟩ ∧
    writtenDefaults.defaultMaximalSize = 1048576 := by
  refine ⟨?_, by decide, by decide, rfl⟩
  intro maxSize d d'
  refine ⟨_, rfl, rfl, ?_⟩
  simp [TRI_FromJsonVocBaseDefaults, VPackSlice.isObject, VPackSlice.get, VPackBuilder.add,
    List.lookup, VPackValue.isBoolean, VPackValue.getBool, VPackValue.isNumber]

end VocBase
